import Mathlib

/-!
tarfs: a read-only file system over a tar archive.

A shallow embedding of `tarfs.go`, `dir.go`, `file.go`, `link.go`, `symlink.go`,
`deny.go` and `extract.go`, together with the functions of Go's `path`, `io/fs`, `io`,
`strings`, `sort`, `os` and `archive/tar` packages that they call.

Modelling conventions.

* A Go `string` is the list of its bytes (`Str`).  A byte `b` is written as the
  character `Char.ofNat b`, so that ASCII text reads as itself: `'/'` is the byte
  0x2F, and `Char.ofNat 0xFF` is the byte 0xFF, which occurs in no UTF-8 text.  Names
  are arbitrary byte strings, as `archive/tar` returns them; `utf8.ValidString`
  decides which of them are UTF-8.  A character above 0xFF stands for no byte and
  `utf8.ValidString` rejects it.
* An `int64` is an `Int`; `int64.wrap` is applied where the Go arithmetic can
  overflow on values that a caller chooses.
* A Go `map[string]T` is an association list with at most one pair per key.
* A Go pointer to a mutable `link` object is an index into the list of all
  `link` objects (`fileSystem.links`, the `links` slice of `OpenFS`).
* A loop or recursion that is not structurally decreasing takes a `fuel`
  argument; `none` is the outcome "fuel exhausted" and is shown not to occur.
-/

namespace Tarfs

/-- Go `string`: the list of its bytes, the byte `b` written as `Char.ofNat b`. -/
abbrev Str := List Char

/-- The `int64` that Go's wrapping arithmetic yields for the exact result `x`. -/
def int64.wrap (x : Int) : Int :=
  (x + 2 ^ 63) % 2 ^ 64 - 2 ^ 63

/-! ## Package `path` -/

namespace path

/-- The inner loop of the `..` case of `path.Clean`, entered after `out.w--`:
`for out.w > dotdot && out.index(out.w) != '/' { out.w-- }`; returns the final `out.w`. -/
def backtrack (buf : Str) (dotdot : Nat) : Nat → Nat
  | 0 => 0
  | w + 1 =>
    if w + 1 > dotdot ∧ buf.get? (w + 1) ≠ some '/' then backtrack buf dotdot w else w + 1

/-- The main loop `for r < n { ... }` of `path.Clean`.  `p` is `path[r:]`, `out` is the
written part `buf[:w]` of the lazy buffer. One unit of fuel per iteration. -/
def cleanLoop (rooted : Bool) : Nat → Str → Str → Nat → Str
  | 0, _, out, _ => out
  | fuel + 1, p, out, dotdot =>
    match p with
    | [] => out
    | c :: rest =>
      if c = '/' then
        -- empty path element
        cleanLoop rooted fuel rest out dotdot
      else if c = '.' ∧ (rest = [] ∨ rest.head? = some '/') then
        -- . element
        cleanLoop rooted fuel rest out dotdot
      else if c = '.' ∧ rest.head? = some '.' ∧
          (rest.tail = [] ∨ rest.tail.head? = some '/') then
        -- .. element: remove to last /
        if out.length > dotdot then
          -- can backtrack
          cleanLoop rooted fuel rest.tail
            (out.take (backtrack out dotdot (out.length - 1))) dotdot
        else if !rooted then
          -- cannot backtrack, but not rooted, so append .. element.
          let out1 := if out.length > 0 then out ++ ['/'] else out
          let out2 := out1 ++ ['.', '.']
          cleanLoop rooted fuel rest.tail out2 out2.length
        else
          cleanLoop rooted fuel rest.tail out dotdot
      else
        -- real path element. add slash if needed
        let out1 :=
          if (rooted && out.length != 1) || (!rooted && out.length != 0) then out ++ ['/']
          else out
        -- copy element
        cleanLoop rooted fuel (p.dropWhile (· ≠ '/')) (out1 ++ p.takeWhile (· ≠ '/')) dotdot

/-- Go `path.Clean`. -/
def Clean (p : Str) : Str :=
  if p = [] then ['.']
  else
    let rooted := p.head? = some '/'
    let out :=
      if rooted then cleanLoop true p.length p.tail ['/'] 1
      else cleanLoop false p.length p [] 0
    -- Turn empty string into "."
    if out.length = 0 then ['.'] else out

/-- Go `path.Join`, for the two-element calls made by this package. -/
def Join (a b : Str) : Str :=
  if a.length + b.length = 0 then []
  else
    let buf0 : Str := if a ≠ [] then a else []
    let buf1 : Str :=
      if buf0.length > 0 ∨ b ≠ [] then
        (if buf0.length > 0 then buf0 ++ ['/'] else buf0) ++ b
      else buf0
    Clean buf1

/-- The number of bytes up to and including the last `'/'` of `p`
(`bytealg.LastIndexByteString(p, '/') + 1`), zero when there is none. -/
def lastSlash : Str → Nat
  | [] => 0
  | c :: rest =>
    if c = '/' then (if rest.contains '/' then lastSlash rest + 1 else 1)
    else if rest.contains '/' then lastSlash rest + 1 else 0

/-- Go `path.Split`. -/
def Split (p : Str) : Str × Str :=
  (p.take (lastSlash p), p.drop (lastSlash p))

/-- Go `path.Dir`. -/
def Dir (p : Str) : Str :=
  Clean (Split p).1

/-- The loop of `path.Base` that strips trailing slashes, on the reversed string. -/
def stripSlashes : Str → Str
  | [] => []
  | c :: rest => if c = '/' then stripSlashes rest else c :: rest

/-- Go `path.Base`. -/
def Base (p : Str) : Str :=
  if p = [] then ['.']
  else
    let p1 := (stripSlashes p.reverse).reverse
    let p2 := p1.drop (lastSlash p1)
    if p2 = [] then ['/'] else p2

end path

/-! ## Package `unicode/utf8` -/

namespace utf8

/-- `RuneSelf`: bytes below it are ASCII. -/
def RuneSelf : Nat := 0x80

/-- `locb`, the lowest continuation byte. -/
def locb : Nat := 0x80

/-- `hicb`, the highest continuation byte. -/
def hicb : Nat := 0xBF

/-- The entry `first[b]` for a byte `b ≥ RuneSelf`, read with its accept range
`acceptRanges[x >> 4]`: the size `x & 7` of the sequence that `b` starts and the bounds
`lo`, `hi` of its second byte; `none` is `xx`, an illegal starter byte. -/
def first (b : Nat) : Option (Nat × Nat × Nat) :=
  if 0xC2 ≤ b ∧ b ≤ 0xDF then some (2, locb, hicb) -- s1
  else if b = 0xE0 then some (3, 0xA0, hicb) -- s2
  else if 0xE1 ≤ b ∧ b ≤ 0xEC then some (3, locb, hicb) -- s3
  else if b = 0xED then some (3, locb, 0x9F) -- s4
  else if 0xEE ≤ b ∧ b ≤ 0xEF then some (3, locb, hicb) -- s3
  else if b = 0xF0 then some (4, 0x90, hicb) -- s5
  else if 0xF1 ≤ b ∧ b ≤ 0xF3 then some (4, locb, hicb) -- s6
  else if b = 0xF4 then some (4, locb, 0x8F) -- s7
  else none

/-- The test `c < lo || hi < c` on a byte of the string. -/
def outside (c : Char) (lo hi : Nat) : Bool :=
  c.toNat < lo || hi < c.toNat

/-- Go `utf8.ValidString`: the loop `for i := 0; i < n; { ... }` on `s[i:]`.  The fast
path before it only skips leading ASCII bytes, eight at a time, which the loop accepts as
well. -/
def ValidString : Str → Bool
  | [] => true
  | si :: rest =>
    if si.toNat < RuneSelf then ValidString rest
    else
      match first si.toNat with
      | none => false -- Illegal starter byte.
      | some (size, lo, hi) =>
        if rest.length + 1 < size then false -- Short or invalid.
        else
          match rest with
          | [] => false
          | c1 :: rest1 =>
            if outside c1 lo hi then false
            else if size = 2 then ValidString rest1
            else
              match rest1 with
              | [] => false
              | c2 :: rest2 =>
                if outside c2 locb hicb then false
                else if size = 3 then ValidString rest2
                else
                  match rest2 with
                  | [] => false
                  | c3 :: rest3 =>
                    if outside c3 locb hicb then false
                    else ValidString rest3

end utf8

/-! ## Package `io/fs` -/

namespace fs

/-- The element loop of `fs.ValidPath`: `elem` accumulates (reversed) the bytes of the
current element, `name` is what is left to scan. -/
def validElems : Str → Str → Bool
  | elem, [] => !(elem = [] || elem = ['.'] || elem = ['.', '.'])
  | elem, c :: rest =>
    if c = '/' then
      if elem = [] || elem = ['.'] || elem = ['.', '.'] then false
      else validElems [] rest
    else validElems (c :: elem) rest

/-- Go `fs.ValidPath`. -/
def ValidPath (name : Str) : Bool :=
  if !utf8.ValidString name then false
  else if name = ['.'] then true -- special case
  else validElems [] name

end fs

/-- Go errors returned by this package.  `nilDereference` is not an error value: it is
the run-time panic raised by a method call through a nil interface or nil pointer. -/
inductive Error where
  /-- `tarfs.ErrLoop` -/
  | ErrLoop
  /-- `fs.ErrInvalid` -/
  | ErrInvalid
  /-- `fs.ErrPermission` -/
  | ErrPermission
  /-- `fs.ErrNotExist` -/
  | ErrNotExist
  /-- `fs.ErrClosed` -/
  | ErrClosed
  /-- `fs.ErrExist` -/
  | ErrExist
  /-- `io.EOF` -/
  | EOF
  /-- `*fs.PathError` -/
  | PathError (Op : Str) (Path : Str) (Err : Error)
  /-- any other error, produced by the tar reader -/
  | other (code : Nat)
  | nilDereference
  deriving DecidableEq, Repr

deriving instance DecidableEq for Except

/-! ## Go maps and `sort.Strings` -/

/-- Map read `m[k]`. -/
def mapGet {β : Type} : List (Str × β) → Str → Option β
  | [], _ => none
  | (k1, v) :: rest, k => if k1 = k then some v else mapGet rest k

/-- Map write `m[k] = v`. -/
def mapSet {β : Type} : List (Str × β) → Str → β → List (Str × β)
  | [], k, v => [(k, v)]
  | (k1, v1) :: rest, k, v =>
    if k1 = k then (k, v) :: rest else (k1, v1) :: mapSet rest k v

/-- Set write `s[k] = struct{}{}` on a `map[string]struct{}`. -/
def setInsert (s : List Str) (k : Str) : List Str :=
  if k ∈ s then s else s ++ [k]

/-- Go's `<` on strings: lexicographic on bytes. -/
def strLess : Str → Str → Bool
  | [], [] => false
  | [], _ :: _ => true
  | _ :: _, [] => false
  | a :: as, b :: bs =>
    if a.toNat < b.toNat then true
    else if b.toNat < a.toNat then false
    else strLess as bs

/-- Insertion of one string into an ascending list. -/
def insertSorted (x : Str) : List Str → List Str
  | [] => [x]
  | y :: ys => if strLess y x then y :: insertSorted x ys else x :: y :: ys

/-- Go `sort.Strings`: the strings in increasing order. -/
def sortStrings (l : List Str) : List Str :=
  l.foldr insertSorted []

/-! ## Package `archive/tar` -/

namespace tar

/-- Go `tar.Header`, the fields this package reads.  `Mode` and `Size` are `int64`. -/
structure Header where
  Typeflag : Char
  Name : Str
  Linkname : Str
  Size : Int
  Mode : Int
  ModTime : Nat
  deriving DecidableEq, Repr

def TypeReg : Char := '0'
def TypeLink : Char := '1'
def TypeSymlink : Char := '2'
def TypeChar : Char := '3'
def TypeBlock : Char := '4'
def TypeDir : Char := '5'
def TypeFifo : Char := '6'
def TypeRegA : Char := Char.ofNat 0

/-- A `*tar.Reader` over the section: the headers that successive calls of `Next` return,
each with the read position of the section once that header has been read, and the error
that ends the stream when it is not `io.EOF`. -/
structure Reader where
  members : List (Header × Int)
  err : Option Error
  deriving Repr

end tar

/-! ## Entries (`file.go`, `dir.go`, `link.go`, `symlink.go`, `deny.go`) -/

/-- `type file struct` -/
structure file where
  header : tar.Header
  offset : Int
  deriving DecidableEq, Repr

/-- `type dir struct`; `entries` is the `map[string]struct{}`. -/
structure dir where
  name : Str
  modTime : Nat
  entries : List Str
  deriving DecidableEq, Repr

/-- `type link struct`; `target` is the `*file`, `none` for nil. -/
structure link where
  target : Option file
  header : tar.Header
  deriving DecidableEq, Repr

/-- The implementations of `interface fileEntry`.  A `*link` is the index of the link
object in the list of all link objects. -/
inductive fileEntry where
  | file (f : file)
  | dir (d : dir)
  | link (ref : Nat)
  | symlink (header : tar.Header)
  | deny (header : tar.Header)
  deriving DecidableEq, Repr

/-- `type fileSystem struct`; `links` holds the link objects that the `*link` entries of
`files` point to. -/
structure fileSystem where
  data : List Nat
  size : Int
  files : List (Str × fileEntry)
  links : List link
  deriving DecidableEq, Repr

/-! ## File information -/

namespace fs

/-- `fs.FileMode` bits. -/
def ModeDir : Nat := 2 ^ 31
def ModeSymlink : Nat := 2 ^ 27
def ModeDevice : Nat := 2 ^ 26
def ModeNamedPipe : Nat := 2 ^ 25
def ModeSocket : Nat := 2 ^ 24
def ModeSetuid : Nat := 2 ^ 23
def ModeSetgid : Nat := 2 ^ 22
def ModeCharDevice : Nat := 2 ^ 21
def ModeSticky : Nat := 2 ^ 20
def ModePerm : Nat := 0o777

/-- The conversion `fs.FileMode(x)` of an `int64` to the `uint32` type `fs.FileMode`. -/
def FileMode (x : Int) : Nat := (x % 2 ^ 32).toNat

end fs

namespace tar

/-- The 64-bit two's-complement pattern of an `int64`. -/
def bits64 (x : Int) : Nat := (x % 2 ^ 64).toNat

/-- `x & y != 0` for an `int64` `x` and a small non-negative constant `y`. -/
def hasBits (x : Int) (y : Nat) : Bool := (bits64 x) &&& y != 0

/-- `headerFileInfo.Mode` of `archive/tar`. -/
def headerMode (h : Header) : Nat :=
  let mode := fs.FileMode h.Mode &&& fs.ModePerm
  let mode := if hasBits h.Mode 0o4000 then mode ||| fs.ModeSetuid else mode
  let mode := if hasBits h.Mode 0o2000 then mode ||| fs.ModeSetgid else mode
  let mode := if hasBits h.Mode 0o1000 then mode ||| fs.ModeSticky else mode
  let m := fs.FileMode h.Mode &&& (2 ^ 32 - 1 - 0o7777)
  let mode :=
    if m = 0o40000 then mode ||| fs.ModeDir
    else if m = 0o10000 then mode ||| fs.ModeNamedPipe
    else if m = 0o120000 then mode ||| fs.ModeSymlink
    else if m = 0o60000 then mode ||| fs.ModeDevice
    else if m = 0o20000 then mode ||| fs.ModeDevice ||| fs.ModeCharDevice
    else if m = 0o140000 then mode ||| fs.ModeSocket
    else mode
  if h.Typeflag = TypeSymlink then mode ||| fs.ModeSymlink
  else if h.Typeflag = TypeChar then mode ||| fs.ModeDevice ||| fs.ModeCharDevice
  else if h.Typeflag = TypeBlock then mode ||| fs.ModeDevice
  else if h.Typeflag = TypeDir then mode ||| fs.ModeDir
  else if h.Typeflag = TypeFifo then mode ||| fs.ModeNamedPipe
  else mode

end tar

/-- The implementations of `fs.FileInfo` handed out by this package:
`tar.headerFileInfo` (from `header.FileInfo()`), `dirInfo` and `denyInfo`. -/
inductive FileInfo where
  | headerFileInfo (h : tar.Header)
  | dirInfo (d : dir)
  | denyInfo (header : tar.Header)
  deriving DecidableEq, Repr

namespace FileInfo

/-- `Mode()` -/
def Mode : FileInfo → Nat
  | headerFileInfo h => tar.headerMode h
  | dirInfo _ => fs.ModeDir ||| 0o755
  | denyInfo header => (tar.bits64 header.Mode &&& (2 ^ 64 - 1 - 0o777)) % 2 ^ 32

/-- `IsDir()` -/
def IsDir (info : FileInfo) : Bool :=
  match info with
  | dirInfo _ => true
  | _ => info.Mode &&& fs.ModeDir != 0

/-- `Name()` -/
def Name : FileInfo → Str
  | headerFileInfo h =>
    if (headerFileInfo h).IsDir then path.Base (path.Clean h.Name) else path.Base h.Name
  | dirInfo d => path.Base d.name
  | denyInfo header => path.Base header.Name

/-- `Size()` -/
def Size : FileInfo → Int
  | headerFileInfo h => h.Size
  | dirInfo _ => 0
  | denyInfo header => header.Size

end FileInfo

/-! ## Open handles -/

/-- `io.SectionReader`: the section `[base, limit)` of the source and the read offset. -/
structure SectionReader where
  base : Int
  off : Int
  limit : Int
  deriving DecidableEq, Repr

/-- `io.NewSectionReader(r, off, n)`. -/
def NewSectionReader (off n : Int) : SectionReader :=
  let maxint64 : Int := 2 ^ 63 - 1
  let remaining := if off ≤ int64.wrap (maxint64 - n) then int64.wrap (n + off) else maxint64
  { base := off, off := off, limit := remaining }

/-- `strings.Reader`: the string and the read index. -/
structure StringsReader where
  s : Str
  i : Int
  deriving DecidableEq, Repr

/-- `type openFile struct`; `reader` is `none` (nil) once the handle is closed. -/
structure openFile where
  header : tar.Header
  reader : Option SectionReader
  deriving DecidableEq, Repr

/-- `type openDir struct`: the directory and the names not yet returned.  Its `fs`
pointer is passed to the methods instead. -/
structure openDir where
  dir : dir
  entries : List Str
  deriving DecidableEq, Repr

/-- `type openSymlink struct` -/
structure openSymlink where
  header : tar.Header
  reader : StringsReader
  deriving DecidableEq, Repr

/-- The implementations of `fs.File`. -/
inductive File where
  | openFile (f : openFile)
  | openDir (d : openDir)
  | openSymlink (f : openSymlink)
  deriving DecidableEq, Repr

/-- `(*file).openFile` -/
def file.openFile (f : file) (header : tar.Header) : File :=
  File.openFile { header := header, reader := some (NewSectionReader f.offset f.header.Size) }

/-- `(*dir).readDirNames` -/
def dir.readDirNames (d : dir) : List Str :=
  sortStrings d.entries

/-- `symlink.target` -/
def symlink.target (header : tar.Header) : Str :=
  path.Join (path.Dir header.Name) header.Linkname

namespace fileEntry

/-- The method `open` of each entry type. -/
def «open» (fileSystem : fileSystem) : fileEntry → Except Error File
  | file f => .ok (f.openFile f.header)
  | dir d => .ok (File.openDir { dir := d, entries := d.readDirNames })
  | link ref =>
    match fileSystem.links.get? ref with
    | none => .error Error.nilDereference
    | some ln =>
      match ln.target with
      | none => .error Error.ErrNotExist
      | some target => .ok (target.openFile ln.header)
  | symlink header =>
    .ok (File.openSymlink { header := header, reader := { s := header.Linkname, i := 0 } })
  | deny _ => .error Error.ErrPermission

/-- The method `stat` of each entry type; `none` is the dereference of a nil `*link`. -/
def stat (fileSystem : fileSystem) : fileEntry → Option FileInfo
  | file f => some (FileInfo.headerFileInfo f.header)
  | dir d => some (FileInfo.dirInfo d)
  | link ref => (fileSystem.links.get? ref).map (fun ln => FileInfo.headerFileInfo ln.header)
  | symlink header => some (FileInfo.headerFileInfo header)
  | deny header => some (FileInfo.denyInfo header)

end fileEntry

/-! ## The file system (`tarfs.go`) -/

def maxFollowSymlink : Nat := 40

namespace fileSystem

/-- `(*fileSystem).lookup` -/
def lookup (f : fileSystem) (name : Str) : Except Error fileEntry :=
  if !fs.ValidPath name then .error Error.ErrInvalid
  else
    match mapGet f.files name with
    | none => .error Error.ErrNotExist
    | some entry => .ok entry

/-- The loop of `(*fileSystem).Open`; the first argument is the number of iterations
left, `maxFollowSymlink - i`. -/
def openLoop (f : fileSystem) : Nat → Str → Except Error File
  | 0, _ => .error Error.ErrLoop
  | n + 1, name =>
    match f.lookup name with
    | .error err => .error (Error.PathError "open".toList name err)
    | .ok (fileEntry.symlink header) => openLoop f n (symlink.target header)
    | .ok entry => entry.«open» f

/-- `(*fileSystem).Open` -/
def Open (f : fileSystem) (name : Str) : Except Error File :=
  openLoop f maxFollowSymlink name

/-- The loop of `(*fileSystem).Stat`. -/
def statLoop (f : fileSystem) : Nat → Str → Except Error FileInfo
  | 0, _ => .error Error.ErrLoop
  | n + 1, name =>
    match f.lookup name with
    | .error err => .error (Error.PathError "stat".toList name err)
    | .ok (fileEntry.symlink header) => statLoop f n (symlink.target header)
    | .ok entry =>
      match entry.stat f with
      | none => .error Error.nilDereference
      | some info => .ok info

/-- `(*fileSystem).Stat` -/
def Stat (f : fileSystem) (name : Str) : Except Error FileInfo :=
  statLoop f maxFollowSymlink name

end fileSystem

/-- `readDirEntries` of `dir.go`; an `fs.DirEntry` made by `fs.FileInfoToDirEntry` is the
`FileInfo` itself.  `files[name]` of a missing name is a nil interface, and calling `stat`
on it panics. -/
def readDirEntries (fileSystem : fileSystem) : List Str → Except Error (List FileInfo)
  | [] => .ok []
  | name :: names =>
    match mapGet fileSystem.files name with
    | none => .error Error.nilDereference
    | some entry =>
      match entry.stat fileSystem with
      | none => .error Error.nilDereference
      | some info =>
        match readDirEntries fileSystem names with
        | .error e => .error e
        | .ok infos => .ok (info :: infos)

/-- `(*dir).readDir` -/
def dir.readDir (d : dir) (fileSystem : fileSystem) : Except Error (List FileInfo) :=
  readDirEntries fileSystem d.readDirNames

namespace fileSystem

/-- `(*fileSystem).readDir` -/
def readDir (f : fileSystem) (name : Str) : Except Error (List FileInfo) :=
  match f.lookup name with
  | .error err => .error err
  | .ok (fileEntry.dir d) => d.readDir f
  | .ok _ => .error Error.ErrPermission

/-- `(*fileSystem).ReadDir` -/
def ReadDir (f : fileSystem) (name : Str) : Except Error (List FileInfo) :=
  match f.readDir name with
  | .error err => .error (Error.PathError "readdir".toList name err)
  | .ok entries => .ok entries

/-- `(*fileSystem).readLink` -/
def readLink (f : fileSystem) (name : Str) : Except Error Str :=
  match f.lookup name with
  | .error err => .error err
  | .ok (fileEntry.symlink header) => .ok header.Linkname
  | .ok _ => .error Error.ErrInvalid

/-- `(*fileSystem).ReadLink` -/
def ReadLink (f : fileSystem) (name : Str) : Except Error Str :=
  match f.readLink name with
  | .error err => .error (Error.PathError "readlink".toList name err)
  | .ok l => .ok l

end fileSystem

/-! ## Directory handles (`dir.go`) -/

namespace openDir

/-- `(*openDir).readDir`: the names returned and the handle afterwards. -/
def readDir (d : openDir) (n : Int) : List Str × openDir :=
  if n < 0 ∨ n ≥ (d.entries.length : Int) then
    (d.entries, { d with entries := [] })
  else
    (d.entries.take n.toNat, { d with entries := d.entries.drop n.toNat })

/-- `(*openDir).ReadDir`: the result and the handle afterwards. -/
def ReadDir (fileSystem : fileSystem) (d : openDir) (n : Int) :
    Except Error (List FileInfo) × openDir :=
  let (names, d1) := d.readDir n
  if names.length > 0 then (readDirEntries fileSystem names, d1)
  else if n > 0 then (.error Error.EOF, d1)
  else (.ok [], d1)

/-- `(*openDir).Close` -/
def Close (d : openDir) : Option Error × openDir :=
  (none, { d with entries := [] })

end openDir

/-! ## Building the index (`OpenFS`, `walk`, `makePath`) -/

/-- `makePath`.  The result holds the map after the call and the error returned; the
recursion on `path.Dir name` spends one unit of fuel. -/
def makePath (modTime : Nat) :
    Nat → List (Str × fileEntry) → Str → Option (List (Str × fileEntry) × Option Error)
  | 0, _, _ => none
  | fuel + 1, files, name =>
    let dirname := path.Dir name
    match mapGet files dirname with
    | none =>
      match makePath modTime fuel files dirname with
      | none => none
      | some (files1, some err) => some (files1, some err)
      | some (files1, none) =>
        let d : dir := { name := dirname, modTime := modTime, entries := [] }
        some (mapSet files1 dirname (fileEntry.dir { d with entries := setInsert d.entries name }),
          none)
    | some (fileEntry.dir d) =>
      some (mapSet files dirname (fileEntry.dir { d with entries := setInsert d.entries name }),
        none)
    | some _ => some (files, some Error.ErrPermission)

/-- `walk`: calls `f` on every header whose name does not clean to the root; `f` also
receives the read position of the section, which the closures of this package read from
the variable they capture. -/
def walk {σ : Type} (f : tar.Header → Int → σ → Option (σ × Option Error)) :
    List (tar.Header × Int) → Option Error → σ → Option (σ × Option Error)
  | [], err, s => some (s, err)
  | (h, pos) :: rest, err, s =>
    -- ensure that no path will reference parent directories above the root
    let name := path.Join ['/'] h.Name
    if name = ['/'] then walk f rest err s -- don't allow overriding the root
    else
      match f { h with Name := name.drop 1 } pos s with
      | none => none
      | some (s1, some e) => some (s1, some e)
      | some (s1, none) => walk f rest err s1

/-- The variables `files` and `links` captured by the closure of `OpenFS`. -/
structure Index where
  files : List (Str × fileEntry)
  links : List link
  deriving DecidableEq, Repr

/-- The `switch header.Typeflag` of the closure that `OpenFS` passes to `walk`: the new
entry and the slice `links` afterwards.  `pos` is the result of
`section.Seek(0, io.SeekCurrent)`. -/
def OpenFS.newEntry (modTime : Nat) (header : tar.Header) (pos : Int) (links : List link) :
    fileEntry × List link :=
  if header.Typeflag = tar.TypeReg then
    (fileEntry.file { header := header, offset := pos }, links)
  else if header.Typeflag = tar.TypeDir then
    (fileEntry.dir { name := header.Name, modTime := modTime, entries := [] }, links)
  else if header.Typeflag = tar.TypeLink then
    (fileEntry.link links.length, links ++ [{ target := none, header := header }])
  else if header.Typeflag = tar.TypeSymlink then
    (fileEntry.symlink header, links)
  else
    (fileEntry.deny header, links)

/-- The closure that `OpenFS` passes to `walk`.  The error of `makePath` is dropped, as
in the source. -/
def OpenFS.visit (modTime : Nat) (header : tar.Header) (pos : Int) (s : Index) :
    Option (Index × Option Error) :=
  let r := OpenFS.newEntry modTime header pos s.links
  match makePath modTime (header.Name.length + 1) s.files header.Name with
  | none => none
  | some (files1, _) => some ({ files := mapSet files1 header.Name r.1, links := r.2 }, none)

/-- The second loop of `OpenFS`: `ln.target, _ = files[ln.header.Linkname].(*file)`. -/
def bindLink (files : List (Str × fileEntry)) (ln : link) : link :=
  match mapGet files ln.header.Linkname with
  | some (fileEntry.file f) => { ln with target := some f }
  | _ => { ln with target := none }

/-- `OpenFS`, given the reader `tar.NewReader(section)` and the value of `time.Now()`. -/
def OpenFS (data : List Nat) (size : Int) (modTime : Nat) (reader : tar.Reader) :
    Option (Except Error fileSystem) :=
  let files : List (Str × fileEntry) :=
    [(['.'], fileEntry.dir { name := ['.'], modTime := modTime, entries := [] })] -- root
  match walk (OpenFS.visit modTime) reader.members reader.err
      { files := files, links := [] } with
  | none => none
  | some (_, some err) => some (.error err)
  | some (s, none) =>
    some (.ok { data := data, size := size, files := s.files,
                links := s.links.map (bindLink s.files) })

end Tarfs

/-! ## Normal forms of paths -/

namespace Tarfs

namespace path

/-- A path element: not empty, without a slash, and neither `.` nor `..`. -/
def GoodSeg (s : Str) : Prop :=
  s ≠ [] ∧ '/' ∉ s ∧ s ≠ ['.'] ∧ s ≠ ['.', '.']

/-- The elements joined by single slashes. -/
def joinSegs : List Str → Str
  | [] => []
  | [s] => s
  | s :: t :: rest => s ++ '/' :: joinSegs (t :: rest)

/-- A normalized relative path other than the root: one or more path elements joined by
single slashes. -/
def Normal (k : Str) : Prop :=
  ∃ segs : List Str, segs ≠ [] ∧ (∀ s ∈ segs, GoodSeg s) ∧ k = joinSegs segs

end path

end Tarfs

/-! ## Well-formedness of the index -/

namespace Tarfs

/-- What the entry stored under key `k` records: its own name is `k`, its kind is the one
of its header, a directory lists without repetition normalized paths whose parent is `k`,
and a link pointer is valid. -/
def EntryOK (links : List link) (k : Str) : fileEntry → Prop
  | fileEntry.file f => f.header.Name = k ∧ f.header.Typeflag = tar.TypeReg
  | fileEntry.dir d =>
    d.name = k ∧ d.entries.Nodup ∧ ∀ c ∈ d.entries, path.Normal c ∧ path.Dir c = k
  | fileEntry.link ref =>
    ∃ ln, links.get? ref = some ln ∧ ln.header.Name = k ∧ ln.header.Typeflag = tar.TypeLink
  | fileEntry.symlink header => header.Name = k ∧ header.Typeflag = tar.TypeSymlink
  | fileEntry.deny header =>
    header.Name = k ∧ header.Typeflag ≠ tar.TypeReg ∧ header.Typeflag ≠ tar.TypeDir ∧
      header.Typeflag ≠ tar.TypeLink ∧ header.Typeflag ≠ tar.TypeSymlink

/-- The root is a directory, every other key is a normalized path, and every entry is
consistent with its key. -/
structure IndexInv (files : List (Str × fileEntry)) (links : List link) : Prop where
  root : ∃ d, mapGet files ['.'] = some (fileEntry.dir d)
  keys : ∀ k e, mapGet files k = some e → (k = ['.'] ∨ path.Normal k) ∧ EntryOK links k e

/-- Every child recorded in a directory is a key of the map, except for the names in
`pend`, whose insertion is under way. -/
def ChildrenPresent (files : List (Str × fileEntry)) (pend : List Str) : Prop :=
  ∀ k d, mapGet files k = some (fileEntry.dir d) →
    ∀ c ∈ d.entries, (mapGet files c).isSome = true ∨ c ∈ pend

/-- The state in which `OpenFS` leaves the file system. -/
structure WellFormed (f : fileSystem) : Prop where
  inv : IndexInv f.files f.links
  children : ChildrenPresent f.files []
  bound : ∀ i ln, f.links.get? i = some ln → ln = bindLink f.files ln

end Tarfs

/-! ## Callers and sample inputs -/

namespace Tarfs

/-- Go `errors.Is(err, target)` on the errors of this package: `*fs.PathError` unwraps
to its `Err`. -/
def errorsIs : Error → Error → Bool
  | Error.PathError op p e, target =>
    decide (Error.PathError op p e = target) || errorsIs e target
  | err, target => decide (err = target)

/-- Following symbolic links from `name` meets at least `n` symbolic-link entries in a
row: each lookup succeeds and finds a symbolic link, whose target is looked up next. -/
def passesThrough (f : fileSystem) : Nat → Str → Bool
  | 0, _ => true
  | n + 1, name =>
    match f.lookup name with
    | .ok (fileEntry.symlink header) => passesThrough f n (symlink.target header)
    | _ => false

/-- The entry reached from `name` by following exactly `k` symbolic links: the first `k`
lookups find symbolic links and the next one finds an entry of another kind. -/
def follow (f : fileSystem) : Nat → Str → Option fileEntry
  | 0, name =>
    match f.lookup name with
    | .ok (fileEntry.symlink _) => none
    | .ok entry => some entry
    | .error _ => none
  | k + 1, name =>
    match f.lookup name with
    | .ok (fileEntry.symlink header) => follow f k (symlink.target header)
    | _ => none

/-- A caller that reads a directory handle in pages: `ReadDir(n)` is called until it
returns `io.EOF`, and the pages returned before are collected.  `none` when a call fails
with another error or `fuel` calls did not reach `io.EOF`. -/
def readPages (fileSystem : fileSystem) (n : Int) : Nat → openDir → Option (List (List FileInfo))
  | 0, _ => none
  | fuel + 1, d =>
    match openDir.ReadDir fileSystem d n with
    | (.error Error.EOF, _) => some []
    | (.error _, _) => none
    | (.ok entries, d1) => (readPages fileSystem n fuel d1).map (fun pages => entries :: pages)

/-- A header with the given type, name, link name and mode; size 3.  The characters of
the literals are the bytes of the names: the character `\xff` is the byte 0xFF. -/
def sampleHeader (typeflag : Char) (name linkname : String) (mode : Int) : tar.Header :=
  { Typeflag := typeflag, Name := name.toList, Linkname := linkname.toList, Size := 3,
    Mode := mode, ModTime := 0 }

/-- `isHeaderOnlyType` of `archive/tar`: the member types that carry no data block. -/
def tar.isHeaderOnlyType (flag : Char) : Bool :=
  flag = tar.TypeLink || flag = tar.TypeSymlink || flag = tar.TypeChar ||
    flag = tar.TypeBlock || flag = tar.TypeDir || flag = tar.TypeFifo

/-- The members of an archive that holds the given headers from offset `start` on: each
header fills one block of 512 bytes, and is returned with the read position right after
that block; the data of a member that carries data follows, padded to whole blocks. -/
def sampleMembers : Int → List tar.Header → List (tar.Header × Int)
  | _, [] => []
  | start, h :: rest =>
    let data := if tar.isHeaderOnlyType h.Typeflag then 0 else 512 * ((h.Size + 511) / 512)
    (h, start + 512) :: sampleMembers (start + 512 + data) rest

/-- A reader over an archive that holds the given headers: it returns them, each with the
read position after its header block, and then `io.EOF`. -/
def sampleReader (headers : List tar.Header) : tar.Reader :=
  { members := sampleMembers 0 headers, err := none }

/-- The name of length `i` used for the `i`-th member of a chain of links. -/
def chainName (i : Nat) : Str := List.replicate i 'a'

/-- The index of a chain of `k` symbolic links named `chainName i`, `chainName (i + 1)`,
and so on, each with the next name as target, ending in a regular file. -/
def chainFiles : Nat → Nat → List (Str × fileEntry)
  | 0, i =>
    [(chainName i, fileEntry.file
      { header := { Typeflag := tar.TypeReg, Name := chainName i, Linkname := [], Size := 3,
                    Mode := 0o644, ModTime := 0 },
        offset := 512 })]
  | k + 1, i =>
    (chainName i, fileEntry.symlink
      { Typeflag := tar.TypeSymlink, Name := chainName i, Linkname := chainName (i + 1),
        Size := 0, Mode := 0o777, ModTime := 0 }) :: chainFiles k (i + 1)

/-- The file system whose index is a chain of `k` symbolic links starting at
`chainName 1` and ending in the regular file `chainName (k + 1)`. -/
def chainFs (k : Nat) : fileSystem :=
  { data := [], size := 0, files := chainFiles k 1, links := [] }

end Tarfs

namespace Tarfs

/-- The file system whose index holds two symbolic links, `x` with target `y` and `y`
with target `x`. -/
def cycleFs : fileSystem :=
  { data := [], size := 0, links := [],
    files :=
      [("x".toList, fileEntry.symlink (sampleHeader tar.TypeSymlink "x" "y" 0o777)),
       ("y".toList, fileEntry.symlink (sampleHeader tar.TypeSymlink "y" "x" 0o777))] }

/-- The file system that `OpenFS` builds from the regular files `a` and `b`. -/
def twoFilesFs : fileSystem :=
  { data := [], size := 0, links := [],
    files :=
      [(".".toList, fileEntry.dir ⟨".".toList, 0, ["a".toList, "b".toList]⟩),
       ("a".toList, fileEntry.file ⟨sampleHeader tar.TypeReg "a" "" 0o644, 512⟩),
       ("b".toList, fileEntry.file ⟨sampleHeader tar.TypeReg "b" "" 0o644, 1536⟩)] }

/-- The handle that opening the root of `twoFilesFs` returns. -/
def twoFilesRoot : openDir :=
  { dir := ⟨".".toList, 0, ["a".toList, "b".toList]⟩, entries := ["a".toList, "b".toList] }

end Tarfs

namespace Tarfs

/-- Whether the type assertion `files[name].(*file)` succeeds on the result of a map
read. -/
def isFile : Option fileEntry → Bool
  | some (fileEntry.file _) => true
  | _ => false

/-- The tar header that an entry of the index carries; a directory carries none. -/
def entryHeader (f : fileSystem) : fileEntry → Option tar.Header
  | fileEntry.file file => some file.header
  | fileEntry.dir _ => none
  | fileEntry.link ref => (f.links.get? ref).map (fun ln => ln.header)
  | fileEntry.symlink header => some header
  | fileEntry.deny header => some header

/-- The file system that `OpenFS` builds from the sample reader over `headers`
(an empty one if `OpenFS` fails). -/
def sampleFs (headers : List tar.Header) : fileSystem :=
  match OpenFS [] 0 0 (sampleReader headers) with
  | some (.ok f) => f
  | _ => { data := [], size := 0, files := [], links := [] }

/-- An archive as the test suite writes it: the regular file `./file-0`, a hard link
`tmp/link-0` to `file-0`, a hard link `tmp/link-1` to the undeclared name `missing`, a
hard link `tmp/link-2` to the directory `tmp`, and the block device `tmp/block`. -/
def testHeaders : List tar.Header :=
  [sampleHeader tar.TypeReg "./file-0" "" 0o644,
   sampleHeader tar.TypeLink "tmp/link-0" "file-0" 0o644,
   sampleHeader tar.TypeLink "tmp/link-1" "missing" 0o644,
   sampleHeader tar.TypeLink "tmp/link-2" "tmp" 0o644,
   sampleHeader tar.TypeBlock "tmp/block" "" 0o644]

/-- An archive that declares the regular files `sub/c`, `sub/a` and `sub/b`, in this
order. -/
def unorderedHeaders : List tar.Header :=
  [sampleHeader tar.TypeReg "sub/c" "" 0o644, sampleHeader tar.TypeReg "sub/a" "" 0o644,
   sampleHeader tar.TypeReg "sub/b" "" 0o644]

/-- The directory `sub` that `OpenFS` builds from `unorderedHeaders`. -/
def unorderedSub : dir :=
  { name := "sub".toList, modTime := 0,
    entries := ["sub/c".toList, "sub/a".toList, "sub/b".toList] }

/-- An archive that declares the regular file `./file-0` and the hard link `tmp/link-0`
whose link name is written the same way, `./file-0`. -/
def dotSlashHeaders : List tar.Header :=
  [sampleHeader tar.TypeReg "./file-0" "" 0o644,
   sampleHeader tar.TypeLink "tmp/link-0" "./file-0" 0o644]

end Tarfs

namespace Tarfs

/-- Whether an entry is a `symlink` (the type assertion `entry.(symlink)`). -/
def isSymlink : fileEntry → Bool
  | fileEntry.symlink _ => true
  | _ => false

/-- The path looked up at hop `k` of the resolution of `name`: the name itself at hop 0,
and at hop `k + 1` the target of the symbolic link found at hop `k`. -/
def hop (f : fileSystem) : Nat → Str → Option Str
  | 0, name => some name
  | k + 1, name =>
    match f.lookup name with
    | .ok (fileEntry.symlink header) => hop f k (symlink.target header)
    | _ => none

/-- Whether an error is a `*fs.PathError`, which carries the operation and the path. -/
def isPathError : Error → Bool
  | Error.PathError _ _ _ => true
  | _ => false

/-- An archive whose names are not normalized: absolute, with `.` and `..` segments,
with repeated and trailing slashes, and climbing above the root. -/
def messyHeaders : List tar.Header :=
  [sampleHeader tar.TypeReg "/a/../b//c/" "" 0o644,
   sampleHeader tar.TypeReg "../../x" "" 0o644,
   sampleHeader tar.TypeDir "./d/./e/.." "" 0o755,
   sampleHeader tar.TypeDir "" "" 0o755,
   sampleHeader tar.TypeReg "/" "" 0o644,
   sampleHeader tar.TypeSymlink "../.." "x" 0o777]

/-- An archive with symbolic links: `tmp/symlink-0` with the relative target
`../sub/file-1`, `tmp/abs` with the target `/x`, and `a` with the target `../x`, which
climbs above the root. -/
def symlinkHeaders : List tar.Header :=
  [sampleHeader tar.TypeReg "sub/file-1" "" 0o644,
   sampleHeader tar.TypeReg "tmp/x" "" 0o644,
   sampleHeader tar.TypeSymlink "tmp/symlink-0" "../sub/file-1" 0o777,
   sampleHeader tar.TypeSymlink "tmp/abs" "/x" 0o777,
   sampleHeader tar.TypeSymlink "a" "../x" 0o777,
   sampleHeader tar.TypeSymlink "tmp/dangling" "nothing" 0o777]

end Tarfs

namespace Tarfs

/-- `fs.ModeIrregular` -/
def fs.ModeIrregular : Nat := 2 ^ 19

/-- `fs.ModeType`, the mask of the file-type bits of an `fs.FileMode`. -/
def fs.ModeType : Nat :=
  fs.ModeDir ||| fs.ModeSymlink ||| fs.ModeNamedPipe ||| fs.ModeSocket ||| fs.ModeDevice |||
    fs.ModeCharDevice ||| fs.ModeIrregular

/-- An archive with the named pipe `pipe`, header mode 0644. -/
def pipeHeaders : List tar.Header :=
  [sampleHeader tar.TypeFifo "pipe" "" 0o644]

end Tarfs

/-! ## File and symbolic-link handles (`file.go`, `symlink.go`) -/

namespace Tarfs

/-- `ReadAt` of the source, an `io.ReaderAt` over a byte slice (as `bytes.Reader`): the
bytes copied into a buffer of length `len` and the error returned. -/
def sourceReadAt (data : List Nat) (len : Nat) (off : Int) : List Nat × Option Error :=
  if off < 0 then ([], some (Error.other 1)) -- negative offset
  else if off ≥ (data.length : Int) then ([], some Error.EOF)
  else
    let b := (data.drop off.toNat).take len
    (b, if b.length < len then some Error.EOF else none)

namespace SectionReader

/-- `(*io.SectionReader).Size` -/
def Size (s : SectionReader) : Int := int64.wrap (s.limit - s.base)

/-- `(*io.SectionReader).Read` with a buffer of length `len`. -/
def Read (data : List Nat) (s : SectionReader) (len : Nat) :
    (List Nat × Option Error) × SectionReader :=
  if s.off ≥ s.limit then (([], some Error.EOF), s)
  else
    let max := int64.wrap (s.limit - s.off)
    let len1 := if (len : Int) > max then max.toNat else len
    let r := sourceReadAt data len1 s.off
    (r, { s with off := int64.wrap (s.off + (r.1.length : Int)) })

/-- `(*io.SectionReader).Seek`; `whence` is `io.SeekStart` (0), `io.SeekCurrent` (1) or
`io.SeekEnd` (2). -/
def Seek (s : SectionReader) (offset : Int) (whence : Int) :
    (Int × Option Error) × SectionReader :=
  if whence ≠ 0 ∧ whence ≠ 1 ∧ whence ≠ 2 then ((0, some (Error.other 2)), s) -- errWhence
  else
    let offset1 :=
      if whence = 0 then int64.wrap (offset + s.base)
      else if whence = 1 then int64.wrap (offset + s.off)
      else int64.wrap (offset + s.limit)
    if offset1 < s.base then ((0, some (Error.other 3)), s) -- errOffset
    else ((int64.wrap (offset1 - s.base), none), { s with off := offset1 })

/-- `(*io.SectionReader).ReadAt` with a buffer of length `len`. -/
def ReadAt (data : List Nat) (s : SectionReader) (len : Nat) (off : Int) :
    List Nat × Option Error :=
  if off < 0 ∨ off ≥ s.Size then ([], some Error.EOF)
  else
    let off1 := int64.wrap (off + s.base)
    let max := int64.wrap (s.limit - off1)
    if (len : Int) > max then
      let r := sourceReadAt data max.toNat off1
      (r.1, if r.2 = none then some Error.EOF else r.2)
    else sourceReadAt data len off1

end SectionReader

namespace StringsReader

/-- `(*strings.Reader).Reset` -/
def Reset (s : Str) : StringsReader := { s := s, i := 0 }

/-- `(*strings.Reader).Read` with a buffer of length `len`. -/
def Read (r : StringsReader) (len : Nat) : (Str × Option Error) × StringsReader :=
  if r.i ≥ (r.s.length : Int) then (([], some Error.EOF), r)
  else
    let b := (r.s.drop r.i.toNat).take len
    ((b, none), { r with i := int64.wrap (r.i + (b.length : Int)) })

/-- `(*strings.Reader).ReadAt` with a buffer of length `len`. -/
def ReadAt (r : StringsReader) (len : Nat) (off : Int) : Str × Option Error :=
  if off < 0 then ([], some (Error.other 1)) -- negative offset
  else if off ≥ (r.s.length : Int) then ([], some Error.EOF)
  else
    let b := (r.s.drop off.toNat).take len
    (b, if b.length < len then some Error.EOF else none)

/-- `(*strings.Reader).Seek` -/
def Seek (r : StringsReader) (offset : Int) (whence : Int) :
    (Int × Option Error) × StringsReader :=
  if whence ≠ 0 ∧ whence ≠ 1 ∧ whence ≠ 2 then ((0, some (Error.other 2)), r) -- invalid whence
  else
    let abs :=
      if whence = 0 then offset
      else if whence = 1 then int64.wrap (r.i + offset)
      else int64.wrap ((r.s.length : Int) + offset)
    if abs < 0 then ((0, some (Error.other 3)), r) -- negative position
    else ((abs, none), { r with i := abs })

end StringsReader

/-- A call on a file handle: `Read(b)` and `ReadAt(b, off)` with `len(b) = len`,
`Seek(offset, whence)` and `Close()`. -/
inductive FileOp where
  | Read (len : Nat)
  | ReadAt (len : Nat) (off : Int)
  | Seek (offset : Int) (whence : Int)
  | Close
  deriving DecidableEq, Repr

/-- What a call on a file handle returns: the bytes read and the error, the position and
the error, or the error of `Close`. -/
inductive FileResult (β : Type) where
  | bytes (b : List β) (err : Option Error)
  | position (n : Int) (err : Option Error)
  | closed (err : Option Error)
  deriving DecidableEq, Repr

namespace openFile

/-- `(*openFile).ReadAt` -/
def ReadAt (data : List Nat) (f : openFile) (len : Nat) (off : Int) :
    List Nat × Option Error :=
  match f.reader with
  | none => ([], some Error.EOF)
  | some reader => reader.ReadAt data len off

/-- `(*openFile).Read` -/
def Read (data : List Nat) (f : openFile) (len : Nat) :
    (List Nat × Option Error) × openFile :=
  match f.reader with
  | none => (([], some Error.EOF), f)
  | some reader =>
    let r := reader.Read data len
    (r.1, { f with reader := some r.2 })

/-- `(*openFile).Seek` -/
def Seek (f : openFile) (offset : Int) (whence : Int) : (Int × Option Error) × openFile :=
  match f.reader with
  | none => ((0, some Error.ErrClosed), f)
  | some reader =>
    let r := reader.Seek offset whence
    (r.1, { f with reader := some r.2 })

/-- `(*openFile).Close` -/
def Close (f : openFile) : Option Error × openFile :=
  (none, { f with reader := none })

/-- One call on the handle: the result and the handle afterwards. -/
def call (data : List Nat) (f : openFile) : FileOp → FileResult Nat × openFile
  | FileOp.Read len =>
    let r := f.Read data len
    (FileResult.bytes r.1.1 r.1.2, r.2)
  | FileOp.ReadAt len off =>
    let r := f.ReadAt data len off
    (FileResult.bytes r.1 r.2, f)
  | FileOp.Seek offset whence =>
    let r := f.Seek offset whence
    (FileResult.position r.1.1 r.1.2, r.2)
  | FileOp.Close =>
    let r := f.Close
    (FileResult.closed r.1, r.2)

/-- A sequence of calls on the handle: the results in order and the handle afterwards. -/
def run (data : List Nat) : openFile → List FileOp → List (FileResult Nat) × openFile
  | f, [] => ([], f)
  | f, op :: ops =>
    let r := f.call data op
    let rest := run data r.2 ops
    (r.1 :: rest.1, rest.2)

end openFile

namespace openSymlink

/-- `(*openSymlink).ReadAt` -/
def ReadAt (f : openSymlink) (len : Nat) (off : Int) : Str × Option Error :=
  f.reader.ReadAt len off

/-- `(*openSymlink).Read` -/
def Read (f : openSymlink) (len : Nat) : (Str × Option Error) × openSymlink :=
  let r := f.reader.Read len
  (r.1, { f with reader := r.2 })

/-- `(*openSymlink).Seek` -/
def Seek (f : openSymlink) (offset : Int) (whence : Int) :
    (Int × Option Error) × openSymlink :=
  let r := f.reader.Seek offset whence
  (r.1, { f with reader := r.2 })

/-- `(*openSymlink).Close` -/
def Close (f : openSymlink) : Option Error × openSymlink :=
  (none, { f with reader := StringsReader.Reset [] })

/-- One call on the handle: the result and the handle afterwards. -/
def call (f : openSymlink) : FileOp → FileResult Char × openSymlink
  | FileOp.Read len =>
    let r := f.Read len
    (FileResult.bytes r.1.1 r.1.2, r.2)
  | FileOp.ReadAt len off =>
    let r := f.ReadAt len off
    (FileResult.bytes r.1 r.2, f)
  | FileOp.Seek offset whence =>
    let r := f.Seek offset whence
    (FileResult.position r.1.1 r.1.2, r.2)
  | FileOp.Close =>
    let r := f.Close
    (FileResult.closed r.1, r.2)

/-- A sequence of calls on the handle: the results in order and the handle afterwards. -/
def run : openSymlink → List FileOp → List (FileResult Char) × openSymlink
  | f, [] => ([], f)
  | f, op :: ops =>
    let r := f.call op
    let rest := run r.2 ops
    (r.1 :: rest.1, rest.2)

end openSymlink

/-- What the close contract prescribes for a call on a closed handle: reads return no
byte and `io.EOF`, `Seek` fails with `fs.ErrClosed`, `Close` returns nil. -/
def closedResult (β : Type) : FileOp → FileResult β
  | FileOp.Read _ => FileResult.bytes [] (some Error.EOF)
  | FileOp.ReadAt _ _ => FileResult.bytes [] (some Error.EOF)
  | FileOp.Seek _ _ => FileResult.position 0 (some Error.ErrClosed)
  | FileOp.Close => FileResult.closed none

/-- Whether every `Close` among the calls returned nil. -/
def closeReturnsNil {β : Type} : List FileOp → List (FileResult β) → Bool
  | FileOp.Close :: ops, FileResult.closed none :: rs => closeReturnsNil ops rs
  | FileOp.Close :: _, _ => false
  | _ :: ops, _ :: rs => closeReturnsNil ops rs
  | _, _ => true

end Tarfs

namespace Tarfs

/-- The handle that `symlink.open` returns for the link `tmp/symlink-0` with target
`../sub/file-1`. -/
def sampleSymlinkHandle : openSymlink :=
  { header := sampleHeader tar.TypeSymlink "tmp/symlink-0" "../sub/file-1" 0o777,
    reader := { s := "../sub/file-1".toList, i := 0 } }

end Tarfs

/-! ## Extraction (`extract.go`) over an abstract destination tree -/

namespace Tarfs

/-- A node of the destination tree. -/
inductive Node where
  | dir
  | file
  | symlink (target : Str)
  deriving DecidableEq, Repr

namespace os

/-- The destination tree: the nodes by cleaned path.  The directories `/` and `.` always
exist.  Symbolic links are stored but not resolved, and permissions and times are not
recorded. -/
def stat (tree : List (Str × Node)) (p : Str) : Option Node :=
  if p = ['/'] ∨ p = ['.'] then some Node.dir else mapGet tree p

/-- The error of a system call that creates an entry at `p`, before it creates it:
`fs.ErrExist` when `p` exists, `fs.ErrNotExist` when the parent is missing, `ENOTDIR`
when the parent is not a directory. -/
def createError (tree : List (Str × Node)) (p : Str) : Option Error :=
  match stat tree p with
  | some _ => some Error.ErrExist
  | none =>
    match stat tree (path.Dir p) with
    | none => some Error.ErrNotExist
    | some Node.dir => none
    | some _ => some (Error.other 20) -- ENOTDIR

/-- `os.Mkdir` -/
def Mkdir (tree : List (Str × Node)) (p : Str) : List (Str × Node) × Option Error :=
  match createError tree p with
  | some err => (tree, some err)
  | none => (mapSet tree p Node.dir, none)

/-- The parent `path[:i]` that `os.MkdirAll` computes: trailing separators are skipped,
then the last element, and the separator before it is left out. -/
def parentOf (p : Str) : Str :=
  (((path.stripSlashes p.reverse).dropWhile (· ≠ '/')).drop 1).reverse

/-- `os.MkdirAll`; the recursion on the parent spends one unit of fuel. -/
def MkdirAll : Nat → List (Str × Node) → Str → Option (List (Str × Node) × Option Error)
  | 0, _, _ => none
  | fuel + 1, tree, p =>
    -- Fast path: if we can tell whether path is a directory or file, stop
    match stat tree p with
    | some Node.dir => some (tree, none)
    | some _ => some (tree, some (Error.other 20)) -- ENOTDIR
    | none =>
      -- Slow path: make sure parent exists and then call Mkdir for path.
      let made : Option (List (Str × Node) × Option Error) :=
        if (parentOf p).length > 0 then MkdirAll fuel tree (parentOf p) else some (tree, none)
      match made with
      | none => none
      | some (tree1, some err) => some (tree1, some err)
      | some (tree1, none) =>
        match Mkdir tree1 p with
        | (tree2, none) => some (tree2, none)
        | (tree2, some err) =>
          match stat tree2 p with
          | some Node.dir => some (tree2, none)
          | _ => some (tree2, some err)

/-- `os.Symlink(target, p)` -/
def Symlink (tree : List (Str × Node)) (target p : Str) : List (Str × Node) × Option Error :=
  match createError tree p with
  | some err => (tree, some err)
  | none => (mapSet tree p (Node.symlink target), none)

/-- `os.Link(oldname, newname)` -/
def Link (tree : List (Str × Node)) (oldname newname : Str) :
    List (Str × Node) × Option Error :=
  match stat tree oldname with
  | none => (tree, some Error.ErrNotExist)
  | some Node.dir => (tree, some (Error.other 1)) -- EPERM
  | some node =>
    match createError tree newname with
    | some err => (tree, some err)
    | none => (mapSet tree newname node, none)

/-- `os.OpenFile(p, os.O_CREATE|os.O_WRONLY|os.O_TRUNC, mode)` followed by the copy of
the content and `Close`. -/
def OpenFile (tree : List (Str × Node)) (p : Str) : List (Str × Node) × Option Error :=
  match stat tree p with
  | some Node.dir => (tree, some (Error.other 21)) -- EISDIR
  | some _ => (tree, none)
  | none =>
    match createError tree p with
    | some err => (tree, some err)
    | none => (mapSet tree p Node.file, none)

/-- `os.Chmod` and `os.Chtimes`: they fail with `fs.ErrNotExist` on a missing path. -/
def touch (tree : List (Str × Node)) (p : Str) : Option Error :=
  match stat tree p with
  | none => some Error.ErrNotExist
  | some _ => none

end os

/-- Map delete `delete(m, k)`. -/
def mapDelete {β : Type} : List (Str × β) → Str → List (Str × β)
  | [], _ => []
  | (k1, v) :: rest, k => if k1 = k then rest else (k1, v) :: mapDelete rest k

/-- `chmodtimes`: `chmod`, then `chtimes`. -/
def chmodtimes (tree : List (Str × Node)) (p : Str) : Option Error :=
  match os.touch tree p with
  | some err => some err
  | none => os.touch tree p

/-- The variables captured by the closure of `Extract`, and the destination tree. -/
structure Extraction where
  tree : List (Str × Node)
  unresolvedLinks : List (Str × tar.Header)
  directories : List tar.Header
  deriving DecidableEq, Repr

/-- The `switch h.Typeflag` of the closure of `Extract`.  The second component is `true`
when the closure goes on to the code after the switch, `false` when it has returned (with
the error given, or nil). -/
def Extract.switch (dst : Str) (h : tar.Header) (s : Extraction) :
    Extraction × Bool × Option Error :=
  let filePath := path.Join dst h.Name
  let mode := fs.FileMode h.Mode &&& fs.ModePerm
  if h.Typeflag = tar.TypeDir then
    let r := os.Mkdir s.tree filePath
    match r.2 with
    | some err =>
      if !errorsIs err Error.ErrNotExist then (s, false, some err)
      else ({ s with tree := r.1, directories := s.directories ++ [h] }, true, none)
    | none => ({ s with tree := r.1, directories := s.directories ++ [h] }, true, none)
  else if h.Typeflag = tar.TypeFifo then
    (s, false, none)
  else if h.Typeflag = tar.TypeSymlink then
    let r := os.Symlink s.tree h.Linkname filePath
    match r.2 with
    | some err =>
      if !errorsIs err Error.ErrExist then (s, false, some err)
      else ({ s with tree := r.1 }, true, none)
    | none => ({ s with tree := r.1 }, true, none)
  else if h.Typeflag = tar.TypeLink then
    let linkPath := path.Join dst h.Linkname
    let r := os.Link s.tree linkPath filePath
    match r.2 with
    | some err =>
      if errorsIs err Error.ErrNotExist then
        ({ s with unresolvedLinks := mapSet s.unresolvedLinks h.Linkname h }, false, none)
      else (s, false, some err)
    | none =>
      match chmodtimes r.1 filePath with
      | some err => ({ s with tree := r.1 }, false, some err)
      | none => ({ s with tree := r.1 }, true, none)
  else if h.Typeflag = tar.TypeChar ∨ h.Typeflag = tar.TypeBlock ∨
      h.Typeflag = tar.TypeReg ∨ h.Typeflag = tar.TypeRegA then
    let mode1 := if h.Typeflag = tar.TypeChar then mode ||| fs.ModeCharDevice else mode
    let mode2 :=
      if h.Typeflag = tar.TypeChar ∨ h.Typeflag = tar.TypeBlock then mode1 ||| fs.ModeDevice
      else mode1
    if mode2 &&& fs.ModeDevice ≠ 0 then (s, false, none)
    else
      let r := os.OpenFile s.tree filePath
      match r.2 with
      | some err => (s, false, some err)
      | none =>
        match os.touch r.1 filePath with
        | some err => ({ s with tree := r.1 }, false, some err)
        | none => ({ s with tree := r.1 }, true, none)
  else (s, true, none)

/-- The code after the switch in the closure of `Extract`: the hard link that waits for
`h.Name`, if there is one, is created. -/
def Extract.resolve (dst : Str) (h : tar.Header) (s : Extraction) :
    Extraction × Option Error :=
  match mapGet s.unresolvedLinks h.Name with
  | none => (s, none)
  | some link =>
    let filePath := path.Join dst h.Name
    let linkPath := path.Join dst link.Name
    let r := os.Link s.tree filePath linkPath
    let failed :=
      match r.2 with
      | some err => if !errorsIs err Error.ErrNotExist then some err else none
      | none => none
    match failed with
    | some err => (s, some err)
    | none =>
      match chmodtimes r.1 linkPath with
      | some err => ({ s with tree := r.1 }, some err)
      | none =>
        ({ s with tree := r.1, unresolvedLinks := mapDelete s.unresolvedLinks h.Name }, none)

/-- The closure that `Extract` passes to `walk`. -/
def Extract.visit (dst : Str) (h : tar.Header) (_pos : Int) (s : Extraction) :
    Option (Extraction × Option Error) :=
  let filePath := path.Join dst h.Name
  match os.MkdirAll ((path.Dir filePath).length + 1) s.tree (path.Dir filePath) with
  | none => none
  | some (tree1, some err) => some ({ s with tree := tree1 }, some err)
  | some (tree1, none) =>
    match Extract.switch dst h { s with tree := tree1 } with
    | (s1, false, err) => some (s1, err)
    | (s1, true, _) => some (Extract.resolve dst h s1)

/-- The loop `for _, dir := range directories` at the end of `Extract`. -/
def Extract.finish (dst : Str) (tree : List (Str × Node)) : List tar.Header → Option Error
  | [] => none
  | dir :: rest =>
    match chmodtimes tree (path.Join dst dir.Name) with
    | some err => some err
    | none => Extract.finish dst tree rest

/-- `Extract(path, tarball)` on the destination tree `tree`: the error returned and the
tree afterwards. -/
def Extract (dst : Str) (tree : List (Str × Node)) (tarball : tar.Reader) :
    Option (Option Error × List (Str × Node)) :=
  match walk (Extract.visit dst) tarball.members tarball.err
      { tree := tree, unresolvedLinks := [], directories := [] } with
  | none => none
  | some (s, some err) => some (some err, s.tree)
  | some (s, none) =>
    -- There must be no unresolved links after the extraction completes
    match s.unresolvedLinks with
    | (name, _) :: _ =>
      some (some (Error.PathError "link".toList name Error.ErrNotExist), s.tree)
    | [] => some (Extract.finish dst s.tree s.directories, s.tree)

/-- An archive with two hard links `l1` and `l2` to `t`, both ahead of the regular file
`t`. -/
def twoLinksHeaders : List tar.Header :=
  [sampleHeader tar.TypeLink "l1" "t" 0o644, sampleHeader tar.TypeLink "l2" "t" 0o644,
   sampleHeader tar.TypeReg "t" "" 0o644]

/-- An archive with one hard link `l1` to `t` ahead of the regular file `t`. -/
def oneLinkHeaders : List tar.Header :=
  [sampleHeader tar.TypeLink "l1" "t" 0o644, sampleHeader tar.TypeReg "t" "" 0o644]

end Tarfs

namespace Tarfs

/-- An archive in which the directory `a` is declared after its descendant `a/b`. -/
def lateDirHeaders : List tar.Header :=
  [sampleHeader tar.TypeReg "a/b" "" 0o644, sampleHeader tar.TypeDir "a" "" 0o755]

/-- An archive that declares the symbolic link `s` twice. -/
def twiceSymlinkHeaders : List tar.Header :=
  [sampleHeader tar.TypeSymlink "s" "x" 0o777, sampleHeader tar.TypeSymlink "s" "x" 0o777]

/-- An archive that declares the hard link `l` to the regular file `t` twice, after `t`. -/
def twiceLinkHeaders : List tar.Header :=
  [sampleHeader tar.TypeReg "t" "" 0o644, sampleHeader tar.TypeLink "l" "t" 0o644,
   sampleHeader tar.TypeLink "l" "t" 0o644]

/-- An archive in which the hard link `l` to `t` is deferred, and a regular file `l` is
declared before `t`. -/
def deferredLinkHeaders : List tar.Header :=
  [sampleHeader tar.TypeLink "l" "t" 0o644, sampleHeader tar.TypeReg "l" "" 0o644,
   sampleHeader tar.TypeReg "t" "" 0o644]

/-- The root directory that `OpenFS` builds from `lateDirHeaders`. -/
def lateDirRoot : dir :=
  { name := ".".toList, modTime := 0, entries := ["a".toList] }

end Tarfs

namespace Tarfs

/-- An archive with names that are not valid UTF-8 (the byte 0xFF occurs in no UTF-8
text): the regular file `\xff/f`, the hard link `\xff/l` to the undeclared name `missing`,
the named pipe `\xff/p`, and the symbolic link `s` with target `\xff/f`. -/
def invalidNameHeaders : List tar.Header :=
  [sampleHeader tar.TypeReg "\xff/f" "" 0o644,
   sampleHeader tar.TypeLink "\xff/l" "missing" 0o644,
   sampleHeader tar.TypeFifo "\xff/p" "" 0o644,
   sampleHeader tar.TypeSymlink "s" "\xff/f" 0o777]

/-- What a call on a symbolic-link handle returns once `Close` has reset its reader to
the empty string: `Read` returns no byte and `io.EOF`; `ReadAt` returns no byte, with
`io.EOF` at an offset that is not negative and the negative-offset error of
`strings.Reader` otherwise; `Seek` never fails with `fs.ErrClosed`, and `Seek(offset,
io.SeekStart)` with `offset ≥ 0` returns `offset` and no error; `Close` returns nil. -/
def afterReset : FileOp → FileResult Char → Bool
  | FileOp.Read _, FileResult.bytes b err => decide (b = [] ∧ err = some Error.EOF)
  | FileOp.ReadAt _ off, FileResult.bytes b err =>
    decide (b = [] ∧ err = some (if off < 0 then Error.other 1 else Error.EOF))
  | FileOp.Seek offset whence, FileResult.position n err =>
    decide (err ≠ some Error.ErrClosed ∧ (whence = 0 → 0 ≤ offset → n = offset ∧ err = none))
  | FileOp.Close, FileResult.closed err => decide (err = none)
  | _, _ => false

end Tarfs

namespace Tarfs

/-- An archive that declares the directory `a` and then the regular file `a/b`. -/
def earlyDirHeaders : List tar.Header :=
  [sampleHeader tar.TypeDir "a" "" 0o755, sampleHeader tar.TypeReg "a/b" "" 0o644]

/-- The directory `a` that `OpenFS` builds from `lateDirHeaders`. -/
def lateDir : dir :=
  { name := "a".toList, modTime := 0, entries := [] }

end Tarfs

/-! ## Lemmas on `path.Clean`, `path.Dir`, `path.Base` and `fs.ValidPath` -/

namespace Tarfs

namespace path

theorem joinSegs_cons (s : Str) (rest : List Str) (h : rest ≠ []) :
    joinSegs (s :: rest) = s ++ '/' :: joinSegs rest := by
  cases rest with
  | nil => exact absurd rfl h
  | cons t r => rfl

theorem joinSegs_snoc (st : List Str) (e : Str) (h : st ≠ []) :
    joinSegs (st ++ [e]) = joinSegs st ++ '/' :: e := by
  induction st with
  | nil => exact absurd rfl h
  | cons s rest ih =>
    cases rest with
    | nil => simp [joinSegs]
    | cons t r =>
      have := ih (by simp)
      simp only [List.cons_append] at this ⊢
      simp only [joinSegs, this, List.append_assoc, List.cons_append]

theorem joinSegs_ne_nil (segs : List Str) (h : segs ≠ []) (hg : ∀ s ∈ segs, GoodSeg s) :
    joinSegs segs ≠ [] := by
  cases segs with
  | nil => exact absurd rfl h
  | cons s rest =>
    have hs := (hg s (by simp)).1
    cases rest with
    | nil => simpa [joinSegs] using hs
    | cons t r => simp [joinSegs, hs]

theorem takeWhile_eq_self_of_noslash (s tl : Str) (h : '/' ∉ s)
    (htl : tl = [] ∨ tl.head? = some '/') :
    (s ++ tl).takeWhile (· ≠ '/') = s ∧ (s ++ tl).dropWhile (· ≠ '/') = tl := by
  induction s with
  | nil =>
    rcases htl with rfl | h1
    · simp
    · cases tl with
      | nil => simp
      | cons c r =>
        simp at h1
        subst h1
        simp
  | cons c r ih =>
    have hc : c ≠ '/' := fun e => h (by simp [e])
    have hr : '/' ∉ r := fun e => h (by simp [e])
    have := ih hr
    have hp : decide (c ≠ '/') = true := by simpa using hc
    rw [List.cons_append, List.takeWhile_cons, List.dropWhile_cons, if_pos hp, if_pos hp,
      this.1, this.2]
    exact ⟨rfl, rfl⟩

theorem noslash_takeWhile (p : Str) : '/' ∉ p.takeWhile (· ≠ '/') := by
  intro h
  have := List.mem_takeWhile_imp h
  simp at this

theorem dropWhile_head (p : Str) :
    p.dropWhile (· ≠ '/') = [] ∨ (p.dropWhile (· ≠ '/')).head? = some '/' := by
  induction p with
  | nil => simp
  | cons c r ih =>
    by_cases hc : c = '/'
    · subst hc
      right
      simp [List.dropWhile_cons]
    · simpa [List.dropWhile_cons, hc] using ih

theorem dot_iff (c : Char) (rest : Str) (hc : c ≠ '/') :
    (c = '.' ∧ (rest = [] ∨ rest.head? = some '/')) ↔
      (c :: rest).takeWhile (· ≠ '/') = ['.'] := by
  cases rest with
  | nil => simp [List.takeWhile_cons, hc]
  | cons d r =>
    by_cases hd : d = '/'
    · subst hd
      simp [List.takeWhile_cons, hc]
    · simp [List.takeWhile_cons, hc, hd]

theorem dotdot_iff (c : Char) (rest : Str) (hc : c ≠ '/') :
    (c = '.' ∧ rest.head? = some '.' ∧ (rest.tail = [] ∨ rest.tail.head? = some '/')) ↔
      (c :: rest).takeWhile (· ≠ '/') = ['.', '.'] := by
  cases rest with
  | nil => simp [List.takeWhile_cons, hc]
  | cons d r =>
    by_cases hd : d = '/'
    · subst hd
      simp [List.takeWhile_cons, hc]
    · cases r with
      | nil => simp [List.takeWhile_cons, hc, hd]
      | cons e r2 =>
        by_cases he : e = '/'
        · subst he
          simp [List.takeWhile_cons, hc, hd]
        · simp [List.takeWhile_cons, hc, hd, he]

/-- The element copied by the default case of `path.Clean` is a path element. -/
theorem goodSeg_takeWhile (c : Char) (rest : Str) (hc : c ≠ '/')
    (h1 : ¬ (c = '.' ∧ (rest = [] ∨ rest.head? = some '/')))
    (h2 : ¬ (c = '.' ∧ rest.head? = some '.' ∧
      (rest.tail = [] ∨ rest.tail.head? = some '/'))) :
    GoodSeg ((c :: rest).takeWhile (· ≠ '/')) := by
  refine ⟨?_, noslash_takeWhile _, ?_, ?_⟩
  · simp [List.takeWhile_cons, hc]
  · exact fun h => h1 ((dot_iff c rest hc).2 h)
  · exact fun h => h2 ((dotdot_iff c rest hc).2 h)

theorem get?_length_append {α : Type} (P : List α) (x : α) (tl : List α) :
    (P ++ x :: tl).get? P.length = some x := by
  induction P with
  | nil => rfl
  | cons a P ih => exact ih

theorem backtrack_eq (P e tl : Str) (x : Char) (dd : Nat) (hdd : dd ≤ P.length)
    (he : '/' ∉ e) (hx : x = '/' ∨ P.length ≤ dd) :
    backtrack (P ++ x :: (e ++ tl)) dd (P.length + e.length) = P.length := by
  induction e using List.reverseRecOn generalizing tl with
  | nil =>
    simp only [List.length_nil, Nat.add_zero]
    cases hP : P.length with
    | zero => simp [backtrack]
    | succ n =>
      rw [backtrack]
      have hget : (P ++ x :: ([] ++ tl)).get? (n + 1) = some x := by
        rw [← hP]
        exact get?_length_append P x _
      rw [hget]
      rcases hx with rfl | hx
      · simp
      · have : ¬ (n + 1 > dd) := by omega
        simp [this]
  | append_singleton e c ih =>
    have hc : c ≠ '/' := fun h => he (by simp [h])
    have he2 : '/' ∉ e := fun h => he (by simp [h])
    have hlen : P.length + (e ++ [c]).length = (P.length + e.length) + 1 := by simp; omega
    rw [hlen, backtrack]
    have hget : (P ++ x :: (e ++ [c] ++ tl)).get? (P.length + e.length + 1) = some c := by
      have : P ++ x :: (e ++ [c] ++ tl) = (P ++ x :: e) ++ c :: tl := by simp
      rw [this]
      have hl : (P ++ x :: e).length = P.length + e.length + 1 := by simp; omega
      rw [← hl]
      exact get?_length_append _ c tl
    rw [hget]
    have hgt : P.length + e.length + 1 > dd := by omega
    simp only [hgt, true_and]
    have : ¬ (some c = some '/') := by simpa using hc
    simp only [ne_eq, this, not_false_eq_true, if_true]
    have := ih (c :: tl) he2
    simpa using this

end path

end Tarfs

namespace Tarfs

namespace path

theorem rooted_append (st : List Str) (e : Str) (hst : ∀ s ∈ st, GoodSeg s) :
    (if (true && ('/' :: joinSegs st).length != 1) || (!true && ('/' :: joinSegs st).length != 0)
      then ('/' :: joinSegs st) ++ ['/'] else '/' :: joinSegs st) ++ e
      = '/' :: joinSegs (st ++ [e]) := by
  by_cases h : st = []
  · subst h
    simp [joinSegs]
  · have hne := joinSegs_ne_nil st h hst
    have hlen : (joinSegs st).length ≠ 0 := by
      intro h0
      exact hne (List.length_eq_zero.1 h0)
    rw [joinSegs_snoc st e h]
    simp [hlen]

theorem unrooted_append (st : List Str) (e : Str) (hst : ∀ s ∈ st, GoodSeg s) :
    (if (false && (joinSegs st).length != 1) || (!false && (joinSegs st).length != 0)
      then joinSegs st ++ ['/'] else joinSegs st) ++ e
      = joinSegs (st ++ [e]) := by
  by_cases h : st = []
  · subst h
    simp [joinSegs]
  · have hne := joinSegs_ne_nil st h hst
    have hlen : (joinSegs st).length ≠ 0 := by
      intro h0
      exact hne (List.length_eq_zero.1 h0)
    rw [joinSegs_snoc st e h]
    simp [hlen]

theorem backtrack_take (st0 : List Str) (e : Str) (hst : ∀ s ∈ st0, GoodSeg s)
    (he : GoodSeg e) :
    ('/' :: joinSegs (st0 ++ [e])).length > 1 ∧
    ('/' :: joinSegs (st0 ++ [e])).take
      (backtrack ('/' :: joinSegs (st0 ++ [e])) 1 (('/' :: joinSegs (st0 ++ [e])).length - 1))
      = '/' :: joinSegs st0 := by
  obtain ⟨hne, hns, -, -⟩ := he
  by_cases h : st0 = []
  · subst h
    cases e with
    | nil => exact absurd rfl hne
    | cons x e1 =>
      have hns1 : '/' ∉ e1 := fun h => hns (by simp [h])
      have hb := backtrack_eq ['/'] e1 [] x 1 (by simp) hns1 (Or.inr (by simp))
      simp only [List.nil_append, joinSegs, List.length_cons, List.append_nil,
        List.singleton_append, List.length_nil, Nat.zero_add] at hb ⊢
      constructor
      · omega
      · have : e1.length + 1 + 1 - 1 = 1 + e1.length := by omega
        rw [this, hb]
        simp
  · rw [joinSegs_snoc st0 e h]
    have hb := backtrack_eq ('/' :: joinSegs st0) e [] '/' 1 (by simp) hns (Or.inl rfl)
    simp only [List.append_nil, List.cons_append, List.length_cons] at hb ⊢
    constructor
    · simp
    · have : (joinSegs st0 ++ '/' :: e).length + 1 - 1 = (joinSegs st0).length + 1 + e.length := by
        simp; omega
      rw [this, hb]
      simp

/-- On a rooted path the main loop of `path.Clean` keeps the buffer of the form
`/` followed by path elements joined by slashes. -/
theorem cleanLoop_rooted (fuel : Nat) : ∀ (p : Str) (st : List Str),
    (∀ s ∈ st, GoodSeg s) →
    ∃ st1 : List Str, (∀ s ∈ st1, GoodSeg s) ∧
      cleanLoop true fuel p ('/' :: joinSegs st) 1 = '/' :: joinSegs st1 := by
  induction fuel with
  | zero => intro p st h; exact ⟨st, h, rfl⟩
  | succ n ih =>
    intro p st hst
    cases p with
    | nil => exact ⟨st, hst, rfl⟩
    | cons c rest =>
      rw [cleanLoop]
      by_cases hc : c = '/'
      · rw [if_pos hc]
        exact ih rest st hst
      · rw [if_neg hc]
        by_cases hd : (c = '.' ∧ (rest = [] ∨ rest.head? = some '/'))
        · rw [if_pos hd]
          exact ih rest st hst
        · rw [if_neg hd]
          by_cases hdd : (c = '.' ∧ rest.head? = some '.' ∧
              (rest.tail = [] ∨ rest.tail.head? = some '/'))
          · rw [if_pos hdd]
            rcases List.eq_nil_or_concat st with h0 | ⟨st0, e, h1⟩
            · subst h0
              have hlen : ¬ (('/' :: joinSegs []).length > 1) := by simp [joinSegs]
              rw [if_neg hlen]
              simp only [Bool.not_true, Bool.false_eq_true, if_false]
              exact ih _ [] hst
            · rw [List.concat_eq_append] at h1
              subst h1
              have hst0 : ∀ s ∈ st0, GoodSeg s := fun s hs => hst s (by simp [hs])
              have he : GoodSeg e := hst e (by simp)
              obtain ⟨hlen, htake⟩ := backtrack_take st0 e hst0 he
              rw [if_pos hlen, htake]
              exact ih _ st0 hst0
          · rw [if_neg hdd]
            have hg := goodSeg_takeWhile c rest hc hd hdd
            simp only []
            rw [rooted_append st _ hst]
            apply ih
            intro s hs
            rcases List.mem_append.1 hs with h | h
            · exact hst s h
            · rw [List.mem_singleton.1 h]
              exact hg

theorem cleanLoop_nil (r : Bool) (fuel : Nat) (out : Str) (dd : Nat) :
    cleanLoop r fuel [] out dd = out := by
  cases fuel <;> rfl

/-- On an unrooted path made of path elements joined by single slashes, possibly with a
trailing slash, the main loop of `path.Clean` copies the elements. -/
theorem cleanLoop_normal (tl : Str) (htl : tl = [] ∨ tl = ['/']) :
    ∀ (segs st : List Str) (fuel : Nat), (∀ s ∈ segs, GoodSeg s) → (∀ s ∈ st, GoodSeg s) →
      (joinSegs segs ++ tl).length ≤ fuel →
      cleanLoop false fuel (joinSegs segs ++ tl) (joinSegs st) 0 = joinSegs (st ++ segs) := by
  intro segs
  induction segs with
  | nil =>
    intro st fuel _ _ hf
    rcases htl with rfl | rfl
    · simp [joinSegs, cleanLoop_nil]
    · cases fuel with
      | zero => simp [joinSegs] at hf
      | succ n => simp [joinSegs, cleanLoop, cleanLoop_nil]
  | cons s rest ih =>
    intro st fuel hsegs hst hf
    have hs : GoodSeg s := hsegs s (by simp)
    have hrest : ∀ t ∈ rest, GoodSeg t := fun t ht => hsegs t (by simp [ht])
    obtain ⟨hne, hns, hnd, hndd⟩ := hs
    -- the input is `s` followed by the remainder `R`
    obtain ⟨R, hR, hRhead, hRcases⟩ : ∃ R : Str, joinSegs (s :: rest) ++ tl = s ++ R ∧
        (R = [] ∨ R.head? = some '/') ∧
        ((rest = [] ∧ R = tl) ∨ (rest ≠ [] ∧ R = '/' :: (joinSegs rest ++ tl))) := by
      by_cases hr : rest = []
      · subst hr
        refine ⟨tl, by simp [joinSegs], ?_, Or.inl ⟨rfl, rfl⟩⟩
        rcases htl with rfl | rfl <;> simp
      · refine ⟨'/' :: (joinSegs rest ++ tl), ?_, Or.inr rfl, Or.inr ⟨hr, rfl⟩⟩
        rw [joinSegs_cons s rest hr]
        simp
    rw [hR] at hf ⊢
    obtain ⟨htw, hdw⟩ := takeWhile_eq_self_of_noslash s R hns hRhead
    cases s with
    | nil => exact absurd rfl hne
    | cons c s1 =>
      have hc : c ≠ '/' := fun h => hns (by simp [h])
      cases fuel with
      | zero => simp at hf
      | succ n =>
        simp only [List.cons_append] at htw hdw hf ⊢
        rw [cleanLoop, if_neg hc]
        have hd : ¬ (c = '.' ∧ (s1 ++ R = [] ∨ (s1 ++ R).head? = some '/')) := by
          intro h
          exact hnd (htw ▸ (dot_iff c (s1 ++ R) hc).1 h)
        have hdd : ¬ (c = '.' ∧ (s1 ++ R).head? = some '.' ∧
            ((s1 ++ R).tail = [] ∨ (s1 ++ R).tail.head? = some '/')) := by
          intro h
          exact hndd (htw ▸ (dotdot_iff c (s1 ++ R) hc).1 h)
        rw [if_neg hd, if_neg hdd]
        simp only []
        rw [htw, hdw, unrooted_append st _ hst]
        have hst1 : ∀ t ∈ st ++ [c :: s1], GoodSeg t := by
          intro t ht
          rcases List.mem_append.1 ht with h | h
          · exact hst t h
          · rw [List.mem_singleton.1 h]
            exact ⟨hne, hns, hnd, hndd⟩
        have hlen : R.length ≤ n := by
          simp only [List.length_cons, List.length_append] at hf
          omega
        rcases hRcases with ⟨hr, hRt⟩ | ⟨hr, hRt⟩
        · subst hr
          have := ih (st ++ [c :: s1]) n hrest hst1 (by simpa [joinSegs, hRt] using hlen)
          simp only [joinSegs, List.nil_append] at this
          rw [hRt, this]
          simp
        · rw [hRt] at hlen ⊢
          cases n with
          | zero => simp at hlen
          | succ m =>
            rw [cleanLoop, if_pos rfl]
            have := ih (st ++ [c :: s1]) m hrest hst1 (by simp at hlen ⊢; omega)
            rw [this]
            simp

end path

end Tarfs

namespace Tarfs

namespace path

theorem head_ne_slash (segs : List Str) (h : segs ≠ []) (hg : ∀ s ∈ segs, GoodSeg s) :
    (joinSegs segs).head? ≠ some '/' := by
  cases segs with
  | nil => exact absurd rfl h
  | cons s rest =>
    obtain ⟨hne, hns, -, -⟩ := hg s (by simp)
    cases s with
    | nil => exact absurd rfl hne
    | cons c s1 =>
      have hc : c ≠ '/' := fun h => hns (by simp [h])
      cases rest with
      | nil => simpa [joinSegs] using hc
      | cons t r => simpa [joinSegs] using hc

/-- `path.Clean` removes one trailing slash from a normalized path and changes nothing
else. -/
theorem Clean_joinSegs (segs : List Str) (h : segs ≠ []) (hg : ∀ s ∈ segs, GoodSeg s)
    (tl : Str) (htl : tl = [] ∨ tl = ['/']) :
    Clean (joinSegs segs ++ tl) = joinSegs segs := by
  have hne := joinSegs_ne_nil segs h hg
  have hhead := head_ne_slash segs h hg
  have hne2 : joinSegs segs ++ tl ≠ [] := by simp [hne]
  have hhead2 : ¬ ((joinSegs segs ++ tl).head? = some '/') := by
    cases hj : joinSegs segs with
    | nil => exact absurd hj hne
    | cons c r =>
      rw [hj] at hhead
      simpa using hhead
  have hloop := cleanLoop_normal tl htl segs [] (joinSegs segs ++ tl).length hg
    (by simp) (le_refl _)
  simp only [joinSegs, List.nil_append] at hloop
  unfold Clean
  rw [if_neg hne2]
  simp only [hhead2, decide_False, Bool.false_eq_true, if_false, hloop]
  rw [if_neg]
  intro h0
  exact hne (List.length_eq_zero.1 h0)

theorem Clean_normal (k : Str) (hk : Normal k) : Clean k = k := by
  obtain ⟨segs, h, hg, rfl⟩ := hk
  simpa using Clean_joinSegs segs h hg [] (Or.inl rfl)

/-- The name that `walk` computes: `path.Join("/", name)` is the root `/` or a slash
followed by a normalized relative path. -/
theorem Join_root (name : Str) :
    Join ['/'] name = ['/'] ∨ ∃ k, Normal k ∧ Join ['/'] name = '/' :: k := by
  have hJ : Join ['/'] name = Clean ('/' :: '/' :: name) := by
    simp [Join]
  obtain ⟨st, hst, hloop⟩ := cleanLoop_rooted ('/' :: '/' :: name).length ('/' :: name) []
    (by simp)
  have hC : Clean ('/' :: '/' :: name) = '/' :: joinSegs st := by
    simp only [joinSegs, List.length_cons] at hloop
    simp [Clean, hloop]
  rw [hJ, hC]
  by_cases h : st = []
  · left
    simp [h, joinSegs]
  · right
    exact ⟨joinSegs st, ⟨st, h, hst, rfl⟩, rfl⟩

theorem lastSlash_noslash (s : Str) (h : '/' ∉ s) : lastSlash s = 0 := by
  induction s with
  | nil => rfl
  | cons c r ih =>
    have hc : c ≠ '/' := fun e => h (by simp [e])
    have hr : '/' ∉ r := fun e => h (by simp [e])
    simp [lastSlash, hc, hr, ih hr]

theorem lastSlash_append (A l : Str) (h : '/' ∉ l) :
    lastSlash (A ++ '/' :: l) = A.length + 1 := by
  induction A with
  | nil => simp [lastSlash, h]
  | cons a A ih => simp [lastSlash, ih]

theorem Dir_single (s : Str) (hs : GoodSeg s) : Dir s = ['.'] := by
  unfold Dir Split
  rw [lastSlash_noslash s hs.2.1]
  simp [Clean]

theorem Dir_snoc (init : List Str) (l : Str) (h : init ≠ []) (hg : ∀ s ∈ init, GoodSeg s)
    (hl : GoodSeg l) : Dir (joinSegs (init ++ [l])) = joinSegs init := by
  unfold Dir Split
  rw [joinSegs_snoc init l h, lastSlash_append _ _ hl.2.1]
  have : (joinSegs init ++ '/' :: l).take ((joinSegs init).length + 1) = joinSegs init ++ ['/'] := by
    have e : joinSegs init ++ '/' :: l = (joinSegs init ++ ['/']) ++ l := by simp
    rw [e]
    have e2 : (joinSegs init).length + 1 = (joinSegs init ++ ['/']).length := by simp
    rw [e2, List.take_left']
    rfl
  simp only [this]
  exact Clean_joinSegs init h hg ['/'] (Or.inr rfl)

theorem stripSlashes_noslash (c : Char) (r : Str) (hc : c ≠ '/') :
    stripSlashes (c :: r) = c :: r := by
  simp [stripSlashes, hc]

theorem Base_single (s : Str) (hs : GoodSeg s) : Base s = s := by
  obtain ⟨hne, hns, -, -⟩ := hs
  have hrev : stripSlashes s.reverse = s.reverse := by
    cases hr : s.reverse with
    | nil => rfl
    | cons c r =>
      have hc : c ≠ '/' := by
        intro e
        apply hns
        have : c ∈ s.reverse := by rw [hr]; simp
        rw [← e]
        exact List.mem_reverse.1 this
      exact stripSlashes_noslash c r hc
  unfold Base
  rw [if_neg hne]
  simp only [hrev, List.reverse_reverse, lastSlash_noslash s hns, List.drop_zero]
  rw [if_neg hne]

theorem Base_snoc (A l : Str) (hl : GoodSeg l) : Base (A ++ '/' :: l) = l := by
  obtain ⟨hne, hns, -, -⟩ := hl
  have hrev : stripSlashes (A ++ '/' :: l).reverse = (A ++ '/' :: l).reverse := by
    cases hr : (A ++ '/' :: l).reverse with
    | nil => rfl
    | cons c r =>
      have hc : c ≠ '/' := by
        intro e
        apply hns
        rcases List.eq_nil_or_concat l with h0 | ⟨l0, x, hx⟩
        · exact absurd h0 hne
        · rw [List.concat_eq_append] at hx
          subst hx
          have : (A ++ '/' :: (l0 ++ [x])).reverse = x :: (A ++ '/' :: l0).reverse := by simp
          rw [this] at hr
          injection hr with h1 h2
          rw [← e, ← h1]
          simp
      exact stripSlashes_noslash c r hc
  unfold Base
  have hne2 : A ++ '/' :: l ≠ [] := by simp
  rw [if_neg hne2]
  simp only [hrev, List.reverse_reverse, lastSlash_append A l hns]
  have : (A ++ '/' :: l).drop (A.length + 1) = l := by
    have e : A ++ '/' :: l = (A ++ ['/']) ++ l := by simp
    have e2 : A.length + 1 = (A ++ ['/']).length := by simp
    rw [e, e2, List.drop_left']
    rfl
  rw [this, if_neg hne]

/-- A normalized path is at the top level, or is its directory, a slash and its base name. -/
theorem Normal_split (k : Str) (hk : Normal k) :
    (Dir k = ['.'] ∧ Base k = k ∧ GoodSeg k) ∨
    (Normal (Dir k) ∧ GoodSeg (Base k) ∧ k = Dir k ++ '/' :: Base k) := by
  obtain ⟨segs, h, hg, rfl⟩ := hk
  rcases List.eq_nil_or_concat segs with h0 | ⟨init, l, h1⟩
  · exact absurd h0 h
  · rw [List.concat_eq_append] at h1
    subst h1
    have hinit : ∀ s ∈ init, GoodSeg s := fun s hs => hg s (by simp [hs])
    have hl : GoodSeg l := hg l (by simp)
    by_cases hi : init = []
    · subst hi
      left
      simp only [List.nil_append, joinSegs]
      exact ⟨Dir_single l hl, Base_single l hl, hl⟩
    · right
      rw [Dir_snoc init l hi hinit hl]
      refine ⟨⟨init, hi, hinit, rfl⟩, ?_, ?_⟩
      · rw [joinSegs_snoc init l hi, Base_snoc _ _ hl]
        exact hl
      · rw [joinSegs_snoc init l hi, Base_snoc _ _ hl]

theorem Normal_ne_dot (k : Str) (hk : Normal k) : k ≠ ['.'] := by
  obtain ⟨segs, h, hg, rfl⟩ := hk
  intro e
  cases segs with
  | nil => exact absurd rfl h
  | cons s rest =>
    cases rest with
    | nil =>
      simp only [joinSegs] at e
      exact (hg s (by simp)).2.2.1 e
    | cons t r =>
      simp only [joinSegs] at e
      have hs := (hg s (by simp)).1
      have : (s ++ '/' :: joinSegs (t :: r)).length = 1 := by rw [e]; rfl
      simp only [List.length_append, List.length_cons] at this
      have h0 : s.length = 0 := by omega
      exact hs (List.length_eq_zero.1 h0)

end path

namespace fs

open path

theorem validElems_noslash (s acc tl : Str) (h : '/' ∉ s) :
    validElems acc (s ++ tl) = validElems (s.reverse ++ acc) tl := by
  induction s generalizing acc with
  | nil => rfl
  | cons c r ih =>
    have hc : c ≠ '/' := fun e => h (by simp [e])
    have hr : '/' ∉ r := fun e => h (by simp [e])
    have e := ih (c :: acc) hr
    simp only [List.cons_append, validElems, if_neg hc]
    simp only [List.append_eq] at e ⊢
    rw [e]
    simp

theorem reverse_good (s : Str) (hs : GoodSeg s) :
    (s.reverse = [] || s.reverse = ['.'] || s.reverse = ['.', '.']) = false := by
  obtain ⟨hne, -, hnd, hndd⟩ := hs
  have h1 : s.reverse ≠ [] := by simpa using hne
  have h2 : s.reverse ≠ ['.'] := by
    intro e
    apply hnd
    have := congrArg List.reverse e
    simpa using this
  have h3 : s.reverse ≠ ['.', '.'] := by
    intro e
    apply hndd
    have := congrArg List.reverse e
    simpa using this
  simp [h1, h2, h3]

theorem validElems_joinSegs (segs : List Str) (h : segs ≠ []) (hg : ∀ s ∈ segs, GoodSeg s) :
    validElems [] (joinSegs segs) = true := by
  induction segs with
  | nil => exact absurd rfl h
  | cons s rest ih =>
    have hs := hg s (by simp)
    cases rest with
    | nil =>
      have := validElems_noslash s [] [] hs.2.1
      simp only [List.append_nil] at this
      simp only [joinSegs, this, validElems, reverse_good s hs]
      rfl
    | cons t r =>
      have := validElems_noslash s [] ('/' :: joinSegs (t :: r)) hs.2.1
      simp only [List.append_nil] at this
      simp only [joinSegs, this, validElems, reverse_good s hs, if_true]
      simp only [Bool.false_eq_true, if_false]
      exact ih (by simp) (fun x hx => hg x (by simp [hx]))

/-- A normalized path passes `fs.ValidPath` exactly when it is valid UTF-8. -/
theorem ValidPath_normal (k : Str) (hk : Normal k) : ValidPath k = utf8.ValidString k := by
  obtain ⟨segs, h, hg, rfl⟩ := hk
  unfold ValidPath
  cases hv : utf8.ValidString (joinSegs segs)
  · rfl
  · simp only [Bool.not_true, Bool.false_eq_true, if_false]
    split
    · rfl
    · exact validElems_joinSegs segs h hg

end fs

end Tarfs

namespace Tarfs

open path

theorem mapGet_mapSet {β : Type} (m : List (Str × β)) (k : Str) (v : β) (k1 : Str) :
    mapGet (mapSet m k v) k1 = if k = k1 then some v else mapGet m k1 := by
  induction m with
  | nil => simp [mapSet, mapGet]
  | cons p rest ih =>
    obtain ⟨k2, v2⟩ := p
    by_cases h : k2 = k
    · subst h
      by_cases h1 : k2 = k1 <;> simp [mapSet, mapGet, h1]
    · by_cases h1 : k = k1
      · subst h1
        simp [mapSet, mapGet, h, ih]
      · by_cases h2 : k2 = k1
        · subst h2
          simp [mapSet, mapGet, h, h1]
        · simp [mapSet, mapGet, h, h1, h2, ih]

theorem mapGet_mapSet_self {β : Type} (m : List (Str × β)) (k : Str) (v : β) :
    mapGet (mapSet m k v) k = some v := by
  rw [mapGet_mapSet, if_pos rfl]

theorem mapGet_mapSet_isSome {β : Type} (m : List (Str × β)) (k : Str) (v : β) (k1 : Str)
    (h : (mapGet m k1).isSome = true) : (mapGet (mapSet m k v) k1).isSome = true := by
  rw [mapGet_mapSet]
  split
  · rfl
  · exact h

theorem setInsert_nodup (s : List Str) (k : Str) (h : s.Nodup) : (setInsert s k).Nodup := by
  unfold setInsert
  split
  · exact h
  · rename_i hk
    exact List.nodup_append.2 ⟨h, List.nodup_singleton k, by
      intro a ha hb
      rw [List.mem_singleton.1 hb] at ha
      exact hk ha⟩

theorem mem_setInsert (s : List Str) (k c : Str) : c ∈ setInsert s k ↔ c ∈ s ∨ c = k := by
  unfold setInsert
  split
  · rename_i hk
    constructor
    · exact Or.inl
    · rintro (h | rfl)
      · exact h
      · exact hk
  · simp

theorem EntryOK_links_append (links extra : List link) (k : Str) (e : fileEntry)
    (h : EntryOK links k e) : EntryOK (links ++ extra) k e := by
  cases e with
  | link ref =>
    obtain ⟨ln, hget, hname⟩ := h
    refine ⟨ln, ?_, hname⟩
    rw [List.get?_eq_getElem?] at hget ⊢
    have hlt : ref < links.length := by
      by_contra hge
      rw [List.getElem?_eq_none (by omega)] at hget
      exact absurd hget (by simp)
    rw [List.getElem?_append_left hlt]
    exact hget
  | file f => exact h
  | dir d => exact h
  | symlink hd => exact h
  | deny hd => exact h

theorem IndexInv_links_append (files : List (Str × fileEntry)) (links extra : List link)
    (h : IndexInv files links) : IndexInv files (links ++ extra) :=
  ⟨h.root, fun k e hk => ⟨(h.keys k e hk).1, EntryOK_links_append _ _ _ _ (h.keys k e hk).2⟩⟩

/-- Writing a consistent entry under a key keeps the index well formed. -/
theorem inv_set (files : List (Str × fileEntry)) (links : List link) (pend pend1 : List Str)
    (k : Str) (e : fileEntry) (hinv : IndexInv files links) (hcp : ChildrenPresent files pend)
    (hk : k = ['.'] ∨ Normal k) (hroot : k = ['.'] → ∃ d, e = fileEntry.dir d)
    (he : EntryOK links k e)
    (hch : ∀ d, e = fileEntry.dir d →
      ∀ c ∈ d.entries, (mapGet files c).isSome = true ∨ c = k ∨ c ∈ pend1)
    (hpend : ∀ c ∈ pend, c = k ∨ c ∈ pend1) :
    IndexInv (mapSet files k e) links ∧ ChildrenPresent (mapSet files k e) pend1 := by
  constructor
  · constructor
    · rw [mapGet_mapSet]
      split
      · rename_i h
        obtain ⟨d, hd⟩ := hroot h
        exact ⟨d, by rw [hd]⟩
      · exact hinv.root
    · intro k1 e1 h1
      rw [mapGet_mapSet] at h1
      split at h1
      · rename_i h
        subst h
        injection h1 with h1
        subst h1
        exact ⟨hk, he⟩
      · exact hinv.keys k1 e1 h1
  · intro k1 d h1 c hc
    have key : ∀ c, ((mapGet files c).isSome = true ∨ c = k ∨ c ∈ pend1) →
        (mapGet (mapSet files k e) c).isSome = true ∨ c ∈ pend1 := by
      intro c h
      rcases h with h | h | h
      · exact Or.inl (mapGet_mapSet_isSome _ _ _ _ h)
      · subst h
        left
        rw [mapGet_mapSet_self]
        rfl
      · exact Or.inr h
    rw [mapGet_mapSet] at h1
    split at h1
    · injection h1 with h1
      exact key c (hch d h1 c hc)
    · rcases hcp k1 d h1 c hc with h | h
      · exact key c (Or.inl h)
      · exact key c (Or.inr (hpend c h))

theorem Normal_length_pos (k : Str) (hk : Normal k) : 0 < k.length := by
  obtain ⟨segs, h, hg, rfl⟩ := hk
  have := joinSegs_ne_nil segs h hg
  exact List.length_pos.2 this

end Tarfs

namespace Tarfs

open path

theorem Normal_dir_length (name : Str) (hn : Normal name) (hd : Normal (Dir name)) :
    (Dir name).length < name.length := by
  rcases Normal_split name hn with ⟨h, -, -⟩ | ⟨-, -, h⟩
  · exact absurd h (Normal_ne_dot _ hd)
  · have := congrArg List.length h
    simp only [List.length_append, List.length_cons] at this
    omega

/-- Adding a child to the directory stored under its parent's key. -/
theorem inv_addChild (files : List (Str × fileEntry)) (links : List link) (name : Str)
    (d : dir) (hinv : IndexInv files links) (hcp : ChildrenPresent files [])
    (hn : Normal name) (hget : mapGet files (Dir name) = some (fileEntry.dir d)) :
    IndexInv (mapSet files (Dir name)
        (fileEntry.dir { d with entries := setInsert d.entries name })) links ∧
      ChildrenPresent (mapSet files (Dir name)
        (fileEntry.dir { d with entries := setInsert d.entries name })) [name] := by
  obtain ⟨hk, hname, hnd, hch⟩ := hinv.keys _ _ hget
  apply inv_set files links [] [name] (Dir name) _ hinv hcp hk (fun _ => ⟨_, rfl⟩)
  · refine ⟨hname, setInsert_nodup _ _ hnd, ?_⟩
    intro c hc
    rcases (mem_setInsert _ _ _).1 hc with h | h
    · exact hch c h
    · subst h
      exact ⟨hn, rfl⟩
  · intro d1 hd1 c hc
    injection hd1 with hd1
    subst hd1
    rcases (mem_setInsert _ _ _).1 hc with h | h
    · rcases hcp _ _ hget c h with h1 | h1
      · exact Or.inl h1
      · simp at h1
    · right; right
      simp [h]
  · intro c hc
    simp at hc

/-- `makePath` returns on every normalized name, keeps the index well formed, records
only the name itself as a child still to be stored, and leaves the map alone when it
fails. -/
theorem makePath_spec (modTime : Nat) : ∀ (fuel : Nat) (files : List (Str × fileEntry))
    (name : Str) (links : List link),
    IndexInv files links → ChildrenPresent files [] → Normal name → name.length ≤ fuel →
    ∃ files1 err, makePath modTime fuel files name = some (files1, err) ∧
      IndexInv files1 links ∧ ChildrenPresent files1 [name] ∧ (err ≠ none → files1 = files) := by
  intro fuel
  induction fuel with
  | zero =>
    intro files name links _ _ hn hf
    have := Normal_length_pos name hn
    omega
  | succ n ih =>
    intro files name links hinv hcp hn hf
    have hweak : ChildrenPresent files [name] := by
      intro k d hk c hc
      rcases hcp k d hk c hc with h | h
      · exact Or.inl h
      · simp at h
    rw [makePath]
    simp only []
    cases hget : mapGet files (Dir name) with
    | none =>
      simp only []
      have hdn : Normal (Dir name) := by
        rcases Normal_split name hn with ⟨h, -, -⟩ | ⟨h, -, -⟩
        · obtain ⟨d, hd⟩ := hinv.root
          rw [h, hd] at hget
          exact absurd hget (by simp)
        · exact h
      have hlt := Normal_dir_length name hn hdn
      obtain ⟨files1, err, hmk, hinv1, hcp1, herr⟩ :=
        ih files (Dir name) links hinv hcp hdn (by omega)
      rw [hmk]
      cases err with
      | some e =>
        simp only []
        have := herr (by simp)
        subst this
        exact ⟨files1, some e, rfl, hinv, hweak, fun _ => rfl⟩
      | none =>
        simp only []
        refine ⟨_, none, rfl, ?_⟩
        have := inv_set files1 links [Dir name] [name] (Dir name)
          (fileEntry.dir ⟨Dir name, modTime, setInsert [] name⟩) hinv1 hcp1 (Or.inr hdn)
          (fun _ => ⟨_, rfl⟩)
          ⟨rfl, setInsert_nodup _ _ List.nodup_nil, by
            intro c hc
            rcases (mem_setInsert [] name c).1 hc with h | h
            · simp at h
            · subst h
              exact ⟨hn, rfl⟩⟩
          (by
            intro d1 hd1 c hc
            injection hd1 with hd1
            subst hd1
            rcases (mem_setInsert [] name c).1 hc with h | h
            · simp at h
            · right; right
              simp [h])
          (by
            intro c hc
            left
            simpa using hc)
        exact ⟨this.1, this.2, fun h => absurd rfl h⟩
    | some e =>
      cases e with
      | dir d =>
        simp only []
        have := inv_addChild files links name d hinv hcp hn hget
        exact ⟨_, none, rfl, this.1, this.2, fun h => absurd rfl h⟩
      | file f => exact ⟨files, some Error.ErrPermission, rfl, hinv, hweak, fun _ => rfl⟩
      | link r => exact ⟨files, some Error.ErrPermission, rfl, hinv, hweak, fun _ => rfl⟩
      | symlink h => exact ⟨files, some Error.ErrPermission, rfl, hinv, hweak, fun _ => rfl⟩
      | deny h => exact ⟨files, some Error.ErrPermission, rfl, hinv, hweak, fun _ => rfl⟩

end Tarfs

namespace Tarfs

open path

theorem newEntry_spec (modTime : Nat) (header : tar.Header) (pos : Int) (links : List link) :
    ∃ extra, (OpenFS.newEntry modTime header pos links).2 = links ++ extra ∧
      EntryOK (links ++ extra) header.Name (OpenFS.newEntry modTime header pos links).1 ∧
      ∀ d, (OpenFS.newEntry modTime header pos links).1 = fileEntry.dir d → d.entries = [] := by
  unfold OpenFS.newEntry
  by_cases h1 : header.Typeflag = tar.TypeReg
  · rw [if_pos h1]
    exact ⟨[], by simp, ⟨rfl, h1⟩, fun d hd => by cases hd⟩
  · rw [if_neg h1]
    by_cases h2 : header.Typeflag = tar.TypeDir
    · rw [if_pos h2]
      refine ⟨[], by simp, ⟨rfl, List.nodup_nil, fun c hc => by cases hc⟩, ?_⟩
      intro d hd
      injection hd with hd
      rw [← hd]
    · rw [if_neg h2]
      by_cases h3 : header.Typeflag = tar.TypeLink
      · rw [if_pos h3]
        refine ⟨[{ target := none, header := header }], rfl, ?_, fun d hd => by cases hd⟩
        refine ⟨{ target := none, header := header }, ?_, rfl, h3⟩
        exact get?_length_append links _ []
      · rw [if_neg h3]
        by_cases h4 : header.Typeflag = tar.TypeSymlink
        · rw [if_pos h4]
          exact ⟨[], by simp, ⟨rfl, h4⟩, fun d hd => by cases hd⟩
        · rw [if_neg h4]
          exact ⟨[], by simp, ⟨rfl, h1, h2, h3, h4⟩, fun d hd => by cases hd⟩

/-- One call of the closure of `OpenFS` on a normalized name returns without error and
keeps the index well formed. -/
theorem visit_spec (modTime : Nat) (header : tar.Header) (pos : Int) (s : Index)
    (hinv : IndexInv s.files s.links) (hcp : ChildrenPresent s.files [])
    (hn : Normal header.Name) :
    ∃ s1, OpenFS.visit modTime header pos s = some (s1, none) ∧
      IndexInv s1.files s1.links ∧ ChildrenPresent s1.files [] := by
  obtain ⟨files1, err, hmk, hinv1, hcp1, -⟩ :=
    makePath_spec modTime (header.Name.length + 1) s.files header.Name s.links hinv hcp hn
      (by omega)
  obtain ⟨extra, hlinks, hok, hdir⟩ := newEntry_spec modTime header pos s.links
  unfold OpenFS.visit
  simp only [hmk]
  refine ⟨_, rfl, ?_⟩
  simp only [hlinks]
  apply inv_set files1 (s.links ++ extra) [header.Name] [] header.Name _
    (IndexInv_links_append _ _ _ hinv1) hcp1 (Or.inr hn)
    (fun h => absurd h (Normal_ne_dot _ hn)) hok
  · intro d hd c hc
    rw [hdir d hd] at hc
    cases hc
  · intro c hc
    left
    simpa using hc

theorem walk_spec (modTime : Nat) (err : Option Error) :
    ∀ (members : List (tar.Header × Int)) (s : Index),
      IndexInv s.files s.links → ChildrenPresent s.files [] →
      ∃ s1, walk (OpenFS.visit modTime) members err s = some (s1, err) ∧
        IndexInv s1.files s1.links ∧ ChildrenPresent s1.files [] := by
  intro members
  induction members with
  | nil => intro s hinv hcp; exact ⟨s, rfl, hinv, hcp⟩
  | cons m rest ih =>
    intro s hinv hcp
    obtain ⟨h, pos⟩ := m
    rw [walk]
    rcases Join_root h.Name with hroot | ⟨k, hk, hjoin⟩
    · rw [if_pos hroot]
      exact ih s hinv hcp
    · have hne : Join ['/'] h.Name ≠ ['/'] := by
        rw [hjoin]
        intro e
        injection e with _ e
        obtain ⟨segs, h1, h2, h3⟩ := hk
        exact joinSegs_ne_nil segs h1 h2 (h3 ▸ e)
      rw [if_neg hne, hjoin]
      obtain ⟨s1, hv, hinv1, hcp1⟩ :=
        visit_spec modTime { h with Name := k } pos s hinv hcp hk
      have hdrop : ('/' :: k).drop 1 = k := rfl
      rw [hdrop, hv]
      exact ih s1 hinv1 hcp1

theorem bindLink_header (files : List (Str × fileEntry)) (ln : link) :
    (bindLink files ln).header = ln.header := by
  unfold bindLink
  split <;> rfl

theorem bindLink_idem (files : List (Str × fileEntry)) (ln : link) :
    bindLink files (bindLink files ln) = bindLink files ln := by
  unfold bindLink
  cases h : mapGet files ln.header.Linkname with
  | none => simp [h]
  | some e => cases e <;> simp [h]

theorem EntryOK_bind (files : List (Str × fileEntry)) (links : List link) (k : Str)
    (e : fileEntry) (h : EntryOK links k e) : EntryOK (links.map (bindLink files)) k e := by
  cases e with
  | link ref =>
    obtain ⟨ln, hget, hname⟩ := h
    refine ⟨bindLink files ln, ?_, ?_⟩
    · rw [List.get?_eq_getElem?] at hget ⊢
      simp [hget]
    · rw [bindLink_header]
      exact hname
  | file f => exact h
  | dir d => exact h
  | symlink hd => exact h
  | deny hd => exact h

theorem initial_inv (modTime : Nat) :
    IndexInv [(['.'], fileEntry.dir { name := ['.'], modTime := modTime, entries := [] })] [] ∧
    ChildrenPresent
      [(['.'], fileEntry.dir { name := ['.'], modTime := modTime, entries := [] })] [] := by
  have h0 : IndexInv [(['.'], fileEntry.dir { name := ['.'], modTime := modTime, entries := [] })]
      [] := by
    constructor
    · exact ⟨{ name := ['.'], modTime := modTime, entries := [] }, by simp [mapGet]⟩
    · intro k e hk
      simp only [mapGet] at hk
      split at hk
      · rename_i h
        injection hk with hk
        subst hk
        subst h
        exact ⟨Or.inl rfl, rfl, List.nodup_nil, fun c hc => by cases hc⟩
      · cases hk
  have hc0 : ChildrenPresent
      [(['.'], fileEntry.dir { name := ['.'], modTime := modTime, entries := [] })] [] := by
    intro k d hk c hc
    simp only [mapGet] at hk
    split at hk
    · injection hk with hk
      injection hk with hk
      rw [← hk] at hc
      cases hc
    · cases hk
  exact ⟨h0, hc0⟩

/-- `OpenFS` returns on every reader: the error of the reader if there is one, a file
system otherwise. -/
theorem OpenFS_returns (data : List Nat) (size : Int) (modTime : Nat) (reader : tar.Reader) :
    (∃ e, reader.err = some e ∧ OpenFS data size modTime reader = some (.error e)) ∨
    (reader.err = none ∧ ∃ f, OpenFS data size modTime reader = some (.ok f)) := by
  obtain ⟨h0, hc0⟩ := initial_inv modTime
  obtain ⟨s1, hw, -, -⟩ := walk_spec modTime reader.err reader.members
    { files := [(['.'], fileEntry.dir { name := ['.'], modTime := modTime, entries := [] })],
      links := [] } h0 hc0
  unfold OpenFS
  simp only [hw]
  cases he : reader.err with
  | none => exact Or.inr ⟨rfl, _, rfl⟩
  | some e => exact Or.inl ⟨e, rfl, rfl⟩

/-- Every file system that `OpenFS` returns is well formed. -/
theorem OpenFS_wellFormed (data : List Nat) (size : Int) (modTime : Nat) (reader : tar.Reader)
    (f : fileSystem) (h : OpenFS data size modTime reader = some (.ok f)) : WellFormed f := by
  obtain ⟨h0, hc0⟩ := initial_inv modTime
  obtain ⟨s1, hw, hinv, hcp⟩ := walk_spec modTime reader.err reader.members
    { files := [(['.'], fileEntry.dir { name := ['.'], modTime := modTime, entries := [] })],
      links := [] } h0 hc0
  unfold OpenFS at h
  simp only [hw] at h
  cases he : reader.err with
  | some e =>
    rw [he] at h
    simp at h
  | none =>
    rw [he] at h
    simp only [Option.some.injEq, Except.ok.injEq] at h
    subst h
    refine ⟨⟨hinv.root, fun k e hk => ⟨(hinv.keys k e hk).1, EntryOK_bind _ _ _ _ (hinv.keys k e hk).2⟩⟩,
      hcp, ?_⟩
    intro i ln hget
    simp only [List.get?_eq_getElem?, List.getElem?_map, Option.map_eq_some'] at hget
    obtain ⟨ln0, -, rfl⟩ := hget
    exact (bindLink_idem _ _).symm

end Tarfs

namespace Tarfs

open path

theorem Char_toNat_inj (a b : Char) (h : a.toNat = b.toNat) : a = b := by
  apply Char.eq_of_val_eq
  apply UInt32.eq_of_val_eq
  apply Fin.eq_of_val_eq
  exact h

theorem strLess_irrefl (a : Str) : strLess a a = false := by
  induction a with
  | nil => rfl
  | cons c r ih => simp [strLess, ih]

theorem strLess_trans : ∀ (a b c : Str), strLess a b = true → strLess b c = true →
    strLess a c = true := by
  intro a
  induction a with
  | nil =>
    intro b c hab hbc
    cases b with
    | nil => simp [strLess] at hab
    | cons y ys =>
      cases c with
      | nil => simp [strLess] at hbc
      | cons z zs => rfl
  | cons x xs ih =>
    intro b c hab hbc
    cases b with
    | nil => simp [strLess] at hab
    | cons y ys =>
      cases c with
      | nil => simp [strLess] at hbc
      | cons z zs =>
        simp only [strLess] at hab hbc ⊢
        by_cases h1 : x.toNat < y.toNat
        · by_cases h2 : y.toNat < z.toNat
          · have : x.toNat < z.toNat := by omega
            simp [this]
          · by_cases h3 : z.toNat < y.toNat
            · simp [h2, h3] at hbc
            · have : x.toNat < z.toNat := by omega
              simp [this]
        · by_cases h1b : y.toNat < x.toNat
          · simp [h1, h1b] at hab
          · simp only [h1, h1b, if_false] at hab
            by_cases h2 : y.toNat < z.toNat
            · have : x.toNat < z.toNat := by omega
              simp [this]
            · by_cases h3 : z.toNat < y.toNat
              · simp [h2, h3] at hbc
              · simp only [h2, h3, if_false] at hbc
                have e1 : ¬ x.toNat < z.toNat := by omega
                have e2 : ¬ z.toNat < x.toNat := by omega
                simp only [e1, e2, if_false]
                exact ih ys zs hab hbc

theorem strLess_total : ∀ (a b : Str), strLess a b = false → a = b ∨ strLess b a = true := by
  intro a
  induction a with
  | nil =>
    intro b h
    cases b with
    | nil => exact Or.inl rfl
    | cons y ys => simp [strLess] at h
  | cons x xs ih =>
    intro b h
    cases b with
    | nil => exact Or.inr rfl
    | cons y ys =>
      simp only [strLess] at h ⊢
      by_cases h1 : x.toNat < y.toNat
      · simp [h1] at h
      · by_cases h2 : y.toNat < x.toNat
        · simp [h2]
        · simp only [h1, h2, if_false] at h ⊢
          have hxy : x = y := Char_toNat_inj x y (by omega)
          rcases ih ys h with e | e
          · left; rw [hxy, e]
          · right; exact e

theorem strLess_append_left (p a b : Str) : strLess (p ++ a) (p ++ b) = strLess a b := by
  induction p with
  | nil => rfl
  | cons c r ih => simp [strLess, ih]

theorem mem_insertSorted (x a : Str) (l : List Str) :
    a ∈ insertSorted x l ↔ a = x ∨ a ∈ l := by
  induction l with
  | nil => simp [insertSorted]
  | cons y ys ih =>
    simp only [insertSorted]
    split
    · simp only [List.mem_cons, ih]
      tauto
    · simp only [List.mem_cons]

theorem insertSorted_perm (x : Str) (l : List Str) : List.Perm (insertSorted x l) (x :: l) := by
  induction l with
  | nil => exact List.Perm.refl _
  | cons y ys ih =>
    simp only [insertSorted]
    split
    · exact (List.Perm.cons y ih).trans (List.Perm.swap x y ys)
    · exact List.Perm.refl _

theorem insertSorted_sorted (x : Str) (l : List Str)
    (hl : List.Pairwise (fun a b => strLess a b = true) l) (hx : x ∉ l) :
    List.Pairwise (fun a b => strLess a b = true) (insertSorted x l) := by
  induction l with
  | nil => simp [insertSorted]
  | cons y ys ih =>
    have hy := List.pairwise_cons.1 hl
    have hxy : x ≠ y := fun e => hx (by simp [e])
    have hxys : x ∉ ys := fun e => hx (by simp [e])
    simp only [insertSorted]
    split
    · rename_i hlt
      apply List.pairwise_cons.2
      refine ⟨?_, ih hy.2 hxys⟩
      intro a ha
      rcases (mem_insertSorted x a ys).1 ha with e | e
      · rw [e]; exact hlt
      · exact hy.1 a e
    · rename_i hlt
      have hlt2 : strLess y x = false := by simpa using hlt
      have hxlt : strLess x y = true := by
        rcases strLess_total y x hlt2 with e | e
        · exact absurd e.symm hxy
        · exact e
      apply List.pairwise_cons.2
      refine ⟨?_, hl⟩
      intro a ha
      rcases List.mem_cons.1 ha with e | e
      · rw [e]; exact hxlt
      · exact strLess_trans x y a hxlt (hy.1 a e)

theorem sortStrings_perm (l : List Str) : List.Perm (sortStrings l) l := by
  induction l with
  | nil => exact List.Perm.refl _
  | cons x xs ih =>
    exact (insertSorted_perm x _).trans (List.Perm.cons x ih)

/-- `sort.Strings` of a list without repetition is strictly ascending. -/
theorem sortStrings_sorted (l : List Str) (h : l.Nodup) :
    List.Pairwise (fun a b => strLess a b = true) (sortStrings l) := by
  induction l with
  | nil => exact List.Pairwise.nil
  | cons x xs ih =>
    have hx := List.nodup_cons.1 h
    apply insertSorted_sorted x _ (ih hx.2)
    intro hmem
    exact hx.1 ((sortStrings_perm xs).mem_iff.1 hmem)

end Tarfs

namespace Tarfs

/-! ## The claims -/

/-- C1 (fails on the code): on the archive that declares the regular file `a/b` and then
the directory `a`, the index built by `OpenFS` holds the key `a/b`, whose parent
`path.Dir` is `a`, but the directory stored at `a` has an empty child set: the store
`files[header.Name] = entry` replaced the directory that `makePath` had filled. -/
theorem C1_redeclared_directory_loses_children :
    OpenFS [] 0 0 (sampleReader
        [sampleHeader tar.TypeReg "a/b" "" 0o644, sampleHeader tar.TypeDir "a" "" 0o755])
      = some (.ok
        { data := [], size := 0, links := [],
          files :=
            [(".".toList, fileEntry.dir ⟨".".toList, 0, ["a".toList]⟩),
             ("a".toList, fileEntry.dir ⟨"a".toList, 0, []⟩),
             ("a/b".toList, fileEntry.file
                ⟨{ sampleHeader tar.TypeReg "a/b" "" 0o644 with Name := "a/b".toList }, 512⟩)] })
    ∧ path.Dir "a/b".toList = "a".toList ∧ "a/b".toList ≠ ".".toList := by
  decide

/-- C2 (fails on the code): on the archive that declares the regular files `a`, `a/b` and
`a/c/d`, the index built by `OpenFS` holds the key `a/b`, whose parent `a` is a regular
file, and the key `a/c/d`, whose parent `a/c` is not a key at all: the error of `makePath`
is dropped and the entry is stored all the same. -/
theorem C2_entry_beneath_regular_file :
    OpenFS [] 0 0 (sampleReader
        [sampleHeader tar.TypeReg "a" "" 0o644, sampleHeader tar.TypeReg "a/b" "" 0o644,
         sampleHeader tar.TypeReg "a/c/d" "" 0o644])
      = some (.ok
        { data := [], size := 0, links := [],
          files :=
            [(".".toList, fileEntry.dir ⟨".".toList, 0, ["a".toList]⟩),
             ("a".toList, fileEntry.file ⟨sampleHeader tar.TypeReg "a" "" 0o644, 512⟩),
             ("a/b".toList, fileEntry.file ⟨sampleHeader tar.TypeReg "a/b" "" 0o644, 1536⟩),
             ("a/c/d".toList,
                fileEntry.file ⟨sampleHeader tar.TypeReg "a/c/d" "" 0o644, 2560⟩)] })
    ∧ path.Dir "a/b".toList = "a".toList ∧ path.Dir "a/c/d".toList = "a/c".toList := by
  decide

set_option maxRecDepth 100000 in
/-- C3 (fails on the code): in the index holding a chain of exactly 40 symbolic links that
ends in a regular file, opening the regular file directly succeeds, but `Open` and `Stat`
on the first link fail with `ErrLoop`: the loop makes 40 lookups, so it follows at most 39
links. -/
theorem C3_chain_of_40_links_fails :
    passesThrough (chainFs 40) 40 (chainName 1) = true ∧
    (∃ file, (chainFs 40).Open (chainName 41) = .ok (File.openFile file)) ∧
    (chainFs 40).Open (chainName 1) = .error Error.ErrLoop ∧
    (chainFs 40).Stat (chainName 1) = .error Error.ErrLoop := by
  refine ⟨by decide, ?_, by decide, by decide⟩
  exact ⟨_, rfl⟩

end Tarfs

namespace Tarfs

theorem passesThrough_succ (f : fileSystem) (n : Nat) (name : Str)
    (h : passesThrough f (n + 1) name = true) :
    ∃ header, f.lookup name = .ok (fileEntry.symlink header) ∧
      passesThrough f n (symlink.target header) = true := by
  rw [passesThrough] at h
  split at h
  · rename_i header hl
    exact ⟨header, hl, h⟩
  · cases h

theorem openLoop_passesThrough (f : fileSystem) : ∀ (m n : Nat) (name : Str), m ≤ n →
    passesThrough f n name = true → fileSystem.openLoop f m name = .error Error.ErrLoop := by
  intro m
  induction m with
  | zero => intro n name _ _; rfl
  | succ m ih =>
    intro n name hmn h
    cases n with
    | zero => omega
    | succ n =>
      obtain ⟨header, hl, hp⟩ := passesThrough_succ f n name h
      rw [fileSystem.openLoop]
      simp only [hl]
      exact ih n _ (by omega) hp

theorem statLoop_passesThrough (f : fileSystem) : ∀ (m n : Nat) (name : Str), m ≤ n →
    passesThrough f n name = true → fileSystem.statLoop f m name = .error Error.ErrLoop := by
  intro m
  induction m with
  | zero => intro n name _ _; rfl
  | succ m ih =>
    intro n name hmn h
    cases n with
    | zero => omega
    | succ n =>
      obtain ⟨header, hl, hp⟩ := passesThrough_succ f n name h
      rw [fileSystem.statLoop]
      simp only [hl]
      exact ih n _ (by omega) hp

/-- C4: in every index, when following symbolic links from `name` meets 41 or more
symbolic-link entries in a row (a chain of 41 links, or a cycle, which meets any number),
`Open` and `Stat` return, and what they return is the error `ErrLoop`, which is not the
not-found error `fs.ErrNotExist` (also under `errors.Is`). -/
theorem C4_loop_detected (f : fileSystem) (name : Str) (n : Nat) (hn : 41 ≤ n)
    (h : passesThrough f n name = true) :
    f.Open name = .error Error.ErrLoop ∧ f.Stat name = .error Error.ErrLoop ∧
      Error.ErrLoop ≠ Error.ErrNotExist ∧ errorsIs Error.ErrLoop Error.ErrNotExist = false := by
  refine ⟨?_, ?_, by decide, by decide⟩
  · exact openLoop_passesThrough f maxFollowSymlink n name (by unfold maxFollowSymlink; omega) h
  · exact statLoop_passesThrough f maxFollowSymlink n name (by unfold maxFollowSymlink; omega) h

set_option maxRecDepth 100000 in
/-- C4, on a cycle of two links and on a chain of 41 links. -/
theorem C4_loop_detected_witness :
    (cycleFs.Open "x".toList = .error Error.ErrLoop ∧
      cycleFs.Stat "x".toList = .error Error.ErrLoop ∧
      Error.ErrLoop ≠ Error.ErrNotExist ∧
      errorsIs Error.ErrLoop Error.ErrNotExist = false) ∧
    ((chainFs 41).Open (chainName 1) = .error Error.ErrLoop ∧
      (chainFs 41).Stat (chainName 1) = .error Error.ErrLoop ∧
      Error.ErrLoop ≠ Error.ErrNotExist ∧
      errorsIs Error.ErrLoop Error.ErrNotExist = false) :=
  ⟨C4_loop_detected cycleFs "x".toList 100 (by decide) (by decide),
   C4_loop_detected (chainFs 41) (chainName 1) 41 (by decide) (by decide)⟩

/-- A key of a well-formed index passes `fs.ValidPath` exactly when it is valid UTF-8. -/
theorem key_valid (files : List (Str × fileEntry)) (links : List link)
    (hinv : IndexInv files links) (k : Str) (e : fileEntry) (h : mapGet files k = some e) :
    fs.ValidPath k = utf8.ValidString k := by
  rcases (hinv.keys k e h).1 with hk | hk
  · rw [hk]
    rfl
  · exact fs.ValidPath_normal k hk

/-- `lookup` on a key of a well-formed index: the entry when the key is valid UTF-8,
`fs.ErrInvalid` when it is not. -/
theorem lookup_key_cases (f : fileSystem) (hinv : IndexInv f.files f.links) (k : Str)
    (e : fileEntry) (h : mapGet f.files k = some e) :
    f.lookup k = if utf8.ValidString k then .ok e else .error Error.ErrInvalid := by
  unfold fileSystem.lookup
  rw [key_valid f.files f.links hinv k e h]
  cases hv : utf8.ValidString k <;> simp [h]

/-- `lookup` finds every key of a well-formed index that is valid UTF-8. -/
theorem lookup_key (f : fileSystem) (hinv : IndexInv f.files f.links) (k : Str) (e : fileEntry)
    (h : mapGet f.files k = some e) (hv : utf8.ValidString k = true) : f.lookup k = .ok e := by
  rw [lookup_key_cases f hinv k e h, hv]
  rfl

/-- `lookup` rejects every name that is not valid UTF-8. -/
theorem lookup_invalid (f : fileSystem) (k : Str) (hv : utf8.ValidString k = false) :
    f.lookup k = .error Error.ErrInvalid := by
  unfold fileSystem.lookup fs.ValidPath
  simp [hv]

theorem deny_mode_perm (x : Nat) : ((x &&& (2 ^ 64 - 1 - 0o777)) % 2 ^ 32) &&& 0o777 = 0 := by
  apply Nat.eq_of_testBit_eq
  intro i
  simp only [Nat.testBit_and, Nat.testBit_mod_two_pow, Nat.zero_testBit]
  by_cases hi : i < 9
  · have : (2 ^ 64 - 1 - 0o777 : Nat).testBit i = false := by
      interval_cases i <;> rfl
    rw [this]
    simp
  · have : (0o777 : Nat).testBit i = false := by
      apply Nat.testBit_lt_two_pow
      calc (0o777 : Nat) < 2 ^ 9 := by norm_num
        _ ≤ 2 ^ i := Nat.pow_le_pow_right (by norm_num) (by omega)
    rw [this]
    simp

/-- In every file system built by `OpenFS`, a hard link stored at `p` whose link name is
the key of a regular-file entry (the normalized name, as in `file-0`) opens without error,
and its handle reads the same section of the source, offset and size, as the handle
obtained by opening that key; the link's handle carries the link's header.  Both paths are
taken to be valid UTF-8. -/
theorem link_reads_target (data : List Nat) (size : Int) (modTime : Nat)
    (reader : tar.Reader) (f : fileSystem)
    (hopen : OpenFS data size modTime reader = some (.ok f))
    (p : Str) (ref : Nat) (ln : link) (target : file)
    (hp : mapGet f.files p = some (fileEntry.link ref))
    (hln : f.links.get? ref = some ln)
    (hx : mapGet f.files ln.header.Linkname = some (fileEntry.file target))
    (hvp : utf8.ValidString p = true) (hvx : utf8.ValidString ln.header.Linkname = true) :
    f.Open p = .ok (File.openFile
      { header := ln.header,
        reader := some (NewSectionReader target.offset target.header.Size) }) ∧
    f.Open ln.header.Linkname = .ok (File.openFile
      { header := target.header,
        reader := some (NewSectionReader target.offset target.header.Size) }) := by
  have hwf := OpenFS_wellFormed data size modTime reader f hopen
  have hb := hwf.bound ref ln hln
  have htarget : ln.target = some target := by
    rw [hb]
    unfold bindLink
    simp [hx]
  have hln2 : f.links[ref]? = some ln := by
    rw [← List.get?_eq_getElem?]
    exact hln
  constructor
  · unfold fileSystem.Open maxFollowSymlink
    rw [fileSystem.openLoop, lookup_key f hwf.inv p _ hp hvp]
    simp [fileEntry.«open», hln2, htarget, file.openFile]
  · unfold fileSystem.Open maxFollowSymlink
    rw [fileSystem.openLoop, lookup_key f hwf.inv _ _ hx hvx]
    simp [fileEntry.«open», file.openFile]

/-- On the archive of the test suite, the hard link `tmp/link-0` with link name `file-0`
reads the file declared as `./file-0`. -/
theorem link_reads_target_sample :
    (sampleFs testHeaders).Open "tmp/link-0".toList = .ok (File.openFile
      { header := { sampleHeader tar.TypeLink "tmp/link-0" "file-0" 0o644 with
                    Name := "tmp/link-0".toList },
        reader := some (NewSectionReader 512 3) }) ∧
    (sampleFs testHeaders).Open "file-0".toList = .ok (File.openFile
      { header := { sampleHeader tar.TypeReg "file-0" "" 0o644 with Name := "file-0".toList },
        reader := some (NewSectionReader 512 3) }) :=
  link_reads_target [] 0 0 (sampleReader testHeaders) (sampleFs testHeaders)
    (by decide) "tmp/link-0".toList 0
    { target := some ⟨sampleHeader tar.TypeReg "file-0" "" 0o644, 512⟩,
      header := sampleHeader tar.TypeLink "tmp/link-0" "file-0" 0o644 }
    ⟨sampleHeader tar.TypeReg "file-0" "" 0o644, 512⟩ (by decide) (by decide) (by decide)
    (by decide) (by decide)

/-- C5 (fails on the code): the archive declares the regular file under the name
`./file-0` and a hard link `tmp/link-0` whose link name is the same `./file-0`.  `OpenFS`
stores the file under the normalized key `file-0`, where `Open` finds it, but looks the
link name up as written, so the link stays unbound and opening it fails with
`fs.ErrNotExist`.  With the link name written `file-0` the same link opens and reads the
file. -/
theorem C5_link_name_as_written_fails :
    OpenFS [] 0 0 (sampleReader dotSlashHeaders) = some (.ok (sampleFs dotSlashHeaders)) ∧
    mapGet (sampleFs dotSlashHeaders).files "file-0".toList
      = some (fileEntry.file
          ⟨{ sampleHeader tar.TypeReg "./file-0" "" 0o644 with Name := "file-0".toList },
            512⟩) ∧
    (sampleFs dotSlashHeaders).Open "file-0".toList = .ok (File.openFile
      { header := { sampleHeader tar.TypeReg "./file-0" "" 0o644 with
                    Name := "file-0".toList },
        reader := some (NewSectionReader 512 3) }) ∧
    (sampleFs dotSlashHeaders).links
      = [{ target := none,
           header := { sampleHeader tar.TypeLink "tmp/link-0" "./file-0" 0o644 with
                       Name := "tmp/link-0".toList } }] ∧
    (sampleFs dotSlashHeaders).Open "tmp/link-0".toList = .error Error.ErrNotExist ∧
    (sampleFs testHeaders).Open "tmp/link-0".toList = .ok (File.openFile
      { header := { sampleHeader tar.TypeLink "tmp/link-0" "file-0" 0o644 with
                    Name := "tmp/link-0".toList },
        reader := some (NewSectionReader 512 3) }) := by
  refine ⟨by decide, by decide, by decide, by decide, by decide, by decide⟩

/-- C6 (as stated, fails on the code): the archive declares the hard link `\xff/l`, whose
path is not valid UTF-8, to the undeclared name `missing`.  The link is left unbound, but
`Open` on its path does not fail with `fs.ErrNotExist` and `Stat` does not succeed: both
fail with a path error that wraps `fs.ErrInvalid`, because `lookup` rejects the path. -/
theorem C6_unbound_link_invalid_path :
    OpenFS [] 0 0 (sampleReader invalidNameHeaders)
      = some (.ok (sampleFs invalidNameHeaders)) ∧
    mapGet (sampleFs invalidNameHeaders).files "\xff/l".toList = some (fileEntry.link 0) ∧
    (sampleFs invalidNameHeaders).links
      = [{ target := none,
           header := { sampleHeader tar.TypeLink "\xff/l" "missing" 0o644 with
                       Name := "\xff/l".toList } }] ∧
    isFile (mapGet (sampleFs invalidNameHeaders).files "missing".toList) = false ∧
    utf8.ValidString "\xff/l".toList = false ∧
    (sampleFs invalidNameHeaders).Open "\xff/l".toList
      = .error (Error.PathError "open".toList "\xff/l".toList Error.ErrInvalid) ∧
    (sampleFs invalidNameHeaders).Stat "\xff/l".toList
      = .error (Error.PathError "stat".toList "\xff/l".toList Error.ErrInvalid) := by
  refine ⟨by decide, by decide, by decide, by decide, by decide, by decide, by decide⟩

/-- C6 (amended): in every file system built by `OpenFS`, a hard link stored at `p` whose
link name is not the key of a regular-file entry of the final index is left unbound.  When
`p` passes `fs.ValidPath`, `Open` on `p` fails with `fs.ErrNotExist` and `Stat` on `p`
succeeds with the link's own header; when it does not (`p` is not valid UTF-8), `Open` and
`Stat` fail with a path error that wraps `fs.ErrInvalid`. -/
theorem C6_unbound_hard_link (data : List Nat) (size : Int) (modTime : Nat)
    (reader : tar.Reader) (f : fileSystem)
    (hopen : OpenFS data size modTime reader = some (.ok f))
    (p : Str) (ref : Nat) (ln : link)
    (hp : mapGet f.files p = some (fileEntry.link ref))
    (hln : f.links.get? ref = some ln)
    (hx : isFile (mapGet f.files ln.header.Linkname) = false) :
    ln.target = none ∧ ln.header.Name = p ∧
    fs.ValidPath p = utf8.ValidString p ∧
    f.Open p =
      (if fs.ValidPath p then .error Error.ErrNotExist
       else .error (Error.PathError "open".toList p Error.ErrInvalid)) ∧
    f.Stat p =
      (if fs.ValidPath p then .ok (FileInfo.headerFileInfo ln.header)
       else .error (Error.PathError "stat".toList p Error.ErrInvalid)) := by
  have hwf := OpenFS_wellFormed data size modTime reader f hopen
  have hb := hwf.bound ref ln hln
  have htarget : ln.target = none := by
    rw [hb]
    unfold bindLink
    split
    · rename_i target heq
      rw [heq] at hx
      cases hx
    · rfl
  have hln2 : f.links[ref]? = some ln := by
    rw [← List.get?_eq_getElem?]
    exact hln
  obtain ⟨ln1, hln1, hname, -⟩ := (hwf.inv.keys p _ hp).2
  rw [hln] at hln1
  injection hln1 with hln1
  subst hln1
  have hkv := key_valid f.files f.links hwf.inv p _ hp
  refine ⟨htarget, hname, hkv, ?_, ?_⟩
  · unfold fileSystem.Open maxFollowSymlink
    rw [fileSystem.openLoop, lookup_key_cases f hwf.inv p _ hp, hkv]
    cases hv : utf8.ValidString p
    · rfl
    · simp [fileEntry.«open», hln2, htarget]
  · unfold fileSystem.Stat maxFollowSymlink
    rw [fileSystem.statLoop, lookup_key_cases f hwf.inv p _ hp, hkv]
    cases hv : utf8.ValidString p
    · rfl
    · simp [fileEntry.stat, hln2]

/-- C6 (amended), on the archive of the test suite, where `tmp/link-1` names the
undeclared `missing`, and on the link `\xff/l`, whose path is not valid UTF-8. -/
theorem C6_unbound_hard_link_witness :
    ((none : Option file) = none ∧ "tmp/link-1".toList = "tmp/link-1".toList ∧
      fs.ValidPath "tmp/link-1".toList = utf8.ValidString "tmp/link-1".toList ∧
      (sampleFs testHeaders).Open "tmp/link-1".toList = .error Error.ErrNotExist ∧
      (sampleFs testHeaders).Stat "tmp/link-1".toList = .ok (FileInfo.headerFileInfo
        { sampleHeader tar.TypeLink "tmp/link-1" "missing" 0o644 with
          Name := "tmp/link-1".toList })) ∧
    ((none : Option file) = none ∧ "\xff/l".toList = "\xff/l".toList ∧
      fs.ValidPath "\xff/l".toList = utf8.ValidString "\xff/l".toList ∧
      (sampleFs invalidNameHeaders).Open "\xff/l".toList
        = .error (Error.PathError "open".toList "\xff/l".toList Error.ErrInvalid) ∧
      (sampleFs invalidNameHeaders).Stat "\xff/l".toList
        = .error (Error.PathError "stat".toList "\xff/l".toList Error.ErrInvalid)) :=
  ⟨C6_unbound_hard_link [] 0 0 (sampleReader testHeaders) (sampleFs testHeaders)
    (by decide) "tmp/link-1".toList 1
    { target := none, header := sampleHeader tar.TypeLink "tmp/link-1" "missing" 0o644 }
    (by decide) (by decide) (by decide),
   C6_unbound_hard_link [] 0 0 (sampleReader invalidNameHeaders)
    (sampleFs invalidNameHeaders) (by decide) "\xff/l".toList 0
    { target := none, header := sampleHeader tar.TypeLink "\xff/l" "missing" 0o644 }
    (by decide) (by decide) (by decide)⟩

/-- C7 (fails on the code): on the handle of a directory with the two entries `a` and
`b` still to be read, `ReadDir(0)` returns no entry and no error and leaves both names
in the cursor, so that the next `ReadDir(-1)` still returns them: `readDir` tests
`n < 0`, and for `n = 0` takes the slice `entries[:0]`. -/
theorem C7_readdir_zero_returns_nothing :
    OpenFS [] 0 0 (sampleReader
        [sampleHeader tar.TypeReg "a" "" 0o644, sampleHeader tar.TypeReg "b" "" 0o644])
      = some (.ok twoFilesFs) ∧
    twoFilesFs.Open ".".toList = .ok (File.openDir twoFilesRoot) ∧
    openDir.ReadDir twoFilesFs twoFilesRoot 0 = (.ok [], twoFilesRoot) ∧
    twoFilesRoot.entries = ["a".toList, "b".toList] ∧
    openDir.ReadDir twoFilesFs twoFilesRoot (-1) =
      (.ok [FileInfo.headerFileInfo (sampleHeader tar.TypeReg "a" "" 0o644),
            FileInfo.headerFileInfo (sampleHeader tar.TypeReg "b" "" 0o644)],
       { twoFilesRoot with entries := [] }) := by
  decide

end Tarfs

namespace Tarfs

open path

/-- C10 (as stated, fails on the code): the archive declares the named pipe `\xff/p`,
whose path is not valid UTF-8.  `Open` on its path does not fail with `fs.ErrPermission`
and `Stat` does not succeed: both fail with a path error that wraps `fs.ErrInvalid`,
because `lookup` rejects the path. -/
theorem C10_denied_entry_invalid_path :
    OpenFS [] 0 0 (sampleReader invalidNameHeaders)
      = some (.ok (sampleFs invalidNameHeaders)) ∧
    mapGet (sampleFs invalidNameHeaders).files "\xff/p".toList
      = some (fileEntry.deny
          { sampleHeader tar.TypeFifo "\xff/p" "" 0o644 with Name := "\xff/p".toList }) ∧
    utf8.ValidString "\xff/p".toList = false ∧
    (sampleFs invalidNameHeaders).Open "\xff/p".toList
      = .error (Error.PathError "open".toList "\xff/p".toList Error.ErrInvalid) ∧
    (sampleFs invalidNameHeaders).Stat "\xff/p".toList
      = .error (Error.PathError "stat".toList "\xff/p".toList Error.ErrInvalid) := by
  refine ⟨by decide, by decide, by decide, by decide, by decide⟩

/-- C10 (amended): in every file system built by `OpenFS`, an entry stored at `p` whose
header has a type that is none of regular file, directory, hard link and symbolic link is
a denied entry, and the mode of its `denyInfo` has the nine permission bits clear,
whatever the mode of the header.  When `p` passes `fs.ValidPath`, `Open` on `p` fails with
`fs.ErrPermission` and `Stat` on `p` succeeds with that `denyInfo`; when it does not (`p`
is not valid UTF-8), `Open` and `Stat` fail with a path error that wraps
`fs.ErrInvalid`. -/
theorem C10_denied_entry (data : List Nat) (size : Int) (modTime : Nat)
    (reader : tar.Reader) (f : fileSystem)
    (hopen : OpenFS data size modTime reader = some (.ok f))
    (p : Str) (e : fileEntry) (header : tar.Header)
    (hp : mapGet f.files p = some e) (hh : entryHeader f e = some header)
    (ht : header.Typeflag ≠ tar.TypeReg ∧ header.Typeflag ≠ tar.TypeDir ∧
      header.Typeflag ≠ tar.TypeLink ∧ header.Typeflag ≠ tar.TypeSymlink) :
    e = fileEntry.deny header ∧
    fs.ValidPath p = utf8.ValidString p ∧
    f.Open p =
      (if fs.ValidPath p then .error Error.ErrPermission
       else .error (Error.PathError "open".toList p Error.ErrInvalid)) ∧
    f.Stat p =
      (if fs.ValidPath p then .ok (FileInfo.denyInfo header)
       else .error (Error.PathError "stat".toList p Error.ErrInvalid)) ∧
    (FileInfo.denyInfo header).Mode &&& 0o777 = 0 := by
  have hwf := OpenFS_wellFormed data size modTime reader f hopen
  have hok := (hwf.inv.keys p e hp).2
  have he : e = fileEntry.deny header := by
    cases e with
    | file file =>
      simp only [entryHeader, Option.some.injEq] at hh
      exact absurd (hh ▸ hok.2) ht.1
    | dir d => simp [entryHeader] at hh
    | link ref =>
      obtain ⟨ln, hln, -, htf⟩ := hok
      simp only [entryHeader, hln, Option.map_some', Option.some.injEq] at hh
      exact absurd (hh ▸ htf) ht.2.2.1
    | symlink h =>
      simp only [entryHeader, Option.some.injEq] at hh
      exact absurd (hh ▸ hok.2) ht.2.2.2
    | deny h =>
      simp only [entryHeader, Option.some.injEq] at hh
      rw [hh]
  subst he
  have hkv := key_valid f.files f.links hwf.inv p _ hp
  refine ⟨rfl, hkv, ?_, ?_, ?_⟩
  · unfold fileSystem.Open maxFollowSymlink
    rw [fileSystem.openLoop, lookup_key_cases f hwf.inv p _ hp, hkv]
    cases hv : utf8.ValidString p <;> rfl
  · unfold fileSystem.Stat maxFollowSymlink
    rw [fileSystem.statLoop, lookup_key_cases f hwf.inv p _ hp, hkv]
    cases hv : utf8.ValidString p <;> rfl
  · exact deny_mode_perm _

/-- C10 (amended), on the block device `tmp/block` with mode 0644 of the test suite, and
on the named pipe `\xff/p`, whose path is not valid UTF-8. -/
theorem C10_denied_entry_witness :
    (fileEntry.deny (sampleHeader tar.TypeBlock "tmp/block" "" 0o644)
        = fileEntry.deny (sampleHeader tar.TypeBlock "tmp/block" "" 0o644) ∧
      fs.ValidPath "tmp/block".toList = utf8.ValidString "tmp/block".toList ∧
      (sampleFs testHeaders).Open "tmp/block".toList = .error Error.ErrPermission ∧
      (sampleFs testHeaders).Stat "tmp/block".toList = .ok (FileInfo.denyInfo
        { sampleHeader tar.TypeBlock "tmp/block" "" 0o644 with
          Name := "tmp/block".toList }) ∧
      (FileInfo.denyInfo
        { sampleHeader tar.TypeBlock "tmp/block" "" 0o644 with
          Name := "tmp/block".toList }).Mode &&& 0o777 = 0) ∧
    (fileEntry.deny (sampleHeader tar.TypeFifo "\xff/p" "" 0o644)
        = fileEntry.deny (sampleHeader tar.TypeFifo "\xff/p" "" 0o644) ∧
      fs.ValidPath "\xff/p".toList = utf8.ValidString "\xff/p".toList ∧
      (sampleFs invalidNameHeaders).Open "\xff/p".toList
        = .error (Error.PathError "open".toList "\xff/p".toList Error.ErrInvalid) ∧
      (sampleFs invalidNameHeaders).Stat "\xff/p".toList
        = .error (Error.PathError "stat".toList "\xff/p".toList Error.ErrInvalid) ∧
      (FileInfo.denyInfo (sampleHeader tar.TypeFifo "\xff/p" "" 0o644)).Mode
        &&& 0o777 = 0) :=
  ⟨C10_denied_entry [] 0 0 (sampleReader testHeaders) (sampleFs testHeaders) (by decide)
    "tmp/block".toList (fileEntry.deny (sampleHeader tar.TypeBlock "tmp/block" "" 0o644))
    (sampleHeader tar.TypeBlock "tmp/block" "" 0o644) (by decide) (by decide) (by decide),
   C10_denied_entry [] 0 0 (sampleReader invalidNameHeaders) (sampleFs invalidNameHeaders)
    (by decide) "\xff/p".toList (fileEntry.deny (sampleHeader tar.TypeFifo "\xff/p" "" 0o644))
    (sampleHeader tar.TypeFifo "\xff/p" "" 0o644) (by decide) (by decide) (by decide)⟩

end Tarfs

namespace Tarfs

open path

theorem Clean_key (k : Str) (hk : k = ['.'] ∨ Normal k) : Clean k = k := by
  rcases hk with rfl | hk
  · rfl
  · exact Clean_normal k hk

/-- In a well-formed file system `stat` succeeds on every entry, and the name it reports
is the base name of the key. -/
theorem stat_key (f : fileSystem) (hinv : IndexInv f.files f.links) (k : Str) (e : fileEntry)
    (h : mapGet f.files k = some e) :
    ∃ info, e.stat f = some info ∧ info.Name = Base k := by
  obtain ⟨hk, hok⟩ := hinv.keys k e h
  cases e with
  | file file =>
    refine ⟨_, rfl, ?_⟩
    have hn : file.header.Name = k := hok.1
    simp only [FileInfo.Name, hn, Clean_key k hk]
    split <;> rfl
  | dir d =>
    refine ⟨_, rfl, ?_⟩
    have hn : d.name = k := hok.1
    simp only [FileInfo.Name, hn]
  | link ref =>
    obtain ⟨ln, hln, hn, -⟩ := hok
    refine ⟨FileInfo.headerFileInfo ln.header, ?_, ?_⟩
    · simp only [fileEntry.stat, hln, Option.map_some']
    · simp only [FileInfo.Name, hn, Clean_key k hk]
      split <;> rfl
  | symlink header =>
    refine ⟨_, rfl, ?_⟩
    have hn : header.Name = k := hok.1
    simp only [FileInfo.Name, hn, Clean_key k hk]
    split <;> rfl
  | deny header =>
    refine ⟨_, rfl, ?_⟩
    have hn : header.Name = k := hok.1
    simp only [FileInfo.Name, hn]

/-- `readDirEntries` succeeds on names that are keys of a well-formed index, with one
entry per name, named by the base name. -/
theorem readDirEntries_keys (f : fileSystem) (hinv : IndexInv f.files f.links) :
    ∀ names : List Str, (∀ c ∈ names, (mapGet f.files c).isSome = true) →
      ∃ infos, readDirEntries f names = .ok infos ∧
        infos.map FileInfo.Name = names.map Base := by
  intro names
  induction names with
  | nil => intro _; exact ⟨[], rfl, rfl⟩
  | cons c rest ih =>
    intro hall
    obtain ⟨infos, hrest, hnames⟩ := ih (fun x hx => hall x (by simp [hx]))
    have hc := hall c (by simp)
    obtain ⟨e, he⟩ := Option.isSome_iff_exists.1 hc
    obtain ⟨info, hstat, hname⟩ := stat_key f hinv c e he
    refine ⟨info :: infos, ?_, ?_⟩
    · simp only [readDirEntries, he, hstat, hrest]
    · simp only [List.map_cons, hname, hnames]

theorem readDirEntries_cons (f : fileSystem) (c : Str) (rest : List Str) :
    readDirEntries f (c :: rest) =
      match mapGet f.files c with
      | none => .error Error.nilDereference
      | some entry =>
        match entry.stat f with
        | none => .error Error.nilDereference
        | some info =>
          match readDirEntries f rest with
          | .error e => .error e
          | .ok infos => .ok (info :: infos) := rfl

theorem readDirEntries_append (f : fileSystem) : ∀ (a b : List Str) (infos : List FileInfo),
    readDirEntries f (a ++ b) = .ok infos →
    ∃ ia ib, readDirEntries f a = .ok ia ∧ readDirEntries f b = .ok ib ∧
      infos = ia ++ ib ∧ ia.length = a.length := by
  intro a
  induction a with
  | nil => intro b infos h; exact ⟨[], infos, rfl, h, rfl, rfl⟩
  | cons c rest ih =>
    intro b infos h
    rw [List.cons_append, readDirEntries_cons] at h
    rw [readDirEntries_cons]
    cases hget : mapGet f.files c with
    | none =>
      rw [hget] at h
      cases h
    | some e =>
      rw [hget] at h
      cases hstat : e.stat f with
      | none =>
        simp only [hstat] at h
        cases h
      | some info =>
        simp only [hstat] at h ⊢
        cases hrest : readDirEntries f (rest ++ b) with
        | error err =>
          rw [hrest] at h
          cases h
        | ok infos1 =>
          rw [hrest] at h
          simp only [Except.ok.injEq] at h
          obtain ⟨ia, ib, ha, hb, hsplit, hlen⟩ := ih b infos1 hrest
          refine ⟨info :: ia, ib, ?_, hb, ?_, ?_⟩
          · rw [ha]
          · rw [← h, hsplit]
            rfl
          · simp [hlen]

theorem readDirEntries_ne_EOF (f : fileSystem) : ∀ names : List Str,
    readDirEntries f names ≠ .error Error.EOF := by
  intro names
  induction names with
  | nil =>
    intro h
    cases h
  | cons c rest ih =>
    rw [readDirEntries_cons]
    cases hget : mapGet f.files c with
    | none =>
      intro h
      cases h
    | some e =>
      cases hstat : e.stat f with
      | none =>
        simp only [hstat]
        intro h
        cases h
      | some info =>
        simp only [hstat]
        cases hrest : readDirEntries f rest with
        | error err =>
          intro h
          simp only [Except.error.injEq] at h
          rw [h] at hrest
          exact ih hrest
        | ok infos =>
          intro h
          cases h

theorem readDirEntries_length (f : fileSystem) : ∀ (names : List Str) (infos : List FileInfo),
    readDirEntries f names = .ok infos → infos.length = names.length := by
  intro names infos h
  have := readDirEntries_append f names [] infos (by simpa using h)
  obtain ⟨ia, ib, -, hb, hsplit, hlen⟩ := this
  simp only [readDirEntries, Except.ok.injEq] at hb
  rw [hsplit, ← hb, List.append_nil, hlen]

end Tarfs

namespace Tarfs

open path

/-- Among normalized paths with the same parent, the order of the paths is the order of
their base names. -/
theorem strLess_base (k a b : Str) (ha : Normal a) (hb : Normal b) (hda : Dir a = k)
    (hdb : Dir b = k) (h : strLess a b = true) : strLess (Base a) (Base b) = true := by
  rcases Normal_split a ha with ⟨h1, h2, -⟩ | ⟨h1, -, h3⟩
  · rcases Normal_split b hb with ⟨g1, g2, -⟩ | ⟨g1, -, -⟩
    · rw [h2, g2]
      exact h
    · rw [hdb, ← hda, h1] at g1
      exact absurd rfl (Normal_ne_dot _ g1)
  · rcases Normal_split b hb with ⟨g1, -, -⟩ | ⟨-, -, g3⟩
    · rw [hda, ← hdb, g1] at h1
      exact absurd rfl (Normal_ne_dot _ h1)
    · rw [h3, g3, hda, hdb, strLess_append_left] at h
      simpa [strLess] using h

/-- The names that a handle on a directory of a well-formed file system holds are keys
of the index, in strictly ascending order, and so are their base names. -/
theorem readDirNames_spec (f : fileSystem) (hwf : WellFormed f) (k : Str) (d : dir)
    (hk : mapGet f.files k = some (fileEntry.dir d)) :
    List.Perm d.readDirNames d.entries ∧
    (∀ c ∈ d.readDirNames, (mapGet f.files c).isSome = true) ∧
    List.Pairwise (fun a b => strLess a b = true) (d.readDirNames.map Base) := by
  obtain ⟨-, hnd, hch⟩ := (hwf.inv.keys k _ hk).2
  have hperm : List.Perm d.readDirNames d.entries := sortStrings_perm d.entries
  refine ⟨hperm, ?_, ?_⟩
  · intro c hc
    rcases hwf.children k d hk c (hperm.mem_iff.1 hc) with h | h
    · exact h
    · cases h
  · rw [List.pairwise_map]
    apply List.Pairwise.imp_of_mem _ (sortStrings_sorted d.entries hnd)
    intro a b ha hb hab
    have ha1 := hch a (hperm.mem_iff.1 ha)
    have hb1 := hch b (hperm.mem_iff.1 hb)
    exact strLess_base k a b ha1.1 hb1.1 ha1.2 hb1.2 hab

theorem openDir_ReadDir_all (f : fileSystem) (h : openDir) (infos : List FileInfo) (n : Int)
    (hn : n < 0) (hread : readDirEntries f h.entries = .ok infos) :
    openDir.ReadDir f h n = (.ok infos, { h with entries := [] }) := by
  have hn2 : ¬ (n > 0) := by omega
  unfold openDir.ReadDir openDir.readDir
  rw [if_pos (Or.inl hn)]
  simp only []
  by_cases hlen : h.entries.length > 0
  · rw [if_pos hlen, hread]
  · rw [if_neg hlen, if_neg hn2]
    have : h.entries = [] := List.length_eq_zero.1 (by omega)
    rw [this] at hread
    simp only [readDirEntries, Except.ok.injEq] at hread
    rw [hread]

/-- In every file system built by `OpenFS`, for every directory stored at `k`,
`ReadDir(-1)` on a fresh handle returns one entry per path of the child set that the
directory entry records; the names of the entries are the base names of these paths, in
strictly ascending byte-wise order, whatever the order in which the archive declared them.
`ReadDir(k)` on the file system and `Open(k)` return that list and that handle when `k`
passes `fs.ValidPath`, and fail with a path error that wraps `fs.ErrInvalid` when it does
not. -/
theorem ReadDir_sorted (data : List Nat) (size : Int) (modTime : Nat)
    (reader : tar.Reader) (f : fileSystem)
    (hopen : OpenFS data size modTime reader = some (.ok f))
    (k : Str) (d : dir) (hk : mapGet f.files k = some (fileEntry.dir d)) :
    ∃ infos : List FileInfo,
      f.ReadDir k =
        (if fs.ValidPath k then .ok infos
         else .error (Error.PathError "readdir".toList k Error.ErrInvalid)) ∧
      f.Open k =
        (if fs.ValidPath k then .ok (File.openDir { dir := d, entries := d.readDirNames })
         else .error (Error.PathError "open".toList k Error.ErrInvalid)) ∧
      (openDir.ReadDir f { dir := d, entries := d.readDirNames } (-1)).1 = .ok infos ∧
      infos.length = d.entries.length ∧
      List.Perm d.readDirNames d.entries ∧
      infos.map FileInfo.Name = d.readDirNames.map Base ∧
      List.Pairwise (fun a b => strLess a b = true) (infos.map FileInfo.Name) := by
  have hwf := OpenFS_wellFormed data size modTime reader f hopen
  obtain ⟨hperm, hkeys, hsorted⟩ := readDirNames_spec f hwf k d hk
  obtain ⟨infos, hread, hnames⟩ := readDirEntries_keys f hwf.inv d.readDirNames hkeys
  have hkv := key_valid f.files f.links hwf.inv k _ hk
  refine ⟨infos, ?_, ?_, ?_, ?_, hperm, hnames, ?_⟩
  · unfold fileSystem.ReadDir fileSystem.readDir
    rw [lookup_key_cases f hwf.inv k _ hk, hkv]
    cases hv : utf8.ValidString k
    · rfl
    · simp only [dir.readDir, hread, if_true]
  · unfold fileSystem.Open maxFollowSymlink
    rw [fileSystem.openLoop, lookup_key_cases f hwf.inv k _ hk, hkv]
    cases hv : utf8.ValidString k <;> rfl
  · rw [openDir_ReadDir_all f { dir := d, entries := d.readDirNames } infos (-1) (by omega) hread]
  · rw [readDirEntries_length f _ infos hread]
    exact hperm.length_eq
  · rw [hnames]
    exact hsorted

/-- C9 (fails on the code): on the archive that declares the regular file `a/b` and then
the directory `a`, the path `a/b` is a key of the index, `Stat` reaches it, and its parent
is `a`; but `ReadDir` on `a` and `ReadDir(-1)` on a fresh handle opened on `a` return no
entry for it, because the directory stored at `a` records no child.  When the archive
declares the same two members in the other order, the listing of `a` holds `b`. -/
theorem C9_late_directory_lists_no_child :
    OpenFS [] 0 0 (sampleReader lateDirHeaders) = some (.ok (sampleFs lateDirHeaders)) ∧
    mapGet (sampleFs lateDirHeaders).files "a/b".toList
      = some (fileEntry.file
          ⟨{ sampleHeader tar.TypeReg "a/b" "" 0o644 with Name := "a/b".toList }, 512⟩) ∧
    path.Dir "a/b".toList = "a".toList ∧
    (sampleFs lateDirHeaders).Stat "a/b".toList = .ok (FileInfo.headerFileInfo
      { sampleHeader tar.TypeReg "a/b" "" 0o644 with Name := "a/b".toList }) ∧
    (sampleFs lateDirHeaders).ReadDir "a".toList = .ok [] ∧
    (sampleFs lateDirHeaders).Open "a".toList
      = .ok (File.openDir { dir := lateDir, entries := [] }) ∧
    openDir.ReadDir (sampleFs lateDirHeaders) { dir := lateDir, entries := [] } (-1)
      = (.ok [], { dir := lateDir, entries := [] }) ∧
    (sampleFs earlyDirHeaders).ReadDir "a".toList = .ok [FileInfo.headerFileInfo
      { sampleHeader tar.TypeReg "a/b" "" 0o644 with Name := "a/b".toList }] := by
  refine ⟨by decide, by decide, by decide, by decide, by decide, by decide, by decide,
    by decide⟩

end Tarfs

namespace Tarfs

open path

theorem readDir_all (h : openDir) (n : Int)
    (h1 : n < 0 ∨ n ≥ (h.entries.length : Int)) :
    h.readDir n = (h.entries, { h with entries := [] }) := by
  unfold openDir.readDir
  rw [if_pos h1]

theorem readDir_some (h : openDir) (n : Int)
    (h1 : ¬ (n < 0 ∨ n ≥ (h.entries.length : Int))) :
    h.readDir n = (h.entries.take n.toNat, { h with entries := h.entries.drop n.toNat }) := by
  unfold openDir.readDir
  rw [if_neg h1]

theorem ReadDir_exhausted (f : fileSystem) (h : openDir) (n : Nat) (hn : 0 < n)
    (he : h.entries = []) :
    openDir.ReadDir f h (n : Int) = (.error Error.EOF, { h with entries := [] }) := by
  have h1 : ((n : Int) < 0 ∨ (n : Int) ≥ (h.entries.length : Int)) := by
    right
    rw [he]
    simp
  have h2 : (n : Int) > 0 := by omega
  have h3 : ¬ (h.entries.length > 0) := by
    rw [he]
    simp
  unfold openDir.ReadDir
  rw [readDir_all h n h1]
  simp only []
  rw [if_neg h3, if_pos h2]

theorem ReadDir_rest (f : fileSystem) (h : openDir) (n : Nat)
    (he : h.entries ≠ []) (hlen : h.entries.length ≤ n) :
    openDir.ReadDir f h (n : Int) = (readDirEntries f h.entries, { h with entries := [] }) := by
  have h1 : ((n : Int) < 0 ∨ (n : Int) ≥ (h.entries.length : Int)) := by
    right
    omega
  have h2 : h.entries.length > 0 := List.length_pos.2 he
  unfold openDir.ReadDir
  rw [readDir_all h n h1]
  simp only []
  rw [if_pos h2]

theorem ReadDir_page (f : fileSystem) (h : openDir) (n : Nat) (hn : 0 < n)
    (hlen : n < h.entries.length) :
    openDir.ReadDir f h (n : Int) =
      (readDirEntries f (h.entries.take n), { h with entries := h.entries.drop n }) := by
  have h1 : ¬ ((n : Int) < 0 ∨ (n : Int) ≥ (h.entries.length : Int)) := by omega
  have h2 : (h.entries.take n).length > 0 := by
    rw [List.length_take]
    omega
  unfold openDir.ReadDir
  rw [readDir_some h n h1]
  simp only [Int.toNat_ofNat]
  rw [if_pos h2]

/-- Reading a handle in pages of `n > 0` entries until `io.EOF` returns non-empty pages of
at most `n` entries whose concatenation is the list of all remaining entries. -/
theorem readPages_spec (f : fileSystem) (n : Nat) (hn : 0 < n) :
    ∀ (fuel : Nat) (l : List Str) (infos : List FileInfo) (d0 : dir),
      readDirEntries f l = .ok infos → l.length < fuel →
      ∃ pages, readPages f (n : Int) fuel { dir := d0, entries := l } = some pages ∧
        pages.flatten = infos ∧ ∀ page ∈ pages, 1 ≤ page.length ∧ page.length ≤ n := by
  intro fuel
  induction fuel with
  | zero => intro l infos d0 _ hl; omega
  | succ fuel ih =>
    intro l infos d0 hread hl
    rw [readPages]
    by_cases he : l = []
    · subst he
      rw [ReadDir_exhausted f _ n hn rfl]
      simp only [readDirEntries, Except.ok.injEq] at hread
      refine ⟨[], rfl, ?_, ?_⟩
      · rw [← hread]
        rfl
      · intro page hp
        cases hp
    · have hpos : 0 < l.length := List.length_pos.2 he
      by_cases hlen : l.length ≤ n
      · rw [ReadDir_rest f { dir := d0, entries := l } n he hlen]
        simp only [hread]
        obtain ⟨pages, hp, hjoin, hsize⟩ := ih [] [] d0 rfl (by simp; omega)
        refine ⟨infos :: pages, ?_, ?_, ?_⟩
        · rw [hp]
          rfl
        · simp [hjoin]
        · intro page hmem
          rcases List.mem_cons.1 hmem with h1 | h1
          · rw [h1, readDirEntries_length f l infos hread]
            omega
          · exact hsize page h1
      · have hlt : n < l.length := by omega
        rw [ReadDir_page f { dir := d0, entries := l } n hn hlt]
        have hsplit : l.take n ++ l.drop n = l := List.take_append_drop n l
        obtain ⟨ia, ib, ha, hb, hinfos, hia⟩ :=
          readDirEntries_append f (l.take n) (l.drop n) infos (by rw [hsplit]; exact hread)
        simp only [ha]
        obtain ⟨pages, hp, hjoin, hsize⟩ := ih (l.drop n) ib d0 hb (by
          rw [List.length_drop]
          omega)
        refine ⟨ia :: pages, ?_, ?_, ?_⟩
        · rw [hp]
          rfl
        · simp [hjoin, hinfos]
        · intro page hmem
          rcases List.mem_cons.1 hmem with h1 | h1
          · rw [h1, hia, List.length_take]
            omega
          · exact hsize page h1

/-- The `i`-th entry that `readDirEntries` returns is the `stat` of the entry stored at
the `i`-th name. -/
theorem readDirEntries_stat (f : fileSystem) : ∀ (names : List Str) (infos : List FileInfo),
    readDirEntries f names = .ok infos →
    List.Forall₂ (fun c info => ∃ e, mapGet f.files c = some e ∧ e.stat f = some info)
      names infos := by
  intro names
  induction names with
  | nil =>
    intro infos h
    simp only [readDirEntries, Except.ok.injEq] at h
    rw [← h]
    exact List.Forall₂.nil
  | cons c rest ih =>
    intro infos h
    rw [readDirEntries_cons] at h
    cases hget : mapGet f.files c with
    | none =>
      rw [hget] at h
      cases h
    | some e =>
      rw [hget] at h
      cases hstat : e.stat f with
      | none =>
        simp only [hstat] at h
        cases h
      | some info =>
        simp only [hstat] at h
        cases hrest : readDirEntries f rest with
        | error err =>
          rw [hrest] at h
          cases h
        | ok infos1 =>
          rw [hrest] at h
          simp only [Except.ok.injEq] at h
          rw [← h]
          exact List.Forall₂.cons ⟨e, hget, hstat⟩ (ih infos1 hrest)

/-- C8: in every file system built by `OpenFS`, for every directory stored at `k` and
every `n > 0`, calling `ReadDir(n)` on a fresh handle until it returns `io.EOF` yields
pages that each hold between 1 and `n` entries and whose concatenation is the list that
one `ReadDir(-1)` on a fresh handle returns.  That list holds each child of the directory
exactly once: the child set has no duplicate and its members are keys whose parent is
`k`, the sorted names of the handle are a permutation of it, the `i`-th entry is the
`stat` of the `i`-th sorted name and carries its base name, and no two entries have the
same name.  On any handle `ReadDir(n)` returns `io.EOF` exactly when no entry remains.
The fresh handle is the one that `open` returns for the directory, and that `Open(k)`
returns when `k` passes `fs.ValidPath`. -/
theorem C8_paginated_readdir (data : List Nat) (size : Int) (modTime : Nat)
    (reader : tar.Reader) (f : fileSystem)
    (hopen : OpenFS data size modTime reader = some (.ok f))
    (k : Str) (d : dir) (hk : mapGet f.files k = some (fileEntry.dir d))
    (n : Int) (hn : 0 < n) :
    ∃ (pages : List (List FileInfo)) (all : List FileInfo),
      (fileEntry.dir d).«open» f
        = .ok (File.openDir { dir := d, entries := d.readDirNames }) ∧
      f.Open k =
        (if fs.ValidPath k then .ok (File.openDir { dir := d, entries := d.readDirNames })
         else .error (Error.PathError "open".toList k Error.ErrInvalid)) ∧
      readPages f n (d.entries.length + 1) { dir := d, entries := d.readDirNames }
        = some pages ∧
      (openDir.ReadDir f { dir := d, entries := d.readDirNames } (-1)).1 = .ok all ∧
      pages.flatten = all ∧
      (∀ page ∈ pages, 1 ≤ page.length ∧ (page.length : Int) ≤ n) ∧
      d.entries.Nodup ∧
      (∀ c ∈ d.entries, (mapGet f.files c).isSome = true ∧ path.Dir c = k) ∧
      List.Perm d.readDirNames d.entries ∧
      List.Forall₂ (fun c info => ∃ e, mapGet f.files c = some e ∧ e.stat f = some info)
        d.readDirNames all ∧
      all.map FileInfo.Name = d.readDirNames.map path.Base ∧
      (all.map FileInfo.Name).Nodup ∧
      (∀ h : openDir, (openDir.ReadDir f h n).1 = .error Error.EOF ↔ h.entries = []) := by
  have hwf := OpenFS_wellFormed data size modTime reader f hopen
  obtain ⟨hperm, hkeys, hsorted⟩ := readDirNames_spec f hwf k d hk
  obtain ⟨infos, hread, hnames⟩ := readDirEntries_keys f hwf.inv d.readDirNames hkeys
  obtain ⟨-, hnd, hch⟩ := (hwf.inv.keys k _ hk).2
  have hkv := key_valid f.files f.links hwf.inv k _ hk
  obtain ⟨m, rfl⟩ := Int.eq_ofNat_of_zero_le (le_of_lt hn)
  have hm : 0 < m := by omega
  obtain ⟨pages, hp, hjoin, hsize⟩ :=
    readPages_spec f m hm (d.entries.length + 1) d.readDirNames infos d hread (by
      rw [hperm.length_eq]
      omega)
  refine ⟨pages, infos, rfl, ?_, hp, ?_, hjoin, ?_, hnd, ?_, hperm,
    readDirEntries_stat f _ infos hread, hnames, ?_, ?_⟩
  · unfold fileSystem.Open maxFollowSymlink
    rw [fileSystem.openLoop, lookup_key_cases f hwf.inv k _ hk, hkv]
    cases hv : utf8.ValidString k <;> rfl
  · rw [openDir_ReadDir_all f { dir := d, entries := d.readDirNames } infos (-1) (by omega) hread]
  · intro page hmem
    have := hsize page hmem
    omega
  · intro c hc
    exact ⟨hkeys c (hperm.mem_iff.2 hc), (hch c hc).2⟩
  · rw [hnames]
    apply List.Pairwise.imp _ hsorted
    intro a b hab heq
    rw [heq, strLess_irrefl] at hab
    cases hab
  · intro h
    constructor
    · intro heof
      by_contra hne
      by_cases hlen : h.entries.length ≤ m
      · rw [ReadDir_rest f h m hne hlen] at heof
        exact readDirEntries_ne_EOF f _ heof
      · rw [ReadDir_page f h m hm (by omega)] at heof
        exact readDirEntries_ne_EOF f _ heof
    · intro he
      rw [ReadDir_exhausted f h m hm he]

/-- C8, with pages of one entry on the directory `sub` of an archive that declares
`sub/c`, `sub/a` and `sub/b`: the three pages hold `a`, `b` and `c`, one each, and
`ReadDir(-1)` returns the same three entries in the same order. -/
theorem C8_paginated_readdir_witness :
    (∃ (pages : List (List FileInfo)) (all : List FileInfo),
      (fileEntry.dir unorderedSub).«open» (sampleFs unorderedHeaders)
        = .ok (File.openDir { dir := unorderedSub, entries := unorderedSub.readDirNames }) ∧
      (sampleFs unorderedHeaders).Open "sub".toList
        = .ok (File.openDir { dir := unorderedSub, entries := unorderedSub.readDirNames }) ∧
      readPages (sampleFs unorderedHeaders) 1 (unorderedSub.entries.length + 1)
        { dir := unorderedSub, entries := unorderedSub.readDirNames } = some pages ∧
      (openDir.ReadDir (sampleFs unorderedHeaders)
        { dir := unorderedSub, entries := unorderedSub.readDirNames } (-1)).1 = .ok all ∧
      pages.flatten = all ∧
      (∀ page ∈ pages, 1 ≤ page.length ∧ (page.length : Int) ≤ 1) ∧
      unorderedSub.entries.Nodup ∧
      (∀ c ∈ unorderedSub.entries,
        (mapGet (sampleFs unorderedHeaders).files c).isSome = true ∧
          path.Dir c = "sub".toList) ∧
      List.Perm unorderedSub.readDirNames unorderedSub.entries ∧
      List.Forall₂
        (fun c info => ∃ e, mapGet (sampleFs unorderedHeaders).files c = some e ∧
          e.stat (sampleFs unorderedHeaders) = some info)
        unorderedSub.readDirNames all ∧
      all.map FileInfo.Name = unorderedSub.readDirNames.map path.Base ∧
      (all.map FileInfo.Name).Nodup ∧
      (∀ h : openDir, (openDir.ReadDir (sampleFs unorderedHeaders) h 1).1
        = .error Error.EOF ↔ h.entries = [])) ∧
    readPages (sampleFs unorderedHeaders) 1 4
        { dir := unorderedSub, entries := unorderedSub.readDirNames }
      = some
        [[FileInfo.headerFileInfo
            { sampleHeader tar.TypeReg "sub/a" "" 0o644 with Name := "sub/a".toList }],
         [FileInfo.headerFileInfo
            { sampleHeader tar.TypeReg "sub/b" "" 0o644 with Name := "sub/b".toList }],
         [FileInfo.headerFileInfo
            { sampleHeader tar.TypeReg "sub/c" "" 0o644 with Name := "sub/c".toList }]] ∧
    (openDir.ReadDir (sampleFs unorderedHeaders)
        { dir := unorderedSub, entries := unorderedSub.readDirNames } (-1)).1
      = .ok
        [FileInfo.headerFileInfo
            { sampleHeader tar.TypeReg "sub/a" "" 0o644 with Name := "sub/a".toList },
         FileInfo.headerFileInfo
            { sampleHeader tar.TypeReg "sub/b" "" 0o644 with Name := "sub/b".toList },
         FileInfo.headerFileInfo
            { sampleHeader tar.TypeReg "sub/c" "" 0o644 with Name := "sub/c".toList }] ∧
    unorderedSub.entries = ["sub/c".toList, "sub/a".toList, "sub/b".toList] :=
  ⟨C8_paginated_readdir [] 0 0 (sampleReader unorderedHeaders) (sampleFs unorderedHeaders)
    (by decide) "sub".toList unorderedSub (by decide) 1 (by decide),
   by decide, by decide, by decide⟩

end Tarfs

namespace Tarfs

/-- When following `k` symbolic links from `name` reaches the entry `e`, the loop of
`Open` with more than `k` iterations left returns what `e.open` returns. -/
theorem openLoop_follow (f : fileSystem) : ∀ (k n : Nat) (name : Str) (e : fileEntry),
    follow f k name = some e → k < n → fileSystem.openLoop f n name = e.«open» f := by
  intro k
  induction k with
  | zero =>
    intro n name e h hn
    cases n with
    | zero => omega
    | succ n =>
      rw [follow] at h
      rw [fileSystem.openLoop]
      cases hl : f.lookup name with
      | error err =>
        rw [hl] at h
        cases h
      | ok entry =>
        rw [hl] at h
        cases entry with
        | symlink header => cases h
        | file x => simp only [Option.some.injEq] at h; rw [← h]
        | dir x => simp only [Option.some.injEq] at h; rw [← h]
        | link x => simp only [Option.some.injEq] at h; rw [← h]
        | deny x => simp only [Option.some.injEq] at h; rw [← h]
  | succ k ih =>
    intro n name e h hn
    cases n with
    | zero => omega
    | succ n =>
      rw [follow] at h
      rw [fileSystem.openLoop]
      cases hl : f.lookup name with
      | error err =>
        rw [hl] at h
        cases h
      | ok entry =>
        rw [hl] at h
        cases entry with
        | symlink header => exact ih n _ e h (by omega)
        | file x => cases h
        | dir x => cases h
        | link x => cases h
        | deny x => cases h

/-- A chain of at most 39 symbolic links resolves: `Open` on the first link returns what
opening the entry at the end of the chain returns. -/
theorem Open_follow (f : fileSystem) (k : Nat) (name : Str) (e : fileEntry)
    (h : follow f k name = some e) (hk : k < maxFollowSymlink) :
    f.Open name = e.«open» f :=
  openLoop_follow f k maxFollowSymlink name e h hk

end Tarfs

namespace Tarfs

open path

/-- C16: for every archive, whatever the names and types of its headers, `OpenFS`
returns a file system whose index has the key `.`, and the entry stored there is a
directory named `.`; names such as the empty name, `.`, `/`, `..` and `../..` clean to
the root, and `walk` skips them. -/
theorem C16_root_is_directory (data : List Nat) (size : Int) (modTime : Nat)
    (members : List (tar.Header × Int)) :
    (∃ f d, OpenFS data size modTime { members := members, err := none } = some (.ok f) ∧
      mapGet f.files ['.'] = some (fileEntry.dir d) ∧ d.name = ['.']) ∧
    Join ['/'] "".toList = ['/'] ∧ Join ['/'] ".".toList = ['/'] ∧
    Join ['/'] "/".toList = ['/'] ∧ Join ['/'] "..".toList = ['/'] ∧
    Join ['/'] "../..".toList = ['/'] ∧
    (∃ d, mapGet (sampleFs messyHeaders).files ['.'] = some (fileEntry.dir d)) := by
  refine ⟨?_, by decide, by decide, by decide, by decide, by decide, ⟨_, rfl⟩⟩
  rcases OpenFS_returns data size modTime { members := members, err := none } with
    ⟨e, he, -⟩ | ⟨-, f, hf⟩
  · cases he
  · have hwf := OpenFS_wellFormed data size modTime _ f hf
    obtain ⟨d, hd⟩ := hwf.inv.root
    exact ⟨f, d, hf, hd, (hwf.inv.keys _ _ hd).2.1⟩

/-- C17 (as stated, fails on the code): the archive declares the regular file `\xff/f`.
The keys `\xff/f` and `\xff` of the index are free of empty, `.` and `..` segments, yet
they do not pass `fs.ValidPath`, because they are not valid UTF-8: `lookup` rejects them
with `fs.ErrInvalid`, and `Open` cannot reach the entries. -/
theorem C17_key_not_valid_utf8 :
    OpenFS [] 0 0 (sampleReader invalidNameHeaders)
      = some (.ok (sampleFs invalidNameHeaders)) ∧
    mapGet (sampleFs invalidNameHeaders).files "\xff/f".toList
      = some (fileEntry.file
          ⟨{ sampleHeader tar.TypeReg "\xff/f" "" 0o644 with Name := "\xff/f".toList },
            512⟩) ∧
    mapGet (sampleFs invalidNameHeaders).files "\xff".toList
      = some (fileEntry.dir
          ⟨"\xff".toList, 0, ["\xff/f".toList, "\xff/l".toList, "\xff/p".toList]⟩) ∧
    fs.validElems [] "\xff/f".toList = true ∧
    fs.ValidPath "\xff/f".toList = false ∧ fs.ValidPath "\xff".toList = false ∧
    (sampleFs invalidNameHeaders).lookup "\xff/f".toList = .error Error.ErrInvalid ∧
    (sampleFs invalidNameHeaders).lookup "\xff".toList = .error Error.ErrInvalid ∧
    (sampleFs invalidNameHeaders).Open "\xff/f".toList
      = .error (Error.PathError "open".toList "\xff/f".toList Error.ErrInvalid) := by
  refine ⟨by decide, by decide, by decide, by decide, by decide, by decide, by decide,
    by decide, by decide⟩

/-- C17 (amended): in every file system built by `OpenFS`, every key of the index,
declared or synthesized, is `.` or a normalized relative path (path elements that are not
empty, `.` or `..`, joined by single slashes, with no leading or trailing slash).  It
passes `fs.ValidPath` exactly when it is valid UTF-8; `lookup` then finds its entry, and
rejects the key with `fs.ErrInvalid` otherwise. -/
theorem C17_keys_normalized (data : List Nat) (size : Int) (modTime : Nat)
    (reader : tar.Reader) (f : fileSystem)
    (hopen : OpenFS data size modTime reader = some (.ok f))
    (k : Str) (e : fileEntry) (hk : mapGet f.files k = some e) :
    (k = ['.'] ∨ Normal k) ∧ fs.ValidPath k = utf8.ValidString k ∧
    f.lookup k = (if fs.ValidPath k then .ok e else .error Error.ErrInvalid) := by
  have hwf := OpenFS_wellFormed data size modTime reader f hopen
  have hkv := key_valid f.files f.links hwf.inv k e hk
  refine ⟨(hwf.inv.keys k e hk).1, hkv, ?_⟩
  rw [lookup_key_cases f hwf.inv k e hk, hkv]

/-- C17 (amended), on the key `b/c` that `OpenFS` stores for the header name
`/a/../b//c/`, on its synthesized parent `b`, and on the key `\xff/f`, which is not valid
UTF-8. -/
theorem C17_keys_normalized_witness :
    (("b/c".toList = ['.'] ∨ Normal "b/c".toList) ∧
      fs.ValidPath "b/c".toList = utf8.ValidString "b/c".toList ∧
      (sampleFs messyHeaders).lookup "b/c".toList = .ok (fileEntry.file
        ⟨{ sampleHeader tar.TypeReg "b/c" "" 0o644 with Name := "b/c".toList }, 512⟩)) ∧
    (("b".toList = ['.'] ∨ Normal "b".toList) ∧
      fs.ValidPath "b".toList = utf8.ValidString "b".toList ∧
      (sampleFs messyHeaders).lookup "b".toList = .ok (fileEntry.dir
        ⟨"b".toList, 0, ["b/c".toList]⟩)) ∧
    (("\xff/f".toList = ['.'] ∨ Normal "\xff/f".toList) ∧
      fs.ValidPath "\xff/f".toList = utf8.ValidString "\xff/f".toList ∧
      (sampleFs invalidNameHeaders).lookup "\xff/f".toList = .error Error.ErrInvalid) :=
  ⟨C17_keys_normalized [] 0 0 (sampleReader messyHeaders) (sampleFs messyHeaders) (by decide)
    "b/c".toList _ (by decide),
   C17_keys_normalized [] 0 0 (sampleReader messyHeaders) (sampleFs messyHeaders) (by decide)
    "b".toList _ (by decide),
   C17_keys_normalized [] 0 0 (sampleReader invalidNameHeaders) (sampleFs invalidNameHeaders)
    (by decide) "\xff/f".toList
    (fileEntry.file
      ⟨{ sampleHeader tar.TypeReg "\xff/f" "" 0o644 with Name := "\xff/f".toList }, 512⟩)
    (by decide)⟩

end Tarfs

namespace Tarfs

open path

/-- When following `k` symbolic links from `name` reaches the entry `e`, the loop of
`Stat` with more than `k` iterations left returns what `e.stat` returns. -/
theorem statLoop_follow (f : fileSystem) : ∀ (k n : Nat) (name : Str) (e : fileEntry)
    (info : FileInfo), follow f k name = some e → e.stat f = some info → k < n →
    fileSystem.statLoop f n name = .ok info := by
  intro k
  induction k with
  | zero =>
    intro n name e info h hs hn
    cases n with
    | zero => omega
    | succ n =>
      rw [follow] at h
      rw [fileSystem.statLoop]
      cases hl : f.lookup name with
      | error err =>
        rw [hl] at h
        cases h
      | ok entry =>
        rw [hl] at h
        cases entry with
        | symlink header => cases h
        | file x => simp only [Option.some.injEq] at h; rw [← h] at hs; simp only [hs]
        | dir x => simp only [Option.some.injEq] at h; rw [← h] at hs; simp only [hs]
        | link x => simp only [Option.some.injEq] at h; rw [← h] at hs; simp only [hs]
        | deny x => simp only [Option.some.injEq] at h; rw [← h] at hs; simp only [hs]
  | succ k ih =>
    intro n name e info h hs hn
    cases n with
    | zero => omega
    | succ n =>
      rw [follow] at h
      rw [fileSystem.statLoop]
      cases hl : f.lookup name with
      | error err =>
        rw [hl] at h
        cases h
      | ok entry =>
        rw [hl] at h
        cases entry with
        | symlink header => exact ih n _ e info h hs (by omega)
        | file x => cases h
        | dir x => cases h
        | link x => cases h
        | deny x => cases h

theorem follow_zero (f : fileSystem) (name : Str) (e : fileEntry)
    (hl : f.lookup name = .ok e) (hns : isSymlink e = false) : follow f 0 name = some e := by
  rw [follow, hl]
  cases e with
  | symlink header => cases hns
  | file x => rfl
  | dir x => rfl
  | link x => rfl
  | deny x => rfl

theorem hop_succ (f : fileSystem) (k : Nat) (name p : Str) (h : hop f (k + 1) name = some p) :
    ∃ header, f.lookup name = .ok (fileEntry.symlink header) ∧
      hop f k (symlink.target header) = some p := by
  rw [hop] at h
  split at h
  · rename_i header hl
    exact ⟨header, hl, h⟩
  · cases h

theorem openLoop_hop (f : fileSystem) : ∀ (k n : Nat) (name p : Str) (err : Error),
    hop f k name = some p → f.lookup p = .error err → k < n →
    fileSystem.openLoop f n name = .error (Error.PathError "open".toList p err) := by
  intro k
  induction k with
  | zero =>
    intro n name p err h hl hn
    cases n with
    | zero => omega
    | succ n =>
      simp only [hop, Option.some.injEq] at h
      subst h
      rw [fileSystem.openLoop, hl]
  | succ k ih =>
    intro n name p err h hl hn
    cases n with
    | zero => omega
    | succ n =>
      obtain ⟨header, hlk, hrest⟩ := hop_succ f k name p h
      rw [fileSystem.openLoop, hlk]
      exact ih n _ p err hrest hl (by omega)

theorem statLoop_hop (f : fileSystem) : ∀ (k n : Nat) (name p : Str) (err : Error),
    hop f k name = some p → f.lookup p = .error err → k < n →
    fileSystem.statLoop f n name = .error (Error.PathError "stat".toList p err) := by
  intro k
  induction k with
  | zero =>
    intro n name p err h hl hn
    cases n with
    | zero => omega
    | succ n =>
      simp only [hop, Option.some.injEq] at h
      subst h
      rw [fileSystem.statLoop, hl]
  | succ k ih =>
    intro n name p err h hl hn
    cases n with
    | zero => omega
    | succ n =>
      obtain ⟨header, hlk, hrest⟩ := hop_succ f k name p h
      rw [fileSystem.statLoop, hlk]
      exact ih n _ p err hrest hl (by omega)

/-- C15 (as stated, fails on the code): the archive declares the regular file `\xff/f`
and the symbolic link `s` with target `\xff/f`.  The target, joined against the directory
of `s`, is the key `\xff/f` of a regular-file entry, whose `open` succeeds; but `Open` and
`Stat` on `s` fail with a path error that names `\xff/f` and wraps `fs.ErrInvalid`,
because `lookup` rejects a path that is not valid UTF-8. -/
theorem C15_target_not_valid_utf8 :
    OpenFS [] 0 0 (sampleReader invalidNameHeaders)
      = some (.ok (sampleFs invalidNameHeaders)) ∧
    mapGet (sampleFs invalidNameHeaders).files "s".toList
      = some (fileEntry.symlink
          { sampleHeader tar.TypeSymlink "s" "\xff/f" 0o777 with Name := "s".toList }) ∧
    Join (Dir "s".toList) "\xff/f".toList = "\xff/f".toList ∧
    mapGet (sampleFs invalidNameHeaders).files "\xff/f".toList
      = some (fileEntry.file
          ⟨{ sampleHeader tar.TypeReg "\xff/f" "" 0o644 with Name := "\xff/f".toList },
            512⟩) ∧
    (fileEntry.file
        ⟨{ sampleHeader tar.TypeReg "\xff/f" "" 0o644 with Name := "\xff/f".toList },
          512⟩).«open» (sampleFs invalidNameHeaders)
      = .ok (File.openFile
          { header := { sampleHeader tar.TypeReg "\xff/f" "" 0o644 with
                        Name := "\xff/f".toList },
            reader := some (NewSectionReader 512 3) }) ∧
    (sampleFs invalidNameHeaders).Open "s".toList
      = .error (Error.PathError "open".toList "\xff/f".toList Error.ErrInvalid) ∧
    (sampleFs invalidNameHeaders).Stat "s".toList
      = .error (Error.PathError "stat".toList "\xff/f".toList Error.ErrInvalid) := by
  refine ⟨by decide, by decide, by decide, by decide, by decide, by decide, by decide⟩

/-- C15 (amended): in every file system built by `OpenFS`, for a symbolic link stored at
key `S` whose target text, joined against `path.Dir S`, is the key `T` of an entry `e`
that is not a symbolic link: when `S` and `T` pass `fs.ValidPath`, `Open S` returns what
`e.open` returns, which is what `Open T` returns, and `Stat S` returns the metadata of
`e`; when `S` does not pass (it is not valid UTF-8), `Open S` and `Stat S` fail with a path
error that names `S` and wraps `fs.ErrInvalid`; when `S` does and `T` does not, they fail
with a path error that names `T` and wraps `fs.ErrInvalid`. -/
theorem C15_symlink_followed (data : List Nat) (size : Int) (modTime : Nat)
    (reader : tar.Reader) (f : fileSystem)
    (hopen : OpenFS data size modTime reader = some (.ok f))
    (S : Str) (header : tar.Header) (e : fileEntry)
    (hS : mapGet f.files S = some (fileEntry.symlink header))
    (hT : mapGet f.files (Join (Dir S) header.Linkname) = some e)
    (hns : isSymlink e = false) :
    symlink.target header = Join (Dir S) header.Linkname ∧
    fs.ValidPath S = utf8.ValidString S ∧
    fs.ValidPath (Join (Dir S) header.Linkname)
      = utf8.ValidString (Join (Dir S) header.Linkname) ∧
    f.Open (Join (Dir S) header.Linkname) =
      (if fs.ValidPath (Join (Dir S) header.Linkname) then e.«open» f
       else .error (Error.PathError "open".toList (Join (Dir S) header.Linkname)
         Error.ErrInvalid)) ∧
    f.Open S =
      (if fs.ValidPath S then
        (if fs.ValidPath (Join (Dir S) header.Linkname) then e.«open» f
         else .error (Error.PathError "open".toList (Join (Dir S) header.Linkname)
           Error.ErrInvalid))
       else .error (Error.PathError "open".toList S Error.ErrInvalid)) ∧
    ∃ info, e.stat f = some info ∧
      f.Stat (Join (Dir S) header.Linkname) =
        (if fs.ValidPath (Join (Dir S) header.Linkname) then .ok info
         else .error (Error.PathError "stat".toList (Join (Dir S) header.Linkname)
           Error.ErrInvalid)) ∧
      f.Stat S =
        (if fs.ValidPath S then
          (if fs.ValidPath (Join (Dir S) header.Linkname) then .ok info
           else .error (Error.PathError "stat".toList (Join (Dir S) header.Linkname)
             Error.ErrInvalid))
         else .error (Error.PathError "stat".toList S Error.ErrInvalid)) := by
  have hwf := OpenFS_wellFormed data size modTime reader f hopen
  have hname : header.Name = S := (hwf.inv.keys S _ hS).2.1
  have htarget : symlink.target header = Join (Dir S) header.Linkname := by
    unfold symlink.target
    rw [hname]
  have hkvS := key_valid f.files f.links hwf.inv S _ hS
  have hkvT := key_valid f.files f.links hwf.inv _ _ hT
  obtain ⟨info, hinfo, -⟩ := stat_key f hwf.inv _ e hT
  have hhop : utf8.ValidString S = true →
      hop f 1 S = some (Join (Dir S) header.Linkname) := by
    intro hvS
    rw [hop, lookup_key f hwf.inv S _ hS hvS]
    simp only [htarget]
    rfl
  have hfollow0 : utf8.ValidString (Join (Dir S) header.Linkname) = true →
      follow f 0 (Join (Dir S) header.Linkname) = some e := fun hvT =>
    follow_zero f _ e (lookup_key f hwf.inv _ _ hT hvT) hns
  have hfollow1 : utf8.ValidString S = true →
      utf8.ValidString (Join (Dir S) header.Linkname) = true → follow f 1 S = some e := by
    intro hvS hvT
    rw [follow, lookup_key f hwf.inv S _ hS hvS]
    simp only [htarget]
    exact hfollow0 hvT
  refine ⟨htarget, hkvS, hkvT, ?_, ?_, info, hinfo, ?_, ?_⟩
  · rw [hkvT]
    cases hvT : utf8.ValidString (Join (Dir S) header.Linkname)
    · exact openLoop_hop f 0 maxFollowSymlink _ _ _ rfl (lookup_invalid f _ hvT) (by decide)
    · exact openLoop_follow f 0 maxFollowSymlink _ e (hfollow0 hvT) (by decide)
  · rw [hkvS, hkvT]
    cases hvS : utf8.ValidString S
    · exact openLoop_hop f 0 maxFollowSymlink _ _ _ rfl (lookup_invalid f _ hvS) (by decide)
    · cases hvT : utf8.ValidString (Join (Dir S) header.Linkname)
      · exact openLoop_hop f 1 maxFollowSymlink _ _ _ (hhop hvS) (lookup_invalid f _ hvT)
          (by decide)
      · exact openLoop_follow f 1 maxFollowSymlink S e (hfollow1 hvS hvT) (by decide)
  · rw [hkvT]
    cases hvT : utf8.ValidString (Join (Dir S) header.Linkname)
    · exact statLoop_hop f 0 maxFollowSymlink _ _ _ rfl (lookup_invalid f _ hvT) (by decide)
    · exact statLoop_follow f 0 maxFollowSymlink _ e info (hfollow0 hvT) hinfo (by decide)
  · rw [hkvS, hkvT]
    cases hvS : utf8.ValidString S
    · exact statLoop_hop f 0 maxFollowSymlink _ _ _ rfl (lookup_invalid f _ hvS) (by decide)
    · cases hvT : utf8.ValidString (Join (Dir S) header.Linkname)
      · exact statLoop_hop f 1 maxFollowSymlink _ _ _ (hhop hvS) (lookup_invalid f _ hvT)
          (by decide)
      · exact statLoop_follow f 1 maxFollowSymlink S e info (hfollow1 hvS hvT) hinfo
          (by decide)

/-- C15 (amended), on `tmp/symlink-0` with target `../sub/file-1`, which reads
`sub/file-1`; on `tmp/abs` with the absolute-looking target `/x`, which reads `tmp/x`; and
on `s` with target `\xff/f`, which is not valid UTF-8. -/
theorem C15_symlink_followed_witness :
    (symlink.target (sampleHeader tar.TypeSymlink "tmp/symlink-0" "../sub/file-1" 0o777)
        = Join (Dir "tmp/symlink-0".toList) "../sub/file-1".toList ∧
      fs.ValidPath "tmp/symlink-0".toList = utf8.ValidString "tmp/symlink-0".toList ∧
      fs.ValidPath (Join (Dir "tmp/symlink-0".toList) "../sub/file-1".toList)
        = utf8.ValidString (Join (Dir "tmp/symlink-0".toList) "../sub/file-1".toList) ∧
      (sampleFs symlinkHeaders).Open (Join (Dir "tmp/symlink-0".toList) "../sub/file-1".toList)
        = (fileEntry.file ⟨sampleHeader tar.TypeReg "sub/file-1" "" 0o644, 512⟩).«open»
            (sampleFs symlinkHeaders) ∧
      (sampleFs symlinkHeaders).Open "tmp/symlink-0".toList
        = (fileEntry.file ⟨sampleHeader tar.TypeReg "sub/file-1" "" 0o644, 512⟩).«open»
            (sampleFs symlinkHeaders) ∧
      ∃ info,
        (fileEntry.file ⟨sampleHeader tar.TypeReg "sub/file-1" "" 0o644, 512⟩).stat
          (sampleFs symlinkHeaders) = some info ∧
        (sampleFs symlinkHeaders).Stat
          (Join (Dir "tmp/symlink-0".toList) "../sub/file-1".toList) = .ok info ∧
        (sampleFs symlinkHeaders).Stat "tmp/symlink-0".toList = .ok info) ∧
    (Join (Dir "tmp/symlink-0".toList) "../sub/file-1".toList = "sub/file-1".toList ∧
      Join (Dir "tmp/abs".toList) "/x".toList = "tmp/x".toList ∧
      (sampleFs symlinkHeaders).Open "tmp/abs".toList
        = (sampleFs symlinkHeaders).Open "tmp/x".toList ∧
      (sampleFs symlinkHeaders).Open "tmp/abs".toList = .ok (File.openFile
        { header := { sampleHeader tar.TypeReg "tmp/x" "" 0o644 with
                      Name := "tmp/x".toList },
          reader := some (NewSectionReader 1536 3) })) ∧
    (sampleFs invalidNameHeaders).Open "s".toList
      = .error (Error.PathError "open".toList "\xff/f".toList Error.ErrInvalid) :=
  ⟨C15_symlink_followed [] 0 0 (sampleReader symlinkHeaders) (sampleFs symlinkHeaders)
    (by decide) "tmp/symlink-0".toList
    (sampleHeader tar.TypeSymlink "tmp/symlink-0" "../sub/file-1" 0o777)
    (fileEntry.file ⟨sampleHeader tar.TypeReg "sub/file-1" "" 0o644, 512⟩)
    (by decide) (by decide) (by decide),
   ⟨by decide, by decide, by decide, by decide⟩,
   (C15_symlink_followed [] 0 0 (sampleReader invalidNameHeaders)
    (sampleFs invalidNameHeaders) (by decide) "s".toList
    (sampleHeader tar.TypeSymlink "s" "\xff/f" 0o777)
    (fileEntry.file
      ⟨{ sampleHeader tar.TypeReg "\xff/f" "" 0o644 with Name := "\xff/f".toList }, 512⟩)
    (by decide) (by decide) (by decide)).2.2.2.2.1⟩

/-- C14 (as stated, fails on the code): the symbolic link `a` has the target `../x`; joined
against the link's directory it is `../x`, which is not a key of the index, yet `Open` and
`Stat` on `a` fail with `fs.ErrInvalid`, not with `fs.ErrNotExist`: `lookup` rejects the
path with `fs.ValidPath` before it reads the map. -/
theorem C14_target_above_root_is_invalid :
    OpenFS [] 0 0 (sampleReader symlinkHeaders) = some (.ok (sampleFs symlinkHeaders)) ∧
    fs.ValidPath "a".toList = true ∧
    hop (sampleFs symlinkHeaders) 1 "a".toList = some "../x".toList ∧
    mapGet (sampleFs symlinkHeaders).files "../x".toList = none ∧
    (sampleFs symlinkHeaders).Open "a".toList
      = .error (Error.PathError "open".toList "../x".toList Error.ErrInvalid) ∧
    (sampleFs symlinkHeaders).Stat "a".toList
      = .error (Error.PathError "stat".toList "../x".toList Error.ErrInvalid) ∧
    errorsIs (Error.PathError "open".toList "../x".toList Error.ErrInvalid) Error.ErrNotExist
      = false := by
  decide

/-- C14 (amended): in every index, if the path `p` looked up at one of the first 40 hops of
the resolution of `name` is not a key, `Open` and `Stat` fail with a path error for `p`; the
error wrapped is `fs.ErrNotExist` when `p` passes `fs.ValidPath` and `fs.ErrInvalid` when
it does not. -/
theorem C14_missing_hop (f : fileSystem) (name p : Str) (k : Nat)
    (hk : k < maxFollowSymlink) (hhop : hop f k name = some p)
    (hmiss : mapGet f.files p = none) :
    f.Open name = .error (Error.PathError "open".toList p
      (if fs.ValidPath p then Error.ErrNotExist else Error.ErrInvalid)) ∧
    f.Stat name = .error (Error.PathError "stat".toList p
      (if fs.ValidPath p then Error.ErrNotExist else Error.ErrInvalid)) ∧
    errorsIs (Error.PathError "open".toList p
      (if fs.ValidPath p then Error.ErrNotExist else Error.ErrInvalid)) Error.ErrNotExist
      = fs.ValidPath p := by
  have hl : f.lookup p = .error (if fs.ValidPath p then Error.ErrNotExist
      else Error.ErrInvalid) := by
    unfold fileSystem.lookup
    cases hv : fs.ValidPath p <;> simp [hmiss]
  refine ⟨openLoop_hop f k maxFollowSymlink name p _ hhop hl hk,
    statLoop_hop f k maxFollowSymlink name p _ hhop hl hk, ?_⟩
  cases hv : fs.ValidPath p <;> simp [errorsIs]

/-- C14 (amended), on the link `tmp/dangling` with target `nothing`: the missing path
`tmp/nothing` is well formed and the error is `fs.ErrNotExist`. -/
theorem C14_missing_hop_witness :
    (sampleFs symlinkHeaders).Open "tmp/dangling".toList
      = .error (Error.PathError "open".toList "tmp/nothing".toList
        (if fs.ValidPath "tmp/nothing".toList then Error.ErrNotExist else Error.ErrInvalid)) ∧
    (sampleFs symlinkHeaders).Stat "tmp/dangling".toList
      = .error (Error.PathError "stat".toList "tmp/nothing".toList
        (if fs.ValidPath "tmp/nothing".toList then Error.ErrNotExist else Error.ErrInvalid)) ∧
    errorsIs (Error.PathError "open".toList "tmp/nothing".toList
      (if fs.ValidPath "tmp/nothing".toList then Error.ErrNotExist else Error.ErrInvalid))
      Error.ErrNotExist = fs.ValidPath "tmp/nothing".toList :=
  C14_missing_hop (sampleFs symlinkHeaders) "tmp/dangling".toList "tmp/nothing".toList 1
    (by decide) (by decide) (by decide)

/-- C18 (fails on the code): `Open` on the block device `tmp/block` returns the bare
`fs.ErrPermission` of `deny.open`, `Open` on the unbound hard link `tmp/link-1` returns the
bare `fs.ErrNotExist` of `link.open`, and `Open` and `Stat` on a cycle of symbolic links
return the bare `ErrLoop`: none of them is a `*fs.PathError`, so none carries the operation
or the path. -/
theorem C18_bare_errors :
    OpenFS [] 0 0 (sampleReader testHeaders) = some (.ok (sampleFs testHeaders)) ∧
    (sampleFs testHeaders).Open "tmp/block".toList = .error Error.ErrPermission ∧
    isPathError Error.ErrPermission = false ∧
    (sampleFs testHeaders).Open "tmp/link-1".toList = .error Error.ErrNotExist ∧
    isPathError Error.ErrNotExist = false ∧
    cycleFs.Open "x".toList = .error Error.ErrLoop ∧
    cycleFs.Stat "x".toList = .error Error.ErrLoop ∧
    isPathError Error.ErrLoop = false := by
  decide

end Tarfs

namespace Tarfs

/-- C11 (fails on the code): for the named pipe `pipe` with header mode 0644, `Stat`
returns a `denyInfo` whose mode is 0: it has no file-type bit, while the header's own
`FileInfo` reports `fs.ModeNamedPipe | 0644`.  `denyInfo.Mode` converts
`header.Mode &^ 0777`, and the type of a member is in `Typeflag`, not in `Mode`; a header
mode that carries the Unix type bits (010644) fares no better. -/
theorem C11_denied_mode_has_no_type :
    OpenFS [] 0 0 (sampleReader pipeHeaders) = some (.ok (sampleFs pipeHeaders)) ∧
    (sampleFs pipeHeaders).Stat "pipe".toList
      = .ok (FileInfo.denyInfo (sampleHeader tar.TypeFifo "pipe" "" 0o644)) ∧
    (FileInfo.denyInfo (sampleHeader tar.TypeFifo "pipe" "" 0o644)).Mode = 0 ∧
    (FileInfo.denyInfo (sampleHeader tar.TypeFifo "pipe" "" 0o644)).Mode &&& fs.ModeType = 0 ∧
    (FileInfo.headerFileInfo (sampleHeader tar.TypeFifo "pipe" "" 0o644)).Mode
      = fs.ModeNamedPipe ||| 0o644 ∧
    (FileInfo.headerFileInfo (sampleHeader tar.TypeFifo "pipe" "" 0o644)).Mode &&& fs.ModeType
      = fs.ModeNamedPipe ∧
    (FileInfo.denyInfo (sampleHeader tar.TypeFifo "pipe" "" 0o10644)).Mode &&& fs.ModeType
      = 0 := by
  decide

end Tarfs

namespace Tarfs

theorem openFile_run_append (data : List Nat) : ∀ (a b : List FileOp) (f : openFile),
    openFile.run data f (a ++ b) =
      ((openFile.run data f a).1 ++ (openFile.run data (openFile.run data f a).2 b).1,
        (openFile.run data (openFile.run data f a).2 b).2) := by
  intro a
  induction a with
  | nil => intro b f; rfl
  | cons op ops ih =>
    intro b f
    have h := ih b (openFile.call data f op).2
    simp only [List.cons_append, openFile.run, List.append_eq]
    rw [h]

theorem openFile_run_length (data : List Nat) : ∀ (ops : List FileOp) (f : openFile),
    (openFile.run data f ops).1.length = ops.length := by
  intro ops
  induction ops with
  | nil => intro f; rfl
  | cons op ops ih =>
    intro f
    simp only [openFile.run, List.length_cons, ih]

/-- A call on a closed file handle returns what the close contract prescribes and leaves
the handle closed. -/
theorem openFile_call_closed (data : List Nat) (f : openFile) (h : f.reader = none)
    (op : FileOp) : f.call data op = (closedResult Nat op, f) := by
  cases op with
  | Read len => simp only [openFile.call, openFile.Read, h, closedResult]
  | ReadAt len off => simp only [openFile.call, openFile.ReadAt, h, closedResult]
  | Seek offset whence => simp only [openFile.call, openFile.Seek, h, closedResult]
  | Close =>
    cases f with
    | mk header reader =>
      simp only at h
      subst h
      rfl

theorem openFile_run_closed (data : List Nat) : ∀ (ops : List FileOp) (f : openFile),
    f.reader = none → openFile.run data f ops = (ops.map (closedResult Nat), f) := by
  intro ops
  induction ops with
  | nil => intro f _; rfl
  | cons op ops ih =>
    intro f h
    simp only [openFile.run, openFile_call_closed data f h op, ih f h, List.map_cons]

theorem openFile_close_nil (data : List Nat) : ∀ (ops : List FileOp) (f : openFile),
    closeReturnsNil ops (openFile.run data f ops).1 = true := by
  intro ops
  induction ops with
  | nil => intro f; rfl
  | cons op ops ih =>
    intro f
    cases op with
    | Read len => simp only [openFile.run, openFile.call, closeReturnsNil, ih]
    | ReadAt len off => simp only [openFile.run, openFile.call, closeReturnsNil, ih]
    | Seek offset whence => simp only [openFile.run, openFile.call, closeReturnsNil, ih]
    | Close => simp only [openFile.run, openFile.call, openFile.Close, closeReturnsNil, ih]

/-- C12: for every file handle (of a regular file or of a hard link), every source and
every sequence of calls that contains a `Close`: the handle ends closed, each call after
the first `Close` returns what the close contract prescribes (`Read` and `ReadAt` no byte
and `io.EOF`, `Seek` the error `fs.ErrClosed`, `Close` nil), and every `Close` of the
sequence, the first included, returns nil. -/
theorem C12_closed_file_handle (data : List Nat) (f : openFile) (pre post : List FileOp) :
    ((openFile.run data f (pre ++ FileOp.Close :: post)).1).drop (pre.length + 1)
      = post.map (closedResult Nat) ∧
    closeReturnsNil (pre ++ FileOp.Close :: post)
      (openFile.run data f (pre ++ FileOp.Close :: post)).1 = true ∧
    (openFile.run data f (pre ++ FileOp.Close :: post)).2.reader = none := by
  refine ⟨?_, openFile_close_nil data _ f, ?_⟩
  · rw [openFile_run_append]
    simp only [openFile.run, openFile.call, openFile.Close]
    rw [openFile_run_closed data post _ rfl]
    have hlen := openFile_run_length data pre f
    rw [← hlen]
    simp
  · rw [openFile_run_append]
    simp only [openFile.run, openFile.call, openFile.Close]
    rw [openFile_run_closed data post _ rfl]

/-- C13 (as stated, fails on the code): on the handle that `symlink.open` makes for the
symbolic link `tmp/symlink-0`, after `Close` the call `Seek(0, io.SeekStart)` returns
position 0 and no error, and `ReadAt(b, -1)` returns the error for a negative offset, not
`io.EOF`: `Close` only resets the `strings.Reader` to the empty string, and the handle
keeps no closed state that a call could test. -/
theorem C13_symlink_seek_after_close_succeeds :
    fileEntry.«open» (sampleFs symlinkHeaders)
        (fileEntry.symlink (sampleHeader tar.TypeSymlink "tmp/symlink-0" "../sub/file-1" 0o777))
      = .ok (File.openSymlink sampleSymlinkHandle) ∧
    (sampleSymlinkHandle.run
        [FileOp.Close, FileOp.Seek 0 0, FileOp.ReadAt 1 (-1), FileOp.Read 1, FileOp.Close]).1
      = [FileResult.closed none, FileResult.position 0 none,
         FileResult.bytes [] (some (Error.other 1)), FileResult.bytes [] (some Error.EOF),
         FileResult.closed none] ∧
    closedResult Char (FileOp.Seek 0 0) = FileResult.position 0 (some Error.ErrClosed) := by
  decide

theorem openSymlink_run_append : ∀ (a b : List FileOp) (f : openSymlink),
    openSymlink.run f (a ++ b) =
      ((openSymlink.run f a).1 ++ (openSymlink.run (openSymlink.run f a).2 b).1,
        (openSymlink.run (openSymlink.run f a).2 b).2) := by
  intro a
  induction a with
  | nil => intro b f; rfl
  | cons op ops ih =>
    intro b f
    have h := ih b (openSymlink.call f op).2
    simp only [List.cons_append, openSymlink.run, List.append_eq]
    rw [h]

theorem openSymlink_run_length : ∀ (ops : List FileOp) (f : openSymlink),
    (openSymlink.run f ops).1.length = ops.length := by
  intro ops
  induction ops with
  | nil => intro f; rfl
  | cons op ops ih =>
    intro f
    simp only [openSymlink.run, List.length_cons, ih]

theorem openSymlink_close_nil : ∀ (ops : List FileOp) (f : openSymlink),
    closeReturnsNil ops (openSymlink.run f ops).1 = true := by
  intro ops
  induction ops with
  | nil => intro f; rfl
  | cons op ops ih =>
    intro f
    cases op with
    | Read len => simp only [openSymlink.run, openSymlink.call, closeReturnsNil, ih]
    | ReadAt len off => simp only [openSymlink.run, openSymlink.call, closeReturnsNil, ih]
    | Seek offset whence => simp only [openSymlink.run, openSymlink.call, closeReturnsNil, ih]
    | Close =>
      simp only [openSymlink.run, openSymlink.call, openSymlink.Close, closeReturnsNil, ih]

/-- `Seek` on a `strings.Reader` never fails with `fs.ErrClosed`, returns the offset
itself and no error for `io.SeekStart` with an offset that is not negative, and keeps the
string and a read index that is not negative. -/
theorem StringsReader_Seek_reset (r : StringsReader) (offset whence : Int) (hi : 0 ≤ r.i) :
    (r.Seek offset whence).1.2 ≠ some Error.ErrClosed ∧
    (whence = 0 → 0 ≤ offset → (r.Seek offset whence).1 = (offset, none)) ∧
    (r.Seek offset whence).2.s = r.s ∧ 0 ≤ (r.Seek offset whence).2.i := by
  unfold StringsReader.Seek
  by_cases hw : whence ≠ 0 ∧ whence ≠ 1 ∧ whence ≠ 2
  · rw [if_pos hw]
    exact ⟨by simp, fun h0 => absurd h0 hw.1, rfl, hi⟩
  · rw [if_neg hw]
    have h0 : whence = 0 →
        (if whence = 0 then offset
          else if whence = 1 then int64.wrap (r.i + offset)
          else int64.wrap ((r.s.length : Int) + offset)) = offset := fun h => if_pos h
    generalize (if whence = 0 then offset
          else if whence = 1 then int64.wrap (r.i + offset)
          else int64.wrap ((r.s.length : Int) + offset)) = abs at h0 ⊢
    by_cases habs : abs < 0
    · simp only [if_pos habs]
      refine ⟨by simp, fun hw0 hoff => ?_, trivial, hi⟩
      have := h0 hw0
      omega
    · simp only [if_neg habs]
      refine ⟨by simp, fun hw0 _ => ?_, trivial, by omega⟩
      rw [h0 hw0]

/-- A call on a symbolic-link handle whose reader holds the empty string, at a read index
that is not negative, returns what `afterReset` describes and leaves the reader so. -/
theorem openSymlink_call_reset (f : openSymlink) (hs : f.reader.s = [])
    (hi : 0 ≤ f.reader.i) (op : FileOp) :
    afterReset op (f.call op).1 = true ∧ (f.call op).2.reader.s = [] ∧
      0 ≤ (f.call op).2.reader.i := by
  cases op with
  | Read len =>
    have h1 : f.reader.i ≥ ((f.reader.s.length : Nat) : Int) := by
      rw [hs]
      simpa using hi
    simp only [openSymlink.call, openSymlink.Read, StringsReader.Read, if_pos h1, afterReset]
    exact ⟨by simp, hs, hi⟩
  | ReadAt len off =>
    refine ⟨?_, hs, hi⟩
    simp only [openSymlink.call, openSymlink.ReadAt, StringsReader.ReadAt, hs, afterReset]
    by_cases hoff : off < 0
    · simp [hoff]
    · have h0 : 0 ≤ off := by omega
      simp [hoff, h0]
  | Seek offset whence =>
    obtain ⟨h1, h2, h3, h4⟩ := StringsReader_Seek_reset f.reader offset whence hi
    simp only [openSymlink.call, openSymlink.Seek, afterReset, decide_eq_true_eq]
    refine ⟨⟨h1, fun h0 hoff => ?_⟩, h3.trans hs, h4⟩
    rw [h2 h0 hoff]
    exact ⟨rfl, rfl⟩
  | Close =>
    refine ⟨?_, rfl, ?_⟩
    · simp [openSymlink.call, openSymlink.Close, afterReset]
    · simp [openSymlink.call, openSymlink.Close, StringsReader.Reset]

theorem openSymlink_run_reset : ∀ (ops : List FileOp) (f : openSymlink),
    f.reader.s = [] → 0 ≤ f.reader.i →
    List.Forall₂ (fun op r => afterReset op r = true) ops (openSymlink.run f ops).1 ∧
      (openSymlink.run f ops).2.reader.s = [] := by
  intro ops
  induction ops with
  | nil => intro f hs _; exact ⟨List.Forall₂.nil, hs⟩
  | cons op ops ih =>
    intro f hs hi
    obtain ⟨h1, h2, h3⟩ := openSymlink_call_reset f hs hi op
    obtain ⟨h4, h5⟩ := ih (f.call op).2 h2 h3
    simp only [openSymlink.run]
    exact ⟨List.Forall₂.cons h1 h4, h5⟩

/-- C13 (amended): for every symbolic-link handle, whatever its link target text, and
every sequence of calls that contains a `Close`: each call after the first `Close` returns
what the reset reader gives (`Read` no byte and `io.EOF`; `ReadAt` no byte, with `io.EOF`
at an offset that is not negative and the negative-offset error otherwise; `Seek` never
the error `fs.ErrClosed`, and `Seek(offset, io.SeekStart)` with `offset ≥ 0` the position
`offset` and no error; `Close` nil), every `Close` of the sequence returns nil, and the
reader ends on the empty string. -/
theorem C13_symlink_handle_after_close (f : openSymlink) (pre post : List FileOp) :
    List.Forall₂ (fun op r => afterReset op r = true) post
      (((openSymlink.run f (pre ++ FileOp.Close :: post)).1).drop (pre.length + 1)) ∧
    closeReturnsNil (pre ++ FileOp.Close :: post)
      (openSymlink.run f (pre ++ FileOp.Close :: post)).1 = true ∧
    (openSymlink.run f (pre ++ FileOp.Close :: post)).2.reader.s = [] := by
  have hrun := openSymlink_run_reset post
    (openSymlink.call (openSymlink.run f pre).2 FileOp.Close).2 rfl (le_refl 0)
  refine ⟨?_, openSymlink_close_nil _ f, ?_⟩
  · rw [openSymlink_run_append]
    simp only [openSymlink.run]
    have hlen := openSymlink_run_length pre f
    have hdrop : ∀ (A : List (FileResult Char)) (c : FileResult Char)
        (B : List (FileResult Char)),
        A.length = pre.length → (A ++ c :: B).drop (pre.length + 1) = B := by
      intro A c B hA
      rw [← hA]
      simp
    rw [hdrop _ _ _ hlen]
    exact hrun.1
  · rw [openSymlink_run_append]
    simp only [openSymlink.run]
    exact hrun.2

end Tarfs

namespace Tarfs

/-- C19 (fails on the code): the archive declares the hard links `l1` and `l2`, both to
`t`, and then the regular file `t`; it is extracted to `out` in an empty tree.  Both links
are deferred under the same key `t` of `unresolvedLinks`, so the second replaces the
first; when `t` appears only `l2` is created, the map is emptied, and `Extract` returns
nil although `out/l1` does not exist.  With `l1` alone the link is created. -/
theorem C19_second_deferred_link_replaces_first :
    Extract "out".toList [] (sampleReader twoLinksHeaders)
      = some (none, [("out".toList, Node.dir), ("out/t".toList, Node.file),
          ("out/l2".toList, Node.file)]) ∧
    os.stat [("out".toList, Node.dir), ("out/t".toList, Node.file),
      ("out/l2".toList, Node.file)] "out/l1".toList = none ∧
    Extract "out".toList [] (sampleReader oneLinkHeaders)
      = some (none, [("out".toList, Node.dir), ("out/t".toList, Node.file),
          ("out/l1".toList, Node.file)]) := by
  decide

end Tarfs

namespace Tarfs

theorem stripSlashes_length (p : Str) : (path.stripSlashes p).length ≤ p.length := by
  induction p with
  | nil => simp [path.stripSlashes]
  | cons c r ih =>
    simp only [path.stripSlashes]
    split
    · simp only [List.length_cons]
      omega
    · exact le_refl _

theorem dropWhile_length_le {α : Type} (q : α → Bool) (l : List α) :
    (l.dropWhile q).length ≤ l.length := by
  induction l with
  | nil => simp
  | cons c r ih =>
    rw [List.dropWhile_cons]
    split
    · simp only [List.length_cons]
      omega
    · exact le_refl _

/-- The parent that `os.MkdirAll` recurses on is shorter than the path. -/
theorem parentOf_length (p : Str) (h : (os.parentOf p).length > 0) :
    (os.parentOf p).length < p.length := by
  unfold os.parentOf at h ⊢
  simp only [List.length_reverse, List.length_drop] at h ⊢
  have h1 := dropWhile_length_le (fun c : Char => decide (c ≠ '/')) (path.stripSlashes p.reverse)
  have h2 := stripSlashes_length p.reverse
  simp only [List.length_reverse] at h2
  omega

/-- `os.MkdirAll` returns when the fuel exceeds the length of the path. -/
theorem MkdirAll_returns : ∀ (fuel : Nat) (tree : List (Str × Node)) (p : Str),
    p.length < fuel → ∃ r, os.MkdirAll fuel tree p = some r := by
  intro fuel
  induction fuel with
  | zero => intro tree p h; omega
  | succ n ih =>
    intro tree p h
    rw [os.MkdirAll]
    cases hs : os.stat tree p with
    | some node => cases node <;> exact ⟨_, rfl⟩
    | none =>
      simp only []
      by_cases hp : (os.parentOf p).length > 0
      · rw [if_pos hp]
        have hlt := parentOf_length p hp
        obtain ⟨r, hr⟩ := ih tree (os.parentOf p) (by omega)
        rw [hr]
        obtain ⟨tree1, err⟩ := r
        cases err with
        | some e => exact ⟨_, rfl⟩
        | none =>
          simp only []
          cases hm : os.Mkdir tree1 p with
          | mk tree2 err2 =>
            cases err2 with
            | none => exact ⟨_, rfl⟩
            | some e =>
              simp only []
              cases os.stat tree2 p with
              | none => exact ⟨_, rfl⟩
              | some node => cases node <;> exact ⟨_, rfl⟩
      · rw [if_neg hp]
        simp only []
        cases hm : os.Mkdir tree p with
        | mk tree2 err2 =>
          cases err2 with
          | none => exact ⟨_, rfl⟩
          | some e =>
            simp only []
            cases os.stat tree2 p with
            | none => exact ⟨_, rfl⟩
            | some node => cases node <;> exact ⟨_, rfl⟩

theorem Extract_visit_returns (dst : Str) (h : tar.Header) (pos : Int) (s : Extraction) :
    ∃ r, Extract.visit dst h pos s = some r := by
  unfold Extract.visit
  obtain ⟨r, hr⟩ := MkdirAll_returns ((path.Dir (path.Join dst h.Name)).length + 1) s.tree
    (path.Dir (path.Join dst h.Name)) (by omega)
  simp only [hr]
  obtain ⟨tree1, err⟩ := r
  cases err with
  | some e => exact ⟨_, rfl⟩
  | none =>
    simp only []
    rcases hsw : Extract.switch dst h { s with tree := tree1 } with ⟨s1, b, e⟩
    cases b <;> exact ⟨_, rfl⟩

theorem walk_returns {σ : Type} (f : tar.Header → Int → σ → Option (σ × Option Error))
    (hf : ∀ h pos s, ∃ r, f h pos s = some r) (err : Option Error) :
    ∀ (members : List (tar.Header × Int)) (s : σ), ∃ r, walk f members err s = some r := by
  intro members
  induction members with
  | nil => intro s; exact ⟨_, rfl⟩
  | cons m rest ih =>
    intro s
    obtain ⟨h, pos⟩ := m
    rw [walk]
    split
    · exact ih s
    · obtain ⟨r, hr⟩ := hf { h with Name := (path.Join ['/'] h.Name).drop 1 } pos s
      rw [hr]
      obtain ⟨s1, e⟩ := r
      cases e with
      | some e1 => exact ⟨_, rfl⟩
      | none => exact ih s1

/-- `Extract` returns on every destination tree and every reader. -/
theorem Extract_returns (dst : Str) (tree : List (Str × Node)) (tarball : tar.Reader) :
    ∃ r, Extract dst tree tarball = some r := by
  unfold Extract
  obtain ⟨r, hr⟩ := walk_returns (Extract.visit dst) (Extract_visit_returns dst) tarball.err
    tarball.members { tree := tree, unresolvedLinks := [], directories := [] }
  rw [hr]
  obtain ⟨s, e⟩ := r
  cases e with
  | some e1 => exact ⟨_, rfl⟩
  | none =>
    simp only []
    cases s.unresolvedLinks with
    | nil => exact ⟨_, rfl⟩
    | cons x rest => exact ⟨_, rfl⟩

end Tarfs

namespace Tarfs

/-- C21 (fails on the code): extracted to `out` in an empty tree, the archive that
declares the directory `a` after its descendant `a/b` makes `Extract` fail with
`fs.ErrExist`: `os.MkdirAll` has created `out/a`, and the error of `os.Mkdir` is let
through unless it is `fs.ErrNotExist`.  A hard link declared twice, and a deferred hard
link whose path exists when its target appears, fail with `fs.ErrExist` as well.  Only a
symbolic link declared twice is tolerated. -/
theorem C21_already_exists_not_tolerated :
    Extract "out".toList [] (sampleReader lateDirHeaders)
      = some (some Error.ErrExist,
          [("out".toList, Node.dir), ("out/a".toList, Node.dir),
           ("out/a/b".toList, Node.file)]) ∧
    Extract "out".toList [] (sampleReader twiceLinkHeaders)
      = some (some Error.ErrExist,
          [("out".toList, Node.dir), ("out/t".toList, Node.file),
           ("out/l".toList, Node.file)]) ∧
    Extract "out".toList [] (sampleReader deferredLinkHeaders)
      = some (some Error.ErrExist,
          [("out".toList, Node.dir), ("out/l".toList, Node.file),
           ("out/t".toList, Node.file)]) ∧
    Extract "out".toList [] (sampleReader twiceSymlinkHeaders)
      = some (none, [("out".toList, Node.dir), ("out/s".toList, Node.symlink "x".toList)]) ∧
    os.Mkdir [("out".toList, Node.dir), ("out/a".toList, Node.dir)] "out/a".toList
      = ([("out".toList, Node.dir), ("out/a".toList, Node.dir)], some Error.ErrExist) := by
  refine ⟨by decide, by decide, by decide, by decide, by decide⟩

/-- C22: in every file system built by `OpenFS`, every path recorded in the child set of
a directory entry is a key of the index; hence `readDirEntries` on the names of the
directory finds an entry for each name and returns, with no nil dereference, and so does
`ReadDir` on the directory, unless `lookup` rejects the path of the directory itself
(a path that is not valid UTF-8, for which `ReadDir` returns a path error that wraps
`fs.ErrInvalid`). -/
theorem C22_children_are_keys (data : List Nat) (size : Int) (modTime : Nat)
    (reader : tar.Reader) (f : fileSystem)
    (hopen : OpenFS data size modTime reader = some (.ok f))
    (k : Str) (d : dir) (hk : mapGet f.files k = some (fileEntry.dir d)) :
    (d.entries.all (fun c => (mapGet f.files c).isSome)) = true ∧
    (d.readDirNames.all (fun c => (mapGet f.files c).isSome)) = true ∧
    ∃ infos : List FileInfo,
      readDirEntries f d.readDirNames = .ok infos ∧ d.readDir f = .ok infos ∧
      f.ReadDir k =
        (if fs.ValidPath k then .ok infos
         else .error (Error.PathError "readdir".toList k Error.ErrInvalid)) := by
  have hwf := OpenFS_wellFormed data size modTime reader f hopen
  obtain ⟨hperm, hkeys, -⟩ := readDirNames_spec f hwf k d hk
  obtain ⟨infos, hread, -⟩ := readDirEntries_keys f hwf.inv d.readDirNames hkeys
  have hkv := key_valid f.files f.links hwf.inv k _ hk
  refine ⟨?_, ?_, infos, hread, hread, ?_⟩
  · rw [List.all_eq_true]
    intro c hc
    exact hkeys c (hperm.mem_iff.2 hc)
  · rw [List.all_eq_true]
    intro c hc
    exact hkeys c hc
  · unfold fileSystem.ReadDir fileSystem.readDir
    rw [lookup_key_cases f hwf.inv k _ hk, hkv]
    cases hv : utf8.ValidString k
    · rfl
    · simp only [dir.readDir, hread, if_true]

/-- C22, on the root of the archive that declares `a/b` and then the directory `a`. -/
theorem C22_children_are_keys_witness :
    (lateDirRoot.entries.all
      (fun c => (mapGet (sampleFs lateDirHeaders).files c).isSome)) = true ∧
    (lateDirRoot.readDirNames.all
      (fun c => (mapGet (sampleFs lateDirHeaders).files c).isSome)) = true ∧
    ∃ infos : List FileInfo,
      readDirEntries (sampleFs lateDirHeaders) lateDirRoot.readDirNames = .ok infos ∧
      lateDirRoot.readDir (sampleFs lateDirHeaders) = .ok infos ∧
      (sampleFs lateDirHeaders).ReadDir ".".toList = .ok infos :=
  C22_children_are_keys [] 0 0 (sampleReader lateDirHeaders) (sampleFs lateDirHeaders)
    (by decide) ".".toList lateDirRoot (by decide)

end Tarfs
